import Mathlib

/-!
# nppgtags: result parser and update scheduler

A shallow embedding of

* `ScintillaViewUI::Tab::parseCmd` and `ScintillaViewUI::Tab::parseFindFile`
  (`src/ScintillaViewUI.cpp`), the two scanners that turn the output of the
  external query tool into the text of the result view, and
* `sheduleForUpdate`, `runSheduledUpdate` and `UpdateSingleFile`
  (`src/GTags.cpp`), the list of files that wait for a re-index and its replay,
* the completion callbacks, `checkForGTagsBinaries` and `PluginInit` of
  `src/GTags.cpp`, and the database callbacks of `src/ConfigWin.cpp`, each as
  the sequence of calls it makes to its collaborators,
* the entry points of `src/GTags.cpp` with `getSelection` and `getDatabase`,
  each as the sequence of its calls and of its stores to the tag buffer,
* `ScintillaViewUI::openItem` (`src/ScintillaViewUI.cpp`), which decodes a line
  of the result view, and `ConfigWin::fillLibDb` and `ConfigWin::saveConfig`
  (`src/ConfigWin.cpp`).

## Memory model of the scanners

Both scanners walk a `const char*` over a NUL-terminated buffer.  A pointer
into the buffer is modelled by the list of characters that lie between it and
the terminating NUL: reading `*p` gives the head of the list, or NUL when the
list is empty (the pointer stands on the terminator), and `p++` drops the head.
A read of a position after the terminator is outside the buffer; a run that
makes such a read ends in `Run.outOfBounds`.  A (pointer, length) pair that
the source keeps for a token is modelled by the list of the token's characters.

Characters are Lean `Char`s.  The text of a C string holds no NUL; where a list
does hold one, the scanners treat it as the source does a NUL byte in the
middle of a buffer: the tests `*src == 0` and `*eol != 0` see it, the other
scans pass over it.
-/

set_option autoImplicit false

namespace GTags

/-! ## Outcomes and the appended text -/

/-- Result of running a scanner: it finished with a value, it read a position
after the terminating NUL, or the iteration budget of the model ran out. -/
inductive Run (α : Type) where
  | ok (a : α)
  | outOfBounds
  | outOfFuel
  deriving DecidableEq, Repr

/-- One group of appends to the UI buffer `dst`.
`file p` stands for `dst += "\n\t"; dst.append(p)` (lines 136-137 and
175-176); `hit l s` stands for `dst += "\n\t\tline "; dst.append(l);
dst += ":\t"; dst.append(s)` (lines 140-142 and 152). -/
inductive Entry where
  | file (path : List Char)
  | hit (line : List Char) (snippet : List Char)
  deriving DecidableEq, Repr

/-- Whether an entry is a file heading. -/
def Entry.isFile : Entry → Bool
  | .file _ => true
  | .hit _ _ => false

/-- The characters an entry appends to `dst`. -/
def Entry.text : Entry → List Char
  | .file p => ['\n', '\t'] ++ p
  | .hit l s => "\n\t\tline ".data ++ l ++ [':', '\t'] ++ s

/-- The characters a sequence of entries appends to `dst`, in order. -/
def render : List Entry → List Char
  | [] => []
  | e :: es => e.text ++ render es

/-! ## Character classes tested by the scanning loops -/

/-- The test `c == ' ' || c == '\t'`. -/
def isBlank (c : Char) : Bool := c == ' ' || c == '\t'

/-- The test `c == '\n' || c == '\r'`. -/
def isEol (c : Char) : Bool := c == '\n' || c == '\r'

/-- The test `c == '\n' || c == '\r' || c == ' ' || c == '\t'`
(lines 109 and 167). -/
def isSpace (c : Char) : Bool := c == '\n' || c == '\r' || c == ' ' || c == '\t'

/-- The loop `while (*p == '\n' || *p == '\r' || *p == ' ' || *p == '\t') p++;`.
It stops on the terminating NUL at the latest. -/
def skipSpace (p : List Char) : List Char := p.dropWhile isSpace

/-- The loop `while (*p == ' ' || *p == '\t') p++;`.
It stops on the terminating NUL at the latest. -/
def skipBlank (p : List Char) : List Char := p.dropWhile isBlank

/-- The loop `while (*e != ' ' && *e != '\t') e++;` (lines 118-119 and
126-127): the token that is passed over and the pointer it stops at.  The
terminating NUL is neither a space nor a tab, so a buffer without a further
blank makes the loop read after the terminator. -/
def scanToken : List Char → Option (List Char × List Char)
  | [] => none
  | c :: cs =>
    if isBlank c then some ([], c :: cs)
    else match scanToken cs with
      | some (tok, rest) => some (c :: tok, rest)
      | none => none

/-- The loop `while (*e != '\n' && *e != '\r') e++;` (lines 149-150): the text
that is passed over and the pointer it stops at.  A buffer without a further
line terminator makes the loop read after the terminating NUL. -/
def scanLine : List Char → Option (List Char × List Char)
  | [] => none
  | c :: cs =>
    if isEol c then some ([], c :: cs)
    else match scanLine cs with
      | some (txt, rest) => some (c :: txt, rest)
      | none => none

/-- The loop `while (*eol != '\n' && *eol != '\r' && *eol != 0) eol++;`
(lines 172-173): the text that is passed over and the pointer it stops at. -/
def scanPath : List Char → List Char × List Char
  | [] => ([], [])
  | c :: cs =>
    if isEol c || c == '\x00' then ([], c :: cs)
    else ((scanPath cs).1.cons c, (scanPath cs).2)

/-- The C library's `strlen`: the number of characters before the first NUL. -/
def strlen (s : List Char) : Nat := (s.takeWhile (fun c => c != '\x00')).length

/-- The C library's `strncmp(a, b, n)`: compares at most `n` characters and
stops at the first difference or at a NUL.  Zero means equal. -/
def strncmp : List Char → List Char → Nat → Int
  | _, _, 0 => 0
  | a, b, n + 1 =>
    let x := a.headD '\x00'
    let y := b.headD '\x00'
    if x != y then (x.toNat : Int) - (y.toNat : Int)
    else if x == '\x00' then 0
    else strncmp a.tail b.tail n

/-! ## `ScintillaViewUI::Tab::parseCmd` -/

/-- The condition of line 131-132: `prevFile == NULL ||
(unsigned)(fileResEnd - src) != prevFileLen || strncmp(src, prevFile,
prevFileLen)`. -/
def isNewFile (prevFile : Option (List Char)) (file : List Char) : Bool :=
  match prevFile with
  | none => true
  | some prev => file.length != prev.length || strncmp file prev prev.length != 0

/-- Effect of one pass through the body of a scanning loop: the loop is left
by `break`, a position after the terminating NUL is read, or the pass appends
`out` to `dst` and the next pass starts with `prevFile` and `src`. -/
inductive Step where
  | stop
  | fault
  | next (out : List Entry) (prevFile : Option (List Char)) (src : List Char)
  deriving DecidableEq, Repr

/-- Prefix the entries appended so far to the result of the rest of a run. -/
def Run.prepend (out : List Entry) : Run (List Entry) → Run (List Entry)
  | .ok es => .ok (out ++ es)
  | .outOfBounds => .outOfBounds
  | .outOfFuel => .outOfFuel

/-- One pass through the body of the `for (;;)` loop of `parseCmd` (lines
109-153).  `tagLen` is `strlen(_search)`, `prevFile` the (pointer, length) of
the last file heading (`none` for `NULL`), `src` the read pointer. -/
def parseCmdBody (tagLen : Nat) (prevFile : Option (List Char)) (src : List Char) : Step :=
  let src₁ := skipSpace src
  if src₁.headD '\x00' == '\x00' then .stop
  else if src₁.length < tagLen then .fault
  else
    let src₂ := skipBlank (src₁.drop tagLen)
    match scanToken src₂ with
    | none => .fault
    | some (lineRes, lineResEnd) =>
      let src₃ := skipBlank lineResEnd
      match scanToken src₃ with
      | none => .fault
      | some (file, fileResEnd) =>
        let fresh := isNewFile prevFile file
        let src₄ := skipBlank fileResEnd
        match scanLine src₄ with
        | none => .fault
        | some (snippet, lineResEnd₂) =>
          .next ((if fresh then [Entry.file file] else []) ++ [Entry.hit lineRes snippet])
            (if fresh then some file else prevFile) lineResEnd₂

/-- The `for (;;)` loop of `parseCmd` (lines 107-154).  Every pass that does
not leave the loop moves `src` forward, so the first argument, a bound on the
number of passes, is large enough when it exceeds the length of `src`. -/
def parseCmdLoop (tagLen : Nat) : Nat → Option (List Char) → List Char → Run (List Entry)
  | 0, _, _ => .outOfFuel
  | fuel + 1, prevFile, src =>
    match parseCmdBody tagLen prevFile src with
    | .stop => .ok []
    | .fault => .outOfBounds
    | .next out prevFile₁ src₁ => (parseCmdLoop tagLen fuel prevFile₁ src₁).prepend out

/-- The entries `parseCmd` appends when it enters its loop with the file
heading state `prevFile`. -/
def parseCmdFrom (search : List Char) (prevFile : Option (List Char)) (src : List Char) :
    Run (List Entry) :=
  parseCmdLoop (strlen search) (src.length + 1) prevFile src

/-- The entries `parseCmd` appends for the raw text `src` and the search text
`search` (`_search`). -/
def parseCmdEntries (search src : List Char) : Run (List Entry) :=
  parseCmdFrom search none src

/-- `ScintillaViewUI::Tab::parseCmd(dst, src)`: the contents of `dst` after the
call. -/
def parseCmd (search dst src : List Char) : Run (List Char) :=
  match parseCmdEntries search src with
  | .ok es => .ok (dst ++ render es)
  | .outOfBounds => .outOfBounds
  | .outOfFuel => .outOfFuel

/-! ## `ScintillaViewUI::Tab::parseFindFile` -/

/-- One pass through the body of the `for (;;)` loop of `parseFindFile`
(lines 167-177). -/
def parseFindFileBody (src : List Char) : Step :=
  let src₁ := skipSpace src
  if src₁.headD '\x00' == '\x00' then .stop
  else .next [Entry.file (scanPath src₁).1] none (scanPath src₁).2

/-- The `for (;;)` loop of `parseFindFile` (lines 165-178). -/
def parseFindFileLoop : Nat → List Char → Run (List Entry)
  | 0, _ => .outOfFuel
  | fuel + 1, src =>
    match parseFindFileBody src with
    | .stop => .ok []
    | .fault => .outOfBounds
    | .next out _ src₁ => (parseFindFileLoop fuel src₁).prepend out

/-- The entries `parseFindFile` appends for the raw text `src`. -/
def parseFindFileEntries (src : List Char) : Run (List Entry) :=
  parseFindFileLoop (src.length + 1) src

/-- `ScintillaViewUI::Tab::parseFindFile(dst, src)`: the contents of `dst`
after the call. -/
def parseFindFile (dst src : List Char) : Run (List Char) :=
  match parseFindFileEntries src with
  | .ok es => .ok (dst ++ render es)
  | .outOfBounds => .outOfBounds
  | .outOfFuel => .outOfFuel

/-! ## Well-formed output of the query tool -/

/-- A character that can stand in a token of a record line: neither white
space nor NUL. -/
def isTokenChar (c : Char) : Bool := !isSpace c && c != '\x00'

/-- A record line `tag lineNumber filePath snippet` of the query tool's output,
cut into its four fields and the white space around them. -/
structure Line where
  /-- White space in front of the record: blank lines, indentation. -/
  lead : List Char
  tag : List Char
  sep₁ : List Char
  line : List Char
  sep₂ : List Char
  file : List Char
  sep₃ : List Char
  snippet : List Char
  /-- The line terminator and the white space that follows it. -/
  term : List Char
  deriving DecidableEq, Repr

/-- The characters of a record line as they stand in the raw text. -/
def Line.wire (l : Line) : List Char :=
  l.lead ++ (l.tag ++ (l.sep₁ ++ (l.line ++ (l.sep₂ ++ (l.file ++ (l.sep₃ ++
    (l.snippet ++ l.term)))))))

/-- A record line is well formed for a search text of length `tagLen`: the tag
token has that length, the three tokens are non-empty runs of token
characters separated by non-empty runs of spaces and tabs, the snippet is the
rest of the physical line from its first non-blank character on, and the line
ends with a line terminator. -/
@[mk_iff]
structure Line.WellFormed (tagLen : Nat) (l : Line) : Prop where
  lead_space : ∀ c ∈ l.lead, isSpace c = true
  tag_length : l.tag.length = tagLen
  tag_token : ∀ c ∈ l.tag, isTokenChar c = true
  sep₁_blank : ∀ c ∈ l.sep₁, isBlank c = true
  sep₁_ne : l.sep₁ ≠ []
  line_token : ∀ c ∈ l.line, isTokenChar c = true
  line_ne : l.line ≠ []
  sep₂_blank : ∀ c ∈ l.sep₂, isBlank c = true
  sep₂_ne : l.sep₂ ≠ []
  file_token : ∀ c ∈ l.file, isTokenChar c = true
  file_ne : l.file ≠ []
  sep₃_blank : ∀ c ∈ l.sep₃, isBlank c = true
  sep₃_ne : l.sep₃ ≠ []
  snippet_line : ∀ c ∈ l.snippet, isEol c = false
  snippet_head : isBlank (l.snippet.headD 'x') = false
  term_space : ∀ c ∈ l.term, isSpace c = true
  term_head : isEol (l.term.headD ' ') = true

instance (tagLen : Nat) (l : Line) : Decidable (l.WellFormed tagLen) :=
  decidable_of_iff _ (Line.wellFormed_iff tagLen l).symm

/-- The record line with single spaces between its fields, closed by `\n`. -/
def Line.plain (tag line file snippet : List Char) : Line :=
  ⟨[], tag, [' '], line, [' '], file, [' '], snippet, ['\n']⟩

/-- The raw text made of the record lines `ls` followed by the white space
`trail`. -/
def wireAll : List Line → List Char → List Char
  | [], trail => trail
  | l :: ls, trail => l.wire ++ wireAll ls trail

/-- A raw text is well formed for the search text `search`: it is a sequence
of well-formed record lines, each ended by a line terminator, with white space
around them. -/
def WellFormed (search t : List Char) : Prop :=
  ∃ ls trail, (∀ l ∈ ls, Line.WellFormed (strlen search) l) ∧
    (∀ c ∈ trail, isSpace c = true) ∧ t = wireAll ls trail

/-- What the specification asks the generic parser to emit for a sequence of
records when the last file heading was `prev`: for every record, in input
order, a file heading if its file path differs from the one of the record
right before it, then its match entry. -/
def outline : Option (List Char) → List Line → List Entry
  | _, [] => []
  | prev, l :: ls =>
    (if prev = some l.file then [] else [Entry.file l.file]) ++
      Entry.hit l.line l.snippet :: outline (some l.file) ls

/-- The file path of the record right before record `i` of `ls`; before the
first record stands the last heading `prev` of the text parsed so far, `none`
at the start of the text. -/
def fileBefore (prev : Option (List Char)) (ls : List Line) : Nat → Option (List Char)
  | 0 => prev
  | i + 1 => (ls.get? i).map Line.file

/-- What the specification asks the generic parser to emit for record `i` of
`ls`: a file heading if and only if `i` is the first record or its file path
differs from the one of record `i - 1`, then the match entry. -/
def entriesAt (prev : Option (List Char)) (ls : List Line) (i : Nat) : List Entry :=
  match ls.get? i with
  | none => []
  | some l =>
    (if fileBefore prev ls i = some l.file then [] else [Entry.file l.file]) ++
      [Entry.hit l.line l.snippet]

/-- The match entries among `es`, in order: (line number, snippet). -/
def hitsOf : List Entry → List (List Char × List Char)
  | [] => []
  | .hit n s :: es => (n, s) :: hitsOf es
  | .file _ :: es => hitsOf es

/-- The file headings among `es`, in order. -/
def headingsOf : List Entry → List (List Char)
  | [] => []
  | .file p :: es => p :: headingsOf es
  | .hit _ _ :: es => headingsOf es

/-- The file groups of a sequence of entries: every heading with the matches
that follow it up to the next heading.  Matches in front of the first heading
belong to no group. -/
def groupsOf : List Entry → List (List Char × List (List Char × List Char))
  | [] => []
  | .file p :: es => (p, hitsOf (es.takeWhile fun e => !e.isFile)) :: groupsOf es
  | .hit _ _ :: es => groupsOf es

/-! ## What the specification says of file lists and line terminators -/

/-- The contents of a C string: the characters before its first NUL. -/
def cstr (s : List Char) : List Char := s.takeWhile fun c => c != '\x00'

/-- The physical lines of a text: the pieces between its line terminators. -/
def physLines (t : List Char) : List (List Char) := t.splitOnP isEol

/-- Whether a line has a character that is no white space. -/
def nonBlank (l : List Char) : Bool := l.any fun c => !isSpace c

/-- A line without the spaces and tabs at its start. -/
def trimLeft (l : List Char) : List Char := l.dropWhile isBlank

/-- A line without the spaces and tabs at its start and at its end: the
trimmed line of the specification. -/
def trim (l : List Char) : List Char := ((trimLeft l).reverse.dropWhile isBlank).reverse

/-- One file-only record for every physical line of `t` that has a character
other than white space, in input order; its text is the line from its first
such character on. -/
def fileRecords (t : List Char) : List Entry :=
  ((physLines t).filter nonBlank).map fun l => Entry.file (trimLeft l)

/-- The text `t` with `nl` in place of every `\n`. -/
def replaceNewline (nl t : List Char) : List Char :=
  t.flatMap fun c => if c = '\n' then nl else [c]

/-- The record line `l` of a text in which `nl` took the place of every
`\n`: the fields hold no `\n`, the white space around them may. -/
def Line.withNewline (nl : List Char) (l : Line) : Line :=
  ⟨replaceNewline nl l.lead, l.tag, l.sep₁, l.line, l.sep₂, l.file, l.sep₃, l.snippet,
    replaceNewline nl l.term⟩

/-- The text an entry carries: the path of a file heading, the snippet of a
match. -/
def Entry.payload : Entry → List Char
  | .file p => p
  | .hit _ s => s

/-- The line of the result view that an entry makes: its text without the
`\n` in front.  A file line is a tab and the path; a match line is two tabs,
`line `, the line number, a colon, a tab and the snippet. -/
def Entry.body : Entry → List Char
  | .file p => '\t' :: p
  | .hit l s => "\t\tline ".data ++ l ++ [':', '\t'] ++ s

/-- For every match entry of `es`, in order: the path of the nearest file
heading in front of it (`cur` when there is none in `es`), its line number and
its snippet. -/
def owners : Option (List Char) → List Entry → List (Option (List Char) × List Char × List Char)
  | _, [] => []
  | _, .file p :: es => owners (some p) es
  | cur, .hit l s :: es => (cur, l, s) :: owners cur es

/-! ## `sheduleForUpdate` (`GTags.cpp`)

`CPath` is declared outside the sources at hand.  The scheduler uses nothing of
it but `operator==`; the path type is a parameter here and `==` is its
decidable equality. -/

/-- `sheduleForUpdate(file)` on the pending list `UpdateList` (lines 196-207):
the list is searched from its end for an entry equal to `file`; the call
returns without a change when there is one, and appends `file` otherwise.
The result is the list after the call. -/
def sheduleForUpdate {CPath : Type} [DecidableEq CPath] (file : CPath)
    (UpdateList : List CPath) : List CPath :=
  if UpdateList.reverse.any (fun updFile => updFile == file) then UpdateList
  else UpdateList ++ [file]

/-- The states of `UpdateList`.  The list is a file-local variable; it is
empty at start-up and `GTags.cpp` changes it in two places only: `push_back` in
`sheduleForUpdate` (line 206) and the `erase` of one entry in
`runSheduledUpdate` (line 232). -/
inductive Pending {CPath : Type} [DecidableEq CPath] : List CPath → Prop where
  | empty : Pending []
  | shedule (file : CPath) {l : List CPath} : Pending l → Pending (sheduleForUpdate file l)
  | erase (i : Nat) {l : List CPath} : Pending l → Pending (l.eraseIdx i)

/-! ## `UpdateSingleFile` and `runSheduledUpdate` (`GTags.cpp`)

`DBManager::GetDB`, `Cmd::Run`, `INpp::GetFilePath` and `CPath::IsContainedIn`
are declared outside the sources at hand.  They are parameters here: a `World`
over a type `W` of states of these collaborators.  `Cmd::Run` hands the
command to a worker and returns; the completion callback runs later, so
neither it nor `GetDB` touches `UpdateList` before it returns. -/

/-- The collaborators of the update scheduler. -/
structure World (W CPath : Type) where
  /-- `INpp::Get().GetFilePath(filePath)`: the path of the file in the
  editor. -/
  filePath : W → CPath
  /-- `DBManager::Get().GetDB(file, true, &success)`: whether the handle is
  not `NULL`, the flag `success`, and the state after the call. -/
  getDB : W → CPath → (Bool × Bool) × W
  /-- `Cmd::Run(cmd, cmdReady, db)` for the `UPDATE_SINGLE` command of a
  file: its result and the state after the call. -/
  cmdRun : W → CPath → Bool × W
  /-- `file.IsContainedIn(dbPath)`. -/
  isContainedIn : CPath → CPath → Bool

/-- How an update attempt of `UpdateSingleFile` ends: `GetDB` gave no handle
(line 752), it gave a handle without the exclusive access (line 755),
`Cmd::Run` refused the command (line 764), or `Cmd::Run` took it. -/
inductive Attempt where
  | noDatabase
  | busy
  | rejected
  | submitted
  deriving DecidableEq, Repr

/-- What the scheduler does, in order: `replay f a` - `runSheduledUpdate`
erased `f` from the list and ran the update attempt for it, which ended as
`a`; `update f a` - an update attempt for `f` that was asked for from outside;
`defer f` - a call of `sheduleForUpdate(f)`. -/
inductive Event (CPath : Type) where
  | replay (file : CPath) (a : Attempt)
  | update (file : CPath) (a : Attempt)
  | defer (file : CPath)
  deriving DecidableEq, Repr

/-- Result of `UpdateSingleFile`: the value returned, the pending list and the
state of the collaborators after the call, how the attempt ended, and the
calls of `sheduleForUpdate` it made. -/
structure Update (W CPath : Type) where
  ret : Bool
  UpdateList : List CPath
  world : W
  attempt : Attempt
  log : List (Event CPath)

/-- `GTags::UpdateSingleFile(file)` (lines 738-768); `file = none` stands for
a `NULL` argument. -/
def UpdateSingleFile {W CPath : Type} [DecidableEq CPath] (env : World W CPath)
    (file : Option CPath) (UpdateList : List CPath) (w : W) : Update W CPath :=
  let currentFile := match file with
    | some f => f
    | none => env.filePath w
  let db := (env.getDB w currentFile).1.1
  let success := (env.getDB w currentFile).1.2
  let w₁ := (env.getDB w currentFile).2
  if !db then ⟨false, UpdateList, w₁, .noDatabase, []⟩
  else if !success then
    ⟨true, sheduleForUpdate currentFile UpdateList, w₁, .busy, [.defer currentFile]⟩
  else if !(env.cmdRun w₁ currentFile).1 then
    ⟨false, UpdateList, (env.cmdRun w₁ currentFile).2, .rejected, []⟩
  else ⟨true, UpdateList, (env.cmdRun w₁ currentFile).2, .submitted, []⟩

/-- The search of lines 222-229 and the `erase` of line 232: the first entry,
from the front of the list, that satisfies `contained`, and the list without
that entry; `none` when the loop reaches `UpdateList.end()`. -/
def firstContained {CPath : Type} (contained : CPath → Bool) :
    List CPath → Option (CPath × List CPath)
  | [] => none
  | updFile :: rest =>
    if contained updFile then some (updFile, rest)
    else match firstContained contained rest with
      | some (file, erased) => some (file, updFile :: erased)
      | none => none

/-- Result of `runSheduledUpdate`: the value returned, the pending list and
the state of the collaborators after the call, and what the call did. -/
structure Replay (W CPath : Type) where
  ret : Bool
  UpdateList : List CPath
  world : W
  log : List (Event CPath)

/-- Put the events `es` in front of the log of a result. -/
def Replay.after {W CPath : Type} (es : List (Event CPath)) (r : Replay W CPath) :
    Replay W CPath :=
  ⟨r.ret, r.UpdateList, r.world, es ++ r.log⟩

/-- `runSheduledUpdate(dbPath)` (lines 213-239) with a bound on the depth of
its recursion; `none` when the bound is reached. -/
def runSheduledLoop {W CPath : Type} [DecidableEq CPath] (env : World W CPath) :
    Nat → CPath → List CPath → W → Option (Replay W CPath)
  | 0, _, _, _ => none
  | fuel + 1, dbPath, UpdateList, w =>
    if UpdateList.isEmpty then some ⟨false, UpdateList, w, []⟩
    else match firstContained (fun updFile => env.isContainedIn updFile dbPath) UpdateList with
      | none => some ⟨false, UpdateList, w, []⟩
      | some (file, erased) =>
        let r := UpdateSingleFile env (some file) erased w
        if !r.ret then
          (runSheduledLoop env fuel dbPath r.UpdateList r.world).map
            (Replay.after (Event.replay file r.attempt :: r.log))
        else some ⟨true, r.UpdateList, r.world, Event.replay file r.attempt :: r.log⟩

/-- `runSheduledUpdate(dbPath)`.  A recursive call follows the erase of an
entry and an attempt that left the list as it was, so the depth of the
recursion is at most the length of the list. -/
def runSheduledUpdate {W CPath : Type} [DecidableEq CPath] (env : World W CPath)
    (dbPath : CPath) (UpdateList : List CPath) (w : W) : Option (Replay W CPath) :=
  runSheduledLoop env (UpdateList.length + 1) dbPath UpdateList w

/-- A call that reaches the scheduler: `sheduleForUpdate(file)`,
`UpdateSingleFile(file)` from outside (a file was saved), a completion
callback's `runSheduledUpdate(dbPath)`, or anything else that changes the
state of the collaborators only. -/
inductive Call (W CPath : Type) where
  | shedule (file : CPath)
  | update (file : Option CPath)
  | replay (dbPath : CPath)
  | other (f : W → W)

/-- The pending list, the state of the collaborators and the events after a
sequence of calls. -/
def runCalls {W CPath : Type} [DecidableEq CPath] (env : World W CPath) :
    List (Call W CPath) → List CPath → W → Option (Replay W CPath)
  | [], UpdateList, w => some ⟨true, UpdateList, w, []⟩
  | .shedule file :: calls, UpdateList, w =>
    (runCalls env calls (sheduleForUpdate file UpdateList) w).map
      (Replay.after [Event.defer file])
  | .update file :: calls, UpdateList, w =>
    let r := UpdateSingleFile env file UpdateList w
    (runCalls env calls r.UpdateList r.world).map
      (Replay.after (Event.update (match file with
        | some f => f
        | none => env.filePath w) r.attempt :: r.log))
  | .replay dbPath :: calls, UpdateList, w =>
    match runSheduledUpdate env dbPath UpdateList w with
    | none => none
    | some r => (runCalls env calls r.UpdateList r.world).map (Replay.after r.log)
  | .other f :: calls, UpdateList, w => runCalls env calls UpdateList (f w)

/-- The number of update attempts of `runSheduledUpdate` in a log that made
`UpdateSingleFile` return false. -/
def failedReplays {CPath : Type} : List (Event CPath) → Nat
  | [] => 0
  | .replay _ .noDatabase :: es => failedReplays es + 1
  | .replay _ .rejected :: es => failedReplays es + 1
  | _ :: es => failedReplays es

/-- The number of update attempts of `runSheduledUpdate` in a log. -/
def replays {CPath : Type} : List (Event CPath) → Nat
  | [] => 0
  | .replay _ _ :: es => replays es + 1
  | _ :: es => replays es

/-- A world without state in which every path is contained in every root and
every update attempt ends the same way. -/
def World.const (db success run : Bool) : World Unit Nat :=
  ⟨fun _ => 0, fun _ _ => ((db, success), ()), fun _ _ => (run, ()), fun _ _ => true⟩

/-- A world without state over paths that are strings: a file is contained in
a root when the root is a beginning of its path, and every update attempt ends
the same way. -/
def World.rooted (db success run : Bool) : World Unit (List Char) :=
  ⟨fun _ => [], fun _ _ => ((db, success), ()), fun _ _ => (run, ()),
    fun file root => root.isPrefixOf file⟩

/-- One step of the watch on a path `p`.  The state says whether `p` was
replayed with its command submitted and not deferred since; `none` says that
`runSheduledUpdate` replayed `p` in that state. -/
def watchStep {CPath : Type} [DecidableEq CPath] (p : CPath) (armed : Bool) :
    Event CPath → Option Bool
  | .defer f => some (armed && f != p)
  | .update _ _ => some armed
  | .replay f a =>
    if f = p then (if armed then none else some (a == .submitted)) else some armed

/-- The watch on `p` over a log, from the state `armed`. -/
def watch {CPath : Type} [DecidableEq CPath] (p : CPath) : Bool → List (Event CPath) → Option Bool
  | armed, [] => some armed
  | armed, e :: es =>
    match watchStep p armed e with
    | none => none
    | some s => watch p s es

/-! ## The completion callbacks of `GTags.cpp`

A callback is modelled by the calls it makes to its collaborators, in order.
`CmdData`, `Cmd::Run`, the windows and `cMaxTagLen` are declared outside the
sources at hand. -/

/-- The command identifiers that the callbacks set and that the entry points
give to the constructor of `CmdData`. -/
inductive CmdID where
  | AUTOCOMPLETE_SYMBOL
  | FIND_SYMBOL
  | AUTOCOMPLETE
  | AUTOCOMPLETE_FILE
  | FIND_FILE
  | FIND_DEFINITION
  | FIND_REFERENCE
  | GREP
  | CREATE_DATABASE
  | UPDATE_SINGLE
  | VERSION
  deriving DecidableEq, Repr

/-- The completion callbacks of `GTags.cpp` (lines 245-370). -/
inductive Callback where
  | cmdReady
  | autoComplReady
  | autoComplHalf
  | showResult
  | findReady
  | showInfo
  deriving DecidableEq, Repr

/-- What a callback reads of a completed command: `GetDBPath()`, `GetTag()`,
`GetResult()`, `Error()` and `NoResult()`. -/
structure CmdData where
  dbPath : List Char
  tag : List Char
  result : List Char
  error : Bool
  noResult : Bool
  deriving DecidableEq, Repr

/-- A call of a callback to a collaborator: `runSheduledUpdate(dbPath)`,
`MessageBox` with a text, `npp.ClearSelection()`, `AutoCompleteWin::Show(cmd)`,
`getDatabase()`, `Cmd::Run(cmd, complCB, db)` after `SetID(id)`,
`ResultWin::Get().Show(cmd)`, `AboutWin::Show` with a text. -/
inductive Act where
  | runSheduledUpdate (dbPath : List Char)
  | messageBox (text : List Char)
  | clearSelection
  | autoCompleteShow
  | getDatabase
  | cmdRun (id : CmdID) (complCB : Callback)
  | resultShow
  | aboutShow (text : List Char)
  deriving DecidableEq, Repr

/-- Whether an action is a call of `runSheduledUpdate`. -/
def Act.isReplay : Act → Bool
  | .runSheduledUpdate _ => true
  | _ => false

/-- `cmdReady(cmd)` (lines 245-255). -/
def cmdReady (cmd : CmdData) : List Act :=
  .runSheduledUpdate cmd.dbPath ::
    (if cmd.error then [.messageBox cmd.result] else [])

/-- `autoComplReady(cmd)` (lines 261-280). -/
def autoComplReady (cmd : CmdData) : List Act :=
  .runSheduledUpdate cmd.dbPath ::
    (if cmd.error then [.messageBox (cmd.result ++ "\nTry re-creating database.".data)]
    else if cmd.noResult then [.clearSelection]
    else [.autoCompleteShow])

/-- `autoComplHalf(cmd)` (lines 286-304); `db` says whether `getDatabase()`
gives a handle. -/
def autoComplHalf (cmd : CmdData) (db : Bool) : List Act :=
  if cmd.error then [.messageBox (cmd.result ++ "\nTry re-creating database.".data)]
  else .getDatabase :: (if db then [.cmdRun .AUTOCOMPLETE_SYMBOL .autoComplReady] else [])

/-- The text `_sntprintf_s(msg, _countof(msg), _TRUNCATE, "\"%s\" not found",
tag)` leaves in a buffer of `cMaxTagLen + 32` characters: the formatted text,
cut to the characters that fit in front of the terminator. -/
def notFoundText (cMaxTagLen : Nat) (tag : List Char) : List Char :=
  (['"'] ++ tag ++ "\" not found".data).take (cMaxTagLen + 32 - 1)

/-- `showResult(cmd)` (lines 310-336). -/
def showResult (cMaxTagLen : Nat) (cmd : CmdData) : List Act :=
  .runSheduledUpdate cmd.dbPath ::
    (if cmd.error then [.messageBox (cmd.result ++ "\nTry re-creating database.".data)]
    else if cmd.noResult then [.messageBox (notFoundText cMaxTagLen cmd.tag)]
    else [.resultShow])

/-- `findReady(cmd)` (lines 342-358); `db` says whether `getDatabase()` gives a
handle. -/
def findReady (cMaxTagLen : Nat) (cmd : CmdData) (db : Bool) : List Act :=
  if cmd.noResult then
    .getDatabase :: (if db then [.cmdRun .FIND_SYMBOL .showResult] else [])
  else showResult cMaxTagLen cmd

/-- `showInfo(cmd)` (lines 364-370). -/
def showInfo (cmd : CmdData) : List Act :=
  [.aboutShow (if cmd.error || cmd.noResult then "VERSION READ FAILED\n".data else cmd.result)]

/-! ## `checkForGTagsBinaries` and `PluginInit` (`GTags.cpp`)

`CPath` is declared outside the sources at hand: `FileExists` and
`StripFilename` are parameters, as is the constant `cBinsDir`. -/

/-- The file system as `CPath` shows it. -/
structure Files where
  /-- `CPath::FileExists()`. -/
  fileExists : List Char → Bool
  /-- `CPath::StripFilename()`: the path without its last component. -/
  stripFilename : List Char → List Char

/-- The path that `checkForGTagsBinaries` tests first (lines 61-64). -/
def globalExe (fs : Files) (cBinsDir dllPath : List Char) : List Char :=
  fs.stripFilename dllPath ++ cBinsDir ++ ['\\'] ++ "global.exe".data

/-- The path that `checkForGTagsBinaries` tests second (lines 69-70). -/
def gtagsExe (fs : Files) (cBinsDir dllPath : List Char) : List Char :=
  fs.stripFilename (globalExe fs cBinsDir dllPath) ++ "gtags.exe".data

/-- `checkForGTagsBinaries(dllPath)` (lines 59-87): the result, and whether the
message box of lines 77-82 was shown. -/
def checkForGTagsBinaries (fs : Files) (cBinsDir dllPath : List Char) : Bool × Bool :=
  let gtagsBinsFound := fs.fileExists (globalExe fs cBinsDir dllPath)
  let gtagsBinsFound₁ :=
    if gtagsBinsFound then fs.fileExists (gtagsExe fs cBinsDir dllPath) else gtagsBinsFound
  if !gtagsBinsFound₁ then (false, true) else (true, false)

/-- The window classes that `PluginInit` registers. -/
inductive WinClass where
  | ActivityWin
  | SearchWin
  | AutoCompleteWin
  deriving DecidableEq, Repr

/-- The variables `PluginInit` writes: `HMod` (`none` for `NULL`), `DllPath`,
and the window classes registered so far. -/
structure Plugin where
  HMod : Option Nat
  DllPath : List Char
  registered : List WinClass
  deriving DecidableEq, Repr

/-- `PluginInit(hMod)` (lines 416-432); `moduleFileName` is what
`GetModuleFileName` gives for `hMod`. -/
def PluginInit (fs : Files) (cBinsDir moduleFileName : List Char) (hMod : Nat)
    (st : Plugin) : Bool × Plugin :=
  if !(checkForGTagsBinaries fs cBinsDir moduleFileName).1 then
    (false, ⟨st.HMod, moduleFileName, st.registered⟩)
  else
    (true, ⟨some hMod, moduleFileName,
      st.registered ++ [.ActivityWin, .SearchWin, .AutoCompleteWin]⟩)

/-! ## The database callbacks of `ConfigWin.cpp`

The status values of a command are declared outside the sources at hand; the
type of the status and its values `OK` and `RUN_ERROR` are parameters. -/

/-- What `dbWriteReady` reads of a completed command: `Status()`, `Db()` and
`Result()` (`none` for `NULL`). -/
structure DbCmd (Status : Type) where
  status : Status
  db : Nat
  result : Option (List Char)

/-- A call of the callbacks of `ConfigWin.cpp` to a collaborator. -/
inductive CfgAct where
  | unregisterDb (db : Nat)
  | putDb (db : Nat)
  | messageBox (text : List Char)
  | showWindow
  | fillLibDb (db : Nat)
  | enableSave
  | setFocusSave
  deriving DecidableEq, Repr

/-- Whether an action is a call to the database registry. -/
def CfgAct.isRegistry : CfgAct → Bool
  | .unregisterDb _ => true
  | .putDb _ => true
  | _ => false

/-- `ConfigWin::dbWriteReady(cmd)` (lines 699-717). -/
def dbWriteReady {Status : Type} [DecidableEq Status] (OK RUN_ERROR : Status)
    (cmd : DbCmd Status) : List CfgAct :=
  (if cmd.status ≠ OK then [CfgAct.unregisterDb cmd.db] else [CfgAct.putDb cmd.db]) ++
    (if cmd.status = RUN_ERROR then [CfgAct.messageBox "Running GTags failed".data]
    else match cmd.result with
      | some text => [CfgAct.messageBox text]
      | none => [])

/-- `ConfigWin::createDbCB(cmd)` (lines 723-737); `cw` says whether `CW` is
not `NULL`. -/
def createDbCB {Status : Type} [DecidableEq Status] (OK RUN_ERROR : Status)
    (cmd : DbCmd Status) (cw : Bool) : List CfgAct :=
  dbWriteReady OK RUN_ERROR cmd ++
    (if !cw then []
    else CfgAct.showWindow ::
      (if cmd.status = OK then [CfgAct.fillLibDb cmd.db, CfgAct.enableSave] else []))

/-- `ConfigWin::updateDbCB(cmd)` (lines 743-752): the calls, and
`CW->_updateCount` after them. -/
def updateDbCB {Status : Type} [DecidableEq Status] (OK RUN_ERROR : Status)
    (cmd : DbCmd Status) (cw : Bool) (updateCount : Int) : List CfgAct × Int :=
  if !cw then (dbWriteReady OK RUN_ERROR cmd, updateCount)
  else
    (dbWriteReady OK RUN_ERROR cmd ++ (if updateCount - 1 = 0 then [CfgAct.setFocusSave] else []),
      updateCount - 1)

/-- Whether a call is a completion callback's `runSheduledUpdate` or a change
of the collaborators only: the calls that happen when no file is saved. -/
def Call.internal {W CPath : Type} : Call W CPath → Bool
  | .replay _ => true
  | .other _ => true
  | _ => false

/-- Whether an update attempt made `UpdateSingleFile` return false. -/
def Attempt.failed : Attempt → Bool
  | .noDatabase => true
  | .rejected => true
  | _ => false

/-! ## The entry points of `GTags.cpp`

An entry point is modelled by the calls it makes to the registry, to the user
and to `Cmd::Run`, and by the stores to its tag buffer, in order.
`DBManager`, `INpp`, `Cmd::Run`, `SearchWin::Show` and `SHBrowseForFolder` are
declared outside the sources at hand: what they return is a parameter. -/

/-- What a caller holds as `db`: the handle of a `GetDB` that set `success`,
the pointer of a `GetDB` that cleared `success`, or the handle of
`RegisterDB`. -/
inductive Handle where
  | granted
  | denied
  | registered
  deriving DecidableEq, Repr

/-- A call of an entry point: `DBManager::Get().GetDB(currentFile, writeEn,
&success)`, `RegisterDB(currentFile, writeEn)`, `PutDB(db)`,
`UnregisterDB(db)`, a `MessageBox` with a text and an OK button, a
`MessageBox` with the buttons Yes and No, `SHBrowseForFolder`,
`sheduleForUpdate(currentFile)`, `Cmd::Run(cmd, complCB, db)` for a command
made with the identifier `id`, a store to the element `index` of the tag
buffer of the entry point, and `SearchWin::Show(.., searchData, enMatchCase,
enRegExp)`, the dialog that asks for the tag. -/
inductive Op where
  | GetDB (writeEn : Bool)
  | RegisterDB (writeEn : Bool)
  | PutDB (db : Handle)
  | UnregisterDB (db : Handle)
  | messageBox (text : List Char)
  | ask
  | browse
  | sheduleForUpdate
  | Run (id : CmdID) (complCB : Callback) (db : Handle)
  | store (index : Nat)
  | SearchWin (enMatchCase enRegExp : Bool)
  deriving DecidableEq, Repr

/-- Whether a call is made to the registry or to `Cmd::Run`. -/
def Op.isAccess : Op → Bool
  | .GetDB _ => true
  | .RegisterDB _ => true
  | .PutDB _ => true
  | .UnregisterDB _ => true
  | .Run _ _ _ => true
  | _ => false

/-- What the collaborators give to an entry point. -/
structure Inputs where
  /-- `npp.IsSelectionVertical()`. -/
  vertical : Bool
  /-- The value of `npp.GetSelection(tagA, cMaxTagLen)`: the length of the
  text it leaves in `tagA`. -/
  selection : Nat
  /-- The value of `npp.GetWord(tagA, cMaxTagLen, true)`: the length of the
  text it leaves in `tagA`. -/
  word : Nat
  /-- The value of `SearchWin::Show`, which `enterTag` returns. -/
  entered : Bool
  /-- Whether `GetDB` gives a pointer that is not `NULL`. -/
  db : Bool
  /-- The flag `success` that `GetDB` sets. -/
  success : Bool
  /-- Whether the answer to a question is `IDYES`. -/
  choice : Bool
  /-- Whether `SHBrowseForFolder` gives a folder. -/
  pidl : Bool
  /-- The value of `UnregisterDB`. -/
  unregistered : Bool

/-- The elements of `dst` that `Tools::AtoW(dst, size, src)` stores to for a
text of `len` characters in `src`: the characters and the terminator, never
beyond the size it is given.  `Tools::AtoW` is declared outside the sources
at hand. -/
def AtoW (size len : Nat) : List Nat :=
  List.range (min (len + 1) size)

/-- `getSelection(sel, autoSelectWord, skipPreSelect)` (lines 106-136): the
value returned and the calls made; `store i` is a store to `sel[i]`. -/
def getSelection (cMaxTagLen : Nat) (i : Inputs) (autoSelectWord skipPreSelect : Bool) :
    Nat × List Op :=
  if i.vertical then (0, [])
  else
    let len := i.selection
    let len₁ := if skipPreSelect || (len == 0 && autoSelectWord) then i.word else len
    if len₁ != 0 then
      if len₁ ≥ cMaxTagLen then (0, [.messageBox "Tag string too long".data])
      else (len₁, (AtoW cMaxTagLen len₁).map Op.store)
    else (len₁, [.store 0])

/-- `getDatabase(writeEn)` (lines 142-164): the handle returned, `none` for
`NULL`, and the calls made. -/
def getDatabase (writeEn : Bool) (i : Inputs) : Option Handle × List Op :=
  if !i.db then (none, [.GetDB writeEn, .messageBox "GTags database not found".data])
  else if !i.success then (none, [.GetDB writeEn, .messageBox "GTags database is in use".data])
  else (some .granted, [.GetDB writeEn])

/-- A store to `sel[i]` as a store to the buffer that `sel` points into at the
element `offset`. -/
def Op.shift (offset : Nat) : Op → Op
  | .store index => .store (index + offset)
  | op => op

/-- `GTags::AutoComplete()` (lines 509-524). -/
def AutoComplete (cMaxTagLen : Nat) (i : Inputs) : List Op :=
  let sel := getSelection cMaxTagLen i true true
  if sel.1 == 0 then sel.2
  else
    match getDatabase false i with
    | (none, ops) => sel.2 ++ ops
    | (some db, ops) => sel.2 ++ ops ++ [.Run .AUTOCOMPLETE .autoComplHalf db]

/-- `GTags::AutoCompleteFile()` (lines 530-546): `getSelection` is given
`&tag[1]`. -/
def AutoCompleteFile (cMaxTagLen : Nat) (i : Inputs) : List Op :=
  let sel := getSelection cMaxTagLen i true true
  if sel.1 == 0 then sel.2.map (Op.shift 1)
  else
    match getDatabase false i with
    | (none, ops) => sel.2.map (Op.shift 1) ++ ops
    | (some db, ops) =>
      sel.2.map (Op.shift 1) ++ ops ++ [.store 0, .Run .AUTOCOMPLETE_FILE .autoComplReady db]

/-- The elements of `dst` that `_tcscpy_s(dst, size, src)` stores to for a
text of `len` characters in `src`: the characters and the terminator when they
fit in `size` elements; otherwise the terminator at `dst[0]`, before the
invalid-parameter handler is called. -/
def tcscpy_s (size len : Nat) : List Nat :=
  if len < size then List.range (len + 1)
  else if size = 0 then []
  else [0]

/-- `enterTag(searchData, uiName, defaultTag, enMatchCase, enRegExp)` (lines
181-190): the value returned and the calls made; `defaultTag` is the length of
the default tag, `none` for `NULL`, and `store i` is a store to
`searchData->_str[i]`. -/
def enterTag (cMaxTagLen : Nat) (i : Inputs) (defaultTag : Option Nat)
    (enMatchCase enRegExp : Bool) : Bool × List Op :=
  (i.entered,
    (match defaultTag with
      | some len => (tcscpy_s cMaxTagLen len).map Op.store
      | none => []) ++ [.SearchWin enMatchCase enRegExp])

/-- `GTags::FindFile()` (lines 552-576); `fileName` is the length of the text
that `GetFileNamePart` gives, which line 561 cuts to `cMaxTagLen - 1`
characters. -/
def FindFile (cMaxTagLen fileName : Nat) (i : Inputs) : List Op :=
  let sel := getSelection cMaxTagLen i false false
  let tag :=
    if sel.1 == 0 then
      enterTag cMaxTagLen i (some (if fileName ≥ cMaxTagLen then cMaxTagLen - 1 else fileName))
        true true
    else (true, [])
  if !tag.1 then sel.2 ++ tag.2
  else
    match getDatabase false i with
    | (none, ops) => sel.2 ++ tag.2 ++ ops
    | (some db, ops) => sel.2 ++ tag.2 ++ ops ++ [.Run .FIND_FILE .showResult db]

/-- `GTags::FindDefinition()` (lines 582-601). -/
def FindDefinition (cMaxTagLen : Nat) (i : Inputs) : List Op :=
  let sel := getSelection cMaxTagLen i true false
  let tag := if sel.1 == 0 then enterTag cMaxTagLen i none true false else (true, [])
  if !tag.1 then sel.2 ++ tag.2
  else
    match getDatabase false i with
    | (none, ops) => sel.2 ++ tag.2 ++ ops
    | (some db, ops) => sel.2 ++ tag.2 ++ ops ++ [.Run .FIND_DEFINITION .findReady db]

/-- `GTags::FindReference()` (lines 607-626). -/
def FindReference (cMaxTagLen : Nat) (i : Inputs) : List Op :=
  let sel := getSelection cMaxTagLen i true false
  let tag := if sel.1 == 0 then enterTag cMaxTagLen i none true false else (true, [])
  if !tag.1 then sel.2 ++ tag.2
  else
    match getDatabase false i with
    | (none, ops) => sel.2 ++ tag.2 ++ ops
    | (some db, ops) => sel.2 ++ tag.2 ++ ops ++ [.Run .FIND_REFERENCE .findReady db]

/-- `GTags::Grep()` (lines 632-651). -/
def Grep (cMaxTagLen : Nat) (i : Inputs) : List Op :=
  let sel := getSelection cMaxTagLen i true false
  let tag := if sel.1 == 0 then enterTag cMaxTagLen i none true true else (true, [])
  if !tag.1 then sel.2 ++ tag.2
  else
    match getDatabase false i with
    | (none, ops) => sel.2 ++ tag.2 ++ ops
    | (some db, ops) => sel.2 ++ tag.2 ++ ops ++ [.Run .GREP .showResult db]

/-- The calls behind an action of a completion callback: `getDatabase()` is
`getDatabase(false)` by the default argument of line 142, and the handle given
to `Cmd::Run` is the one `getDatabase()` returned. -/
def Act.ops (i : Inputs) : Act → List Op
  | .getDatabase => (GTags.getDatabase false i).2
  | .cmdRun id complCB => [.Run id complCB .granted]
  | .messageBox text => [.messageBox text]
  | _ => []

/-- The calls of `autoComplHalf(cmd)` (lines 286-304). -/
def autoComplHalf.ops (cmd : CmdData) (i : Inputs) : List Op :=
  (autoComplHalf cmd (getDatabase false i).1.isSome).flatMap (Act.ops i)

/-- The calls of `findReady(cmd)` (lines 342-358). -/
def findReady.ops (cMaxTagLen : Nat) (cmd : CmdData) (i : Inputs) : List Op :=
  (findReady cMaxTagLen cmd (getDatabase false i).1.isSome).flatMap (Act.ops i)

/-- `GTags::CreateDatabase()` (lines 675-732).  The flag `success` is not
read: `db` is the pointer that `GetDB` gave. -/
def CreateDatabase (i : Inputs) : List Op :=
  .GetDB true ::
    (if i.db then
      let db : Handle := if i.success then .granted else .denied
      .ask :: (if !i.choice then [.PutDB db] else [.Run .CREATE_DATABASE .cmdReady db])
    else
      .browse ::
        (if !i.pidl then []
        else [.RegisterDB true, .Run .CREATE_DATABASE .cmdReady .registered]))

/-- The calls of `GTags::UpdateSingleFile(file)` (lines 738-768). -/
def UpdateSingleFile.ops (i : Inputs) : List Op :=
  .GetDB true ::
    (if !i.db then []
    else if !i.success then [.sheduleForUpdate]
    else [.Run .UPDATE_SINGLE .cmdReady .granted])

/-- `GTags::DeleteDatabase()` (lines 774-799). -/
def DeleteDatabase (i : Inputs) : List Op :=
  match getDatabase true i with
  | (none, ops) => ops
  | (some db, ops) =>
    ops ++ .ask ::
      (if !i.choice then [.PutDB db]
      else [.UnregisterDB db,
        .messageBox (if i.unregistered then "GTags database deleted".data
          else "Deleting database failed, is it read-only?".data)])

/-! ## The command object that `findReady` runs again

`CmdData` is declared outside the sources at hand.  The command object is
modelled by the arguments of its constructor, `CmdData(id, name, db, tag,
regExp, matchCase)`; a setter replaces the argument it names. -/

/-- The arguments that the entry points give to the constructor of
`CmdData`. -/
structure CmdArgs where
  id : CmdID
  name : List Char
  db : Handle
  tag : List Char
  regExp : Bool
  matchCase : Bool
  deriving DecidableEq, Repr

/-- `cmd->SetID(id)`. -/
def CmdArgs.SetID (id : CmdID) (cmd : CmdArgs) : CmdArgs :=
  ⟨id, cmd.name, cmd.db, cmd.tag, cmd.regExp, cmd.matchCase⟩

/-- `cmd->SetName(name)`. -/
def CmdArgs.SetName (name : List Char) (cmd : CmdArgs) : CmdArgs :=
  ⟨cmd.id, name, cmd.db, cmd.tag, cmd.regExp, cmd.matchCase⟩

/-- `cmd->SetDB(db)`. -/
def CmdArgs.SetDB (db : Handle) (cmd : CmdArgs) : CmdArgs :=
  ⟨cmd.id, cmd.name, db, cmd.tag, cmd.regExp, cmd.matchCase⟩

/-- The command object that `findReady(cmd)` hands to `Cmd::Run` and the
continuation it gives (lines 344-353), `none` when it hands none; `noResult`
is `cmd->NoResult()`, `db` the value of `getDatabase()`, `cFindSymbol` the
constant of that name. -/
def findReady.run (cFindSymbol : List Char) (cmd : CmdArgs) (noResult : Bool)
    (db : Option Handle) : Option (CmdArgs × Callback) :=
  if noResult then
    match db with
    | some h => some (((cmd.SetID .FIND_SYMBOL).SetName cFindSymbol).SetDB h, .showResult)
    | none => none
  else none

/-- The calls of the completion callback `cb` for the completed command `cmd`;
`db` says whether `getDatabase()` gives a handle. -/
def Callback.acts (cMaxTagLen : Nat) (cb : Callback) (cmd : CmdData) (db : Bool) : List Act :=
  match cb with
  | .cmdReady => GTags.cmdReady cmd
  | .autoComplReady => GTags.autoComplReady cmd
  | .autoComplHalf => GTags.autoComplHalf cmd db
  | .showResult => GTags.showResult cMaxTagLen cmd
  | .findReady => GTags.findReady cMaxTagLen cmd db
  | .showInfo => GTags.showInfo cmd

/-- The continuation of a command that an action hands to `Cmd::Run`. -/
def Act.continuation : Act → Option Callback
  | .cmdRun _ complCB => some complCB
  | _ => none

/-- The number of command runs that a `Cmd::Run` with the continuation `cb`
leads to: the run itself and, when it completes, the runs that its
continuation submits, and theirs.  The first of `outcomes` is the completed
command that `cb` is called with and whether `getDatabase()` gives a handle
then; the rest are the outcomes of the runs that follow.  A run without an
outcome does not complete. -/
def runsFrom (cMaxTagLen : Nat) : Callback → List (CmdData × Bool) → Nat
  | _, [] => 1
  | cb, outcome :: rest =>
    1 + (((cb.acts cMaxTagLen outcome.1 outcome.2).filterMap Act.continuation).map
      fun cb₁ => runsFrom cMaxTagLen cb₁ rest).sum

/-! ## `ScintillaViewUI::openItem`

`openItem` copies the text of a line of the view, line terminator included,
into an array of `lineLen + 1` characters.  The text is a `List Char`; the
element `lineLen` is not written before line 556 stores the terminating NUL
there. -/

/-- The loop of line 540, `for (i = 7; lineTxt[i] != ':'; i++);`, on the text
from `lineTxt[7]` on: the characters in front of the first colon, `none` when
the loop reads behind the text of the line. -/
def scanColon : List Char → Option (List Char)
  | [] => none
  | c :: cs =>
    if c == ':' then some []
    else match scanColon cs with
      | some digits => some (c :: digits)
      | none => none

/-- The C library's `isspace` in the C locale. -/
def isspace (c : Char) : Bool :=
  c == ' ' || c == '\t' || c == '\n' || c == '\x0b' || c == '\x0c' || c == '\r'

/-- The digit loop of the C library's `atoi`: the value of the decimal digits
at the start of the text, after the value `acc` of the digits read so far. -/
def atoiDigits : Nat → List Char → Nat
  | acc, [] => acc
  | acc, c :: cs => if c.isDigit then atoiDigits (10 * acc + (c.toNat - '0'.toNat)) cs else acc

/-- The conversion of an integer to `int`: its low 32 bits in two's
complement. -/
def toInt32 (v : Int) : Int := (v + 2 ^ 31) % 2 ^ 32 - 2 ^ 31

/-- The C library's `strtol(s, NULL, 10)` with a `long` of 64 bits: white
space, a sign, decimal digits; a value outside the range of `long` gives the
nearest bound. -/
def strtol (s : List Char) : Int :=
  let v : Int :=
    match s.dropWhile isspace with
    | '-' :: cs => -(atoiDigits 0 cs : Int)
    | '+' :: cs => (atoiDigits 0 cs : Int)
    | cs => (atoiDigits 0 cs : Int)
  max (-(2 ^ 63)) (min v (2 ^ 63 - 1))

/-- The C library's `atoi(s)`, which is `(int) strtol(s, NULL, 10)`: for a
numeral below `2 ^ 31` its value, for a larger one what the conversion to
`int` leaves of it. -/
def atoi (s : List Char) : Int := toInt32 (strtol s)

/-- The value of a decimal numeral. -/
def decimal (digits : List Char) : Nat :=
  digits.foldl (fun n c => 10 * n + (c.toNat - '0'.toNat)) 0

/-- Lines 556-562 of `openItem`: `lineTxt[lineLen] = 0`, the loop
`for (i = 1; lineTxt[i] != '\r' && lineTxt[i] != '\n'; i++);`, which does not
test for the terminator, `lineTxt[i] = 0` and `file = _projectPath +
&lineTxt[1]`.  The result is the file path and the line number `line`. -/
def openItem.file (projectPath lineTxt : List Char) (line : Int) :
    Run (Option (List Char × Int)) :=
  if lineTxt.length = 0 then .outOfBounds
  else
    match scanLine (lineTxt.drop 1) with
    | none => .outOfBounds
    | some (path, _) => .ok (some (projectPath ++ cstr path, line))

/-- `ScintillaViewUI::openItem(lineNum)` up to line 562: the file to open and
the zero-based line to go to, `-1` for none; `line = atoi(&lineTxt[7]) - 1` is
computed in `int`.  `lineTxt` is the text of line
`lineNum` as `SCI_GETLINE` gives it, `foldParent` the text of the line
`SCI_GETFOLDPARENT` names, `none` when it names none; the value `none` stands
for `return false`. -/
def openItem (projectPath lineTxt : List Char) (foldParent : Option (List Char)) :
    Run (Option (List Char × Int)) :=
  match lineTxt.get? 1 with
  | none => .outOfBounds
  | some c =>
    if c == '\t' then
      match scanColon (lineTxt.drop 7) with
      | none => .outOfBounds
      | some digits =>
        match foldParent with
        | none => .ok none
        | some parentTxt => openItem.file projectPath parentTxt (toInt32 (atoi digits - 1))
    else openItem.file projectPath lineTxt (-1)

/-! ## `ConfigWin::fillLibDb` and `ConfigWin::saveConfig` (`ConfigWin.cpp`)

The text of the edit box and the library path are `List Char` without NUL,
followed by the terminating NUL.  `DbConfig::SaveToFolder` is declared
outside the sources at hand: its value is a parameter. -/

/-- Whether the text at `ptr` starts with the characters of `lib`. -/
def startsWith : List Char → List Char → Bool
  | _, [] => true
  | [], _ :: _ => false
  | c :: cs, d :: ds => c == d && startsWith cs ds

/-- The C library's `_tcsstr(ptr, lib)`: the first position from `ptr` on at
which `lib` stands, `none` for `NULL`. -/
def strstr : List Char → List Char → Option (List Char)
  | [], lib => if startsWith [] lib then some [] else none
  | c :: cs, lib => if startsWith (c :: cs) lib then some (c :: cs) else strstr cs lib

/-- The loop of lines 623-630, `for (ptr = _tcsstr(buf, lib); ptr; ptr =
_tcsstr(ptr, lib))`, from the value `ptr` of the loop variable on: the flag
`found` after the loop.  The budget counts the tests of the loop condition. -/
def fillLibDbLoop (lib : List Char) : Nat → Option (List Char) → Run Bool
  | 0, _ => .outOfFuel
  | _ + 1, none => .ok false
  | fuel + 1, some ptr =>
    let c := (ptr.drop lib.length).headD '\x00'
    if c == '\x00' || c == '\n' || c == '\r' then .ok true
    else fillLibDbLoop lib fuel (strstr ptr lib)

/-- `ConfigWin::fillLibDb(lib)` (lines 611-649): the text of the edit box
after the call, for the text `text` before it. -/
def fillLibDb (fuel : Nat) (text lib : List Char) : Run (List Char) :=
  if text.length != 0 then
    match fillLibDbLoop lib fuel (strstr text lib) with
    | .ok found => .ok (if !found then text ++ '\n' :: lib else text)
    | .outOfBounds => .outOfBounds
    | .outOfFuel => .outOfFuel
  else .ok lib

/-- A tab of the configuration window: the database it is bound to, `none`
for `NULL`, and the configuration it edits. -/
structure ConfigWin.Tab (Db Cfg : Type) where
  db : Option Db
  cfg : Cfg

/-- The configurations that `saveConfig` can change: `db->GetConfig()` of
every database and the global `DefaultDbCfg`. -/
structure Configs (Db Cfg : Type) where
  config : Db → Cfg
  DefaultDbCfg : Cfg

/-- `ConfigWin::Tab::Tab(db)` (lines 55-61). -/
def ConfigWin.Tab.new {Db Cfg : Type} (db : Option Db) (st : Configs Db Cfg) :
    ConfigWin.Tab Db Cfg :=
  match db with
  | some d => ⟨db, st.config d⟩
  | none => ⟨db, st.DefaultDbCfg⟩

/-- `ConfigWin::saveConfig(tab)` (lines 577-605): the value returned and the
configurations after the call; `saved` is the value of
`tab->_cfg.SaveToFolder(cfgFolder)`. -/
def saveConfig {Db Cfg : Type} [DecidableEq Db] (saved : Bool) (tab : ConfigWin.Tab Db Cfg)
    (st : Configs Db Cfg) : Bool × Configs Db Cfg :=
  if !saved then (false, st)
  else
    match tab.db with
    | some db => (true, ⟨Function.update st.config db tab.cfg, st.DefaultDbCfg⟩)
    | none => (true, ⟨st.config, tab.cfg⟩)

/-! ## The scanning loops on a buffer with known contents -/

theorem skipSpace_append {a : List Char} (h : ∀ c ∈ a, isSpace c = true) (b : List Char) :
    skipSpace (a ++ b) = skipSpace b := by
  induction a with
  | nil => rfl
  | cons c cs ih =>
    have hc : isSpace c = true := h c (List.mem_cons_self _ _)
    have := ih fun d hd => h d (List.mem_cons_of_mem _ hd)
    simpa [skipSpace, List.dropWhile, hc] using this

theorem skipBlank_append {a : List Char} (h : ∀ c ∈ a, isBlank c = true) (b : List Char) :
    skipBlank (a ++ b) = skipBlank b := by
  induction a with
  | nil => rfl
  | cons c cs ih =>
    have hc : isBlank c = true := h c (List.mem_cons_self _ _)
    have := ih fun d hd => h d (List.mem_cons_of_mem _ hd)
    simpa [skipBlank, List.dropWhile, hc] using this

theorem skipSpace_cons {c : Char} (h : isSpace c = false) (cs : List Char) :
    skipSpace (c :: cs) = c :: cs := by
  simp [skipSpace, List.dropWhile, h]

theorem skipBlank_cons {c : Char} (h : isBlank c = false) (cs : List Char) :
    skipBlank (c :: cs) = c :: cs := by
  simp [skipBlank, List.dropWhile, h]

theorem isBlank_isSpace {c : Char} (h : isBlank c = true) : isSpace c = true := by
  simp only [isBlank, isSpace, Bool.or_eq_true] at *
  rcases h with h | h
  · exact Or.inl (Or.inr h)
  · exact Or.inr h

theorem isEol_isSpace {c : Char} (h : isEol c = true) : isSpace c = true := by
  simp only [isEol, isSpace, Bool.or_eq_true] at *
  rcases h with h | h
  · exact Or.inl (Or.inl (Or.inl h))
  · exact Or.inl (Or.inl (Or.inr h))

theorem isTokenChar_space {c : Char} (h : isTokenChar c = true) : isSpace c = false := by
  simp only [isTokenChar, Bool.and_eq_true, Bool.not_eq_true'] at h
  exact h.1

theorem isTokenChar_nul {c : Char} (h : isTokenChar c = true) : c ≠ '\x00' := by
  simp only [isTokenChar, Bool.and_eq_true, bne_iff_ne] at h
  exact h.2

theorem isSpace_false_blank {c : Char} (h : isSpace c = false) : isBlank c = false := by
  cases hb : isBlank c with
  | false => rfl
  | true => rw [isBlank_isSpace hb] at h; cases h

theorem isSpace_false_eol {c : Char} (h : isSpace c = false) : isEol c = false := by
  cases hb : isEol c with
  | false => rfl
  | true => rw [isEol_isSpace hb] at h; cases h

theorem scanToken_append {t : List Char} (ht : ∀ c ∈ t, isBlank c = false) {b : Char}
    (hb : isBlank b = true) (r : List Char) : scanToken (t ++ b :: r) = some (t, b :: r) := by
  induction t with
  | nil => simp [scanToken, hb]
  | cons c cs ih =>
    have hc : isBlank c = false := ht c (List.mem_cons_self _ _)
    have := ih fun d hd => ht d (List.mem_cons_of_mem _ hd)
    simp [scanToken, hc, this]

theorem scanLine_append {t : List Char} (ht : ∀ c ∈ t, isEol c = false) {b : Char}
    (hb : isEol b = true) (r : List Char) : scanLine (t ++ b :: r) = some (t, b :: r) := by
  induction t with
  | nil => simp [scanLine, hb]
  | cons c cs ih =>
    have hc : isEol c = false := ht c (List.mem_cons_self _ _)
    have := ih fun d hd => ht d (List.mem_cons_of_mem _ hd)
    simp [scanLine, hc, this]

theorem scanToken_eq_append {p t r : List Char} (h : scanToken p = some (t, r)) : p = t ++ r := by
  induction p generalizing t with
  | nil => simp [scanToken] at h
  | cons c cs ih =>
    unfold scanToken at h
    split at h
    · cases h; rfl
    · split at h
      · rename_i tok rest heq
        cases h
        simp [ih heq]
      · cases h

theorem scanLine_eq_append {p t r : List Char} (h : scanLine p = some (t, r)) : p = t ++ r := by
  induction p generalizing t with
  | nil => simp [scanLine] at h
  | cons c cs ih =>
    unfold scanLine at h
    split at h
    · cases h; rfl
    · split at h
      · rename_i tok rest heq
        cases h
        simp [ih heq]
      · cases h

theorem skipSpace_length (p : List Char) : (skipSpace p).length ≤ p.length := by
  induction p with
  | nil => simp [skipSpace]
  | cons c cs ih =>
    simp only [skipSpace, List.dropWhile] at *
    split <;> simp only [List.length_cons] <;> omega

theorem skipBlank_length (p : List Char) : (skipBlank p).length ≤ p.length := by
  induction p with
  | nil => simp [skipBlank]
  | cons c cs ih =>
    simp only [skipBlank, List.dropWhile] at *
    split <;> simp only [List.length_cons] <;> omega

/-- A token scan that starts right after a run of blanks was skipped passes
over at least one character. -/
theorem scanToken_skipBlank_length {p t r : List Char} (h : scanToken (skipBlank p) = some (t, r)) :
    r.length < p.length := by
  induction p with
  | nil => simp [skipBlank, scanToken] at h
  | cons c cs ih =>
    cases hc : isBlank c with
    | true =>
      have : skipBlank (c :: cs) = skipBlank cs := by simp [skipBlank, List.dropWhile, hc]
      rw [this] at h
      have := ih h
      simp; omega
    | false =>
      rw [skipBlank_cons hc] at h
      have hlen := congrArg List.length (scanToken_eq_append h)
      cases t with
      | nil => simp [scanToken, hc] at h; split at h <;> cases h
      | cons d ds => simp at hlen ⊢; omega

theorem isEol_not_blank {c : Char} (h : isEol c = true) : isBlank c = false := by
  simp only [isEol, Bool.or_eq_true, beq_iff_eq] at h
  rcases h with h | h <;> subst h <;> decide

theorem char_toNat_sub_ne_zero {x y : Char} (h : x ≠ y) : (x.toNat : Int) - (y.toNat : Int) ≠ 0 := by
  intro h0
  apply h
  have : x.toNat = y.toNat := by omega
  rw [← Char.ofNat_toNat x, ← Char.ofNat_toNat y, this]

/-- On two tokens of equal length without a NUL, `strncmp` over that length is
zero exactly when the tokens are equal. -/
theorem strncmp_eq_zero_iff {a : List Char} (ha : ∀ c ∈ a, c ≠ '\x00') :
    ∀ b : List Char, a.length = b.length → (strncmp a b b.length = 0 ↔ a = b) := by
  induction a with
  | nil =>
    intro b hb
    cases b with
    | nil => simp [strncmp]
    | cons y ys => simp at hb
  | cons x xs ih =>
    intro b hb
    cases b with
    | nil => simp at hb
    | cons y ys =>
      have hx : x ≠ '\x00' := ha x (List.mem_cons_self _ _)
      have hxs := ih (fun d hd => ha d (List.mem_cons_of_mem _ hd)) ys (by simpa using hb)
      by_cases hxy : x = y
      · subst hxy
        simp [strncmp, hx, hxs]
      · simp [strncmp, hxy, char_toNat_sub_ne_zero hxy]

theorem isNewFile_some {file : List Char} (hf : ∀ c ∈ file, c ≠ '\x00') (prev : List Char) :
    isNewFile (some prev) file = true ↔ file ≠ prev := by
  unfold isNewFile
  by_cases hlen : file.length = prev.length
  · have := strncmp_eq_zero_iff hf prev hlen
    simp [hlen, this]
  · have hne : file ≠ prev := fun h => hlen (by rw [h])
    simp [hlen, hne]

/-- For a file token without a NUL, the heading state after the record is the
record's file, whether a heading was emitted or not. -/
theorem isNewFile_state {file : List Char} (hf : ∀ c ∈ file, c ≠ '\x00')
    (prev : Option (List Char)) :
    (if isNewFile prev file = true then some file else prev) = some file ∧
    (if isNewFile prev file = true then [Entry.file file] else []) =
      (if prev = some file then [] else [Entry.file file]) := by
  cases prev with
  | none => simp [isNewFile]
  | some p =>
    by_cases h : file = p
    · subst h
      have : ¬ isNewFile (some file) file = true := fun hn => (isNewFile_some hf file).1 hn rfl
      simp [this]
    · have : isNewFile (some p) file = true := (isNewFile_some hf p).2 h
      have h2 : ¬ p = file := fun e => h e.symm
      simp [this, h2]

/-- One pass of the loop body over a well-formed record line: it appends the
heading, when the file is new, and the match entry, and stops on the line
terminator. -/
theorem parseCmdBody_wire {tagLen : Nat} {l : Line} (h : l.WellFormed tagLen)
    (prev : Option (List Char)) (rest : List Char) :
    parseCmdBody tagLen prev (l.wire ++ rest) =
      .next ((if isNewFile prev l.file then [Entry.file l.file] else []) ++
          [Entry.hit l.line l.snippet])
        (if isNewFile prev l.file then some l.file else prev) (l.term ++ rest) := by
  obtain ⟨lead, tag, sep₁, line, sep₂, file, sep₃, snippet, term⟩ := l
  obtain ⟨h1, h2, h3, h4, h5, h6, h7, h8, h9, h10, h11, h12, h13, h14, h15, h16, h17⟩ := h
  simp only at h1 h2 h3 h4 h5 h6 h7 h8 h9 h10 h11 h12 h13 h14 h15 h16 h17
  obtain ⟨n, ns, rfl⟩ := List.exists_cons_of_ne_nil h7
  obtain ⟨b₁, bs₁, rfl⟩ := List.exists_cons_of_ne_nil h5
  obtain ⟨b₂, bs₂, rfl⟩ := List.exists_cons_of_ne_nil h9
  obtain ⟨f, fs, rfl⟩ := List.exists_cons_of_ne_nil h11
  obtain ⟨b₃, bs₃, rfl⟩ := List.exists_cons_of_ne_nil h13
  obtain ⟨e, es, rfl⟩ : ∃ e es, term = e :: es := by
    cases term with
    | nil => simp [isEol] at h17
    | cons e es => exact ⟨e, es, rfl⟩
  have he : isEol e = true := by simpa using h17
  have hn : isTokenChar n = true := h6 n (List.mem_cons_self _ _)
  have hf : isTokenChar f = true := h10 f (List.mem_cons_self _ _)
  have hb₂ : isBlank b₂ = true := h8 b₂ (List.mem_cons_self _ _)
  have hb₃ : isBlank b₃ = true := h12 b₃ (List.mem_cons_self _ _)
  -- the text that follows the tag and the blanks after it
  have hfront : ∀ rest₀, ∃ src₁,
      skipSpace (lead ++ (tag ++ ((b₁ :: bs₁) ++ ((n :: ns) ++ rest₀)))) = src₁ ∧
      (src₁.headD '\x00' == '\x00') = false ∧ ¬ src₁.length < tagLen ∧
      skipBlank (src₁.drop tagLen) = (n :: ns) ++ rest₀ := by
    intro rest₀
    cases tag with
    | nil =>
      refine ⟨(n :: ns) ++ rest₀, ?_, ?_, ?_, ?_⟩
      · have hsp : ∀ c ∈ lead ++ (b₁ :: bs₁), isSpace c = true := by
          intro c hc
          rcases List.mem_append.1 hc with hc | hc
          · exact h1 c hc
          · exact isBlank_isSpace (h4 c hc)
        have := skipSpace_append hsp ((n :: ns) ++ rest₀)
        rw [List.append_assoc] at this
        rw [List.nil_append, this]
        exact skipSpace_cons (isTokenChar_space hn) _
      · simpa using isTokenChar_nul hn
      · simp at h2; omega
      · simp at h2
        subst h2
        exact skipBlank_cons (isSpace_false_blank (isTokenChar_space hn)) _
    | cons t ts =>
      have ht : isTokenChar t = true := h3 t (List.mem_cons_self _ _)
      refine ⟨(t :: ts) ++ ((b₁ :: bs₁) ++ ((n :: ns) ++ rest₀)), ?_, ?_, ?_, ?_⟩
      · rw [skipSpace_append h1]
        exact skipSpace_cons (isTokenChar_space ht) _
      · simpa using isTokenChar_nul ht
      · rw [List.length_append, h2]; omega
      · rw [List.drop_left' h2, skipBlank_append h4]
        exact skipBlank_cons (isSpace_false_blank (isTokenChar_space hn)) _
  obtain ⟨src₁, hs₁, hhead, hlen, hdrop⟩ := hfront
    ((b₂ :: bs₂) ++ ((f :: fs) ++ ((b₃ :: bs₃) ++ (snippet ++ ((e :: es) ++ rest)))))
  have hline : ∀ c ∈ n :: ns, isBlank c = false := fun c hc =>
    isSpace_false_blank (isTokenChar_space (h6 c hc))
  have hfile : ∀ c ∈ f :: fs, isBlank c = false := fun c hc =>
    isSpace_false_blank (isTokenChar_space (h10 c hc))
  have hsnip : skipBlank (snippet ++ ((e :: es) ++ rest)) = snippet ++ ((e :: es) ++ rest) := by
    cases snippet with
    | nil => exact skipBlank_cons (isEol_not_blank he) _
    | cons c cs => exact skipBlank_cons (by simpa using h15) _
  have e₁ : scanToken ((n :: ns) ++
      ((b₂ :: bs₂) ++ ((f :: fs) ++ ((b₃ :: bs₃) ++ (snippet ++ ((e :: es) ++ rest)))))) =
      some (n :: ns, (b₂ :: bs₂) ++ ((f :: fs) ++ ((b₃ :: bs₃) ++ (snippet ++ ((e :: es) ++ rest))))) :=
    scanToken_append hline hb₂ _
  have e₂ : skipBlank ((b₂ :: bs₂) ++ ((f :: fs) ++ ((b₃ :: bs₃) ++ (snippet ++ ((e :: es) ++ rest))))) =
      (f :: fs) ++ ((b₃ :: bs₃) ++ (snippet ++ ((e :: es) ++ rest))) := by
    rw [skipBlank_append h8]
    exact skipBlank_cons (hfile f (List.mem_cons_self _ _)) _
  have e₃ : scanToken ((f :: fs) ++ ((b₃ :: bs₃) ++ (snippet ++ ((e :: es) ++ rest)))) =
      some (f :: fs, (b₃ :: bs₃) ++ (snippet ++ ((e :: es) ++ rest))) :=
    scanToken_append hfile hb₃ _
  have e₄ : skipBlank ((b₃ :: bs₃) ++ (snippet ++ ((e :: es) ++ rest))) =
      snippet ++ ((e :: es) ++ rest) := by
    rw [skipBlank_append h12, hsnip]
  have e₅ : scanLine (snippet ++ ((e :: es) ++ rest)) = some (snippet, (e :: es) ++ rest) :=
    scanLine_append h14 he _
  have hwire : Line.wire ⟨lead, tag, b₁ :: bs₁, n :: ns, b₂ :: bs₂, f :: fs, b₃ :: bs₃, snippet,
      e :: es⟩ ++ rest = lead ++ (tag ++ ((b₁ :: bs₁) ++ ((n :: ns) ++
        ((b₂ :: bs₂) ++ ((f :: fs) ++ ((b₃ :: bs₃) ++ (snippet ++ ((e :: es) ++ rest)))))))) := by
    simp only [Line.wire, List.append_assoc]
  rw [hwire]
  unfold parseCmdBody
  simp only [hs₁, hhead, hlen, hdrop, e₁, e₂, e₃, e₄, e₅]
  simp

/-! ## The iteration bound is large enough -/

/-- Every pass of the body of `parseCmd` that goes on moves `src` forward. -/
theorem parseCmdBody_length {tagLen : Nat} {prev prev₁ : Option (List Char)}
    {src src₁ : List Char} {out : List Entry}
    (h : parseCmdBody tagLen prev src = .next out prev₁ src₁) : src₁.length < src.length := by
  unfold parseCmdBody at h
  simp only at h
  split at h
  · cases h
  · split at h
    · cases h
    · split at h
      · cases h
      · rename_i lineRes lineResEnd h₁
        split at h
        · cases h
        · rename_i file fileResEnd h₂
          split at h
          · cases h
          · rename_i snippet lineResEnd₂ h₃
            cases h
            have l₁ := scanToken_skipBlank_length h₁
            have l₂ := congrArg List.length (scanToken_eq_append h₂)
            have l₃ := congrArg List.length (scanLine_eq_append h₃)
            have l₄ := skipBlank_length lineResEnd
            have l₅ := skipBlank_length fileResEnd
            have l₆ := skipSpace_length src
            simp only [List.length_append, List.length_drop] at l₁ l₂ l₃
            omega

theorem parseCmdLoop_fuel (tagLen : Nat) :
    ∀ (f g : Nat) (prev : Option (List Char)) (src : List Char),
      src.length < f → src.length < g →
      parseCmdLoop tagLen f prev src = parseCmdLoop tagLen g prev src := by
  intro f
  induction f with
  | zero => intro g prev src hf; omega
  | succ f ih =>
    intro g prev src hf hg
    cases g with
    | zero => omega
    | succ g =>
      unfold parseCmdLoop
      cases hb : parseCmdBody tagLen prev src with
      | stop => rfl
      | fault => rfl
      | next out prev₁ src₁ =>
        have := parseCmdBody_length hb
        simp only
        rw [ih g prev₁ src₁ (by omega) (by omega)]

/-- The loop of `parseCmd`, unrolled once, free of the iteration bound. -/
theorem parseCmdFrom_unfold (search : List Char) (prev : Option (List Char)) (src : List Char) :
    parseCmdFrom search prev src =
      match parseCmdBody (strlen search) prev src with
      | .stop => .ok []
      | .fault => .outOfBounds
      | .next out prev₁ src₁ => (parseCmdFrom search prev₁ src₁).prepend out := by
  unfold parseCmdFrom
  rw [parseCmdLoop]
  cases hb : parseCmdBody (strlen search) prev src with
  | stop => rfl
  | fault => rfl
  | next out prev₁ src₁ =>
    have := parseCmdBody_length hb
    simp only
    rw [parseCmdLoop_fuel (strlen search) src.length (src₁.length + 1) prev₁ src₁ (by omega)
      (by omega)]

/-- The loop of `parseCmd` never exhausts its iteration bound: `parseCmd`
terminates on every buffer. -/
theorem parseCmdLoop_ne_outOfFuel (tagLen : Nat) :
    ∀ (f : Nat) (prev : Option (List Char)) (src : List Char),
      src.length < f → parseCmdLoop tagLen f prev src ≠ .outOfFuel := by
  intro f
  induction f with
  | zero => intro prev src hf; omega
  | succ f ih =>
    intro prev src hf
    unfold parseCmdLoop
    cases hb : parseCmdBody tagLen prev src with
    | stop => simp
    | fault => simp
    | next out prev₁ src₁ =>
      have := parseCmdBody_length hb
      have := ih prev₁ src₁ (by omega)
      simp only
      cases hr : parseCmdLoop tagLen f prev₁ src₁ with
      | ok es => simp [Run.prepend]
      | outOfBounds => simp [Run.prepend]
      | outOfFuel => exact absurd hr this

/-- `parseCmd` terminates on every buffer and for every search text: it
finishes or it reads after the terminating NUL. -/
theorem parseCmdEntries_terminates (search src : List Char) :
    parseCmdEntries search src ≠ .outOfFuel :=
  parseCmdLoop_ne_outOfFuel (strlen search) (src.length + 1) none src (Nat.lt_succ_self _)

theorem parseCmdBody_skip {a : List Char} (ha : ∀ c ∈ a, isSpace c = true) (tagLen : Nat)
    (prev : Option (List Char)) (src : List Char) :
    parseCmdBody tagLen prev (a ++ src) = parseCmdBody tagLen prev src := by
  unfold parseCmdBody
  rw [skipSpace_append ha]

/-- White space in front of the read pointer does not change the parse. -/
theorem parseCmdFrom_skip {a : List Char} (ha : ∀ c ∈ a, isSpace c = true) (search : List Char)
    (prev : Option (List Char)) (src : List Char) :
    parseCmdFrom search prev (a ++ src) = parseCmdFrom search prev src := by
  rw [parseCmdFrom_unfold, parseCmdFrom_unfold search prev src, parseCmdBody_skip ha]

theorem parseCmdFrom_space {a : List Char} (ha : ∀ c ∈ a, isSpace c = true) (search : List Char)
    (prev : Option (List Char)) : parseCmdFrom search prev a = .ok [] := by
  have h := parseCmdFrom_skip ha search prev []
  rw [List.append_nil] at h
  rw [h, parseCmdFrom_unfold]
  simp [parseCmdBody, skipSpace]

/-- The parse of a well-formed record line followed by any text: the entries
of the record, then the parse of the text. -/
theorem parseCmdFrom_wire {search : List Char} {l : Line} (h : l.WellFormed (strlen search))
    (prev : Option (List Char)) (rest : List Char) :
    parseCmdFrom search prev (l.wire ++ rest) =
      (parseCmdFrom search (some l.file) rest).prepend
        ((if prev = some l.file then [] else [Entry.file l.file]) ++
          [Entry.hit l.line l.snippet]) := by
  have hf : ∀ c ∈ l.file, c ≠ '\x00' := fun c hc => isTokenChar_nul (h.file_token c hc)
  rw [parseCmdFrom_unfold, parseCmdBody_wire h]
  simp only
  rw [(isNewFile_state hf prev).1, (isNewFile_state hf prev).2, parseCmdFrom_skip h.term_space]

/-- The parse of a well-formed raw text is the outline of its records. -/
theorem parseCmdFrom_wireAll {search : List Char} :
    ∀ (ls : List Line) (trail : List Char) (prev : Option (List Char)),
      (∀ l ∈ ls, Line.WellFormed (strlen search) l) → (∀ c ∈ trail, isSpace c = true) →
      parseCmdFrom search prev (wireAll ls trail) = .ok (outline prev ls) := by
  intro ls
  induction ls with
  | nil =>
    intro trail prev _ ht
    exact parseCmdFrom_space ht search prev
  | cons l ls ih =>
    intro trail prev hl ht
    have h₁ := hl l (List.mem_cons_self _ _)
    have h₂ := ih trail (some l.file) (fun m hm => hl m (List.mem_cons_of_mem _ hm)) ht
    rw [wireAll, parseCmdFrom_wire h₁, h₂]
    simp [Run.prepend, outline]

/-! ## The outline of a sequence of records -/

theorem hitsOf_append (a b : List Entry) : hitsOf (a ++ b) = hitsOf a ++ hitsOf b := by
  induction a with
  | nil => rfl
  | cons e es ih => cases e <;> simp [hitsOf, ih]

theorem headingsOf_append (a b : List Entry) :
    headingsOf (a ++ b) = headingsOf a ++ headingsOf b := by
  induction a with
  | nil => rfl
  | cons e es ih => cases e <;> simp [headingsOf, ih]

theorem hitsOf_outline (ls : List Line) :
    ∀ prev, hitsOf (outline prev ls) = ls.map fun l => (l.line, l.snippet) := by
  induction ls with
  | nil => intro prev; rfl
  | cons l ls ih =>
    intro prev
    rw [outline, hitsOf_append]
    by_cases h : prev = some l.file <;> simp [h, hitsOf, ih]

theorem headingsOf_outline_some (ls : List Line) :
    ∀ p : List Char, p :: headingsOf (outline (some p) ls) =
      List.destutter' (· ≠ ·) p (ls.map Line.file) := by
  induction ls with
  | nil => intro p; rfl
  | cons l ls ih =>
    intro p
    rw [outline, headingsOf_append, List.map_cons]
    by_cases h : p = l.file
    · subst h
      rw [List.destutter'_cons_neg _ (by simp)]
      simpa [headingsOf] using ih l.file
    · have h₂ : ¬ some p = some l.file := fun e => h (Option.some.inj e)
      rw [List.destutter'_cons_pos _ h]
      simpa [headingsOf, h₂] using ih l.file

/-- The headings of an outline are the file paths of the records with every
run of consecutive equal paths collapsed to one. -/
theorem headingsOf_outline (ls : List Line) :
    headingsOf (outline none ls) = List.destutter (· ≠ ·) (ls.map Line.file) := by
  cases ls with
  | nil => rfl
  | cons l ls =>
    rw [outline, headingsOf_append, List.map_cons, List.destutter_cons',
      ← headingsOf_outline_some ls l.file]
    simp [headingsOf]

theorem entriesAt_succ (prev : Option (List Char)) (l : Line) (ls : List Line) (i : Nat) :
    entriesAt prev (l :: ls) (i + 1) = entriesAt (some l.file) ls i := by
  cases i <;> rfl

/-- The outline, record by record. -/
theorem outline_eq_flatMap (ls : List Line) :
    ∀ prev, outline prev ls = (List.range ls.length).flatMap (entriesAt prev ls) := by
  induction ls with
  | nil => intro prev; rfl
  | cons l ls ih =>
    intro prev
    rw [List.length_cons, List.range_succ_eq_map, List.flatMap_cons, List.flatMap_map, outline]
    have : (fun i => entriesAt prev (l :: ls) (Nat.succ i)) = entriesAt (some l.file) ls := by
      funext i
      exact entriesAt_succ prev l ls i
    rw [this, ← ih]
    simp [entriesAt, fileBefore]

theorem wireAll_append (ls : List Line) (trail post : List Char) :
    wireAll ls trail ++ post = wireAll ls (trail ++ post) := by
  induction ls with
  | nil => rfl
  | cons l ls ih => simp [wireAll, ih]

theorem parseCmd_of_entries {search src : List Char} {es : List Entry}
    (h : parseCmdEntries search src = .ok es) (dst : List Char) :
    parseCmd search dst src = .ok (dst ++ render es) := by
  simp [parseCmd, h]

theorem parseCmdEntries_wireAll {search : List Char} {ls : List Line} {trail : List Char}
    (hls : ∀ l ∈ ls, Line.WellFormed (strlen search) l) (ht : ∀ c ∈ trail, isSpace c = true) :
    parseCmdEntries search (wireAll ls trail) = .ok (outline none ls) :=
  parseCmdFrom_wireAll ls trail none hls ht

/-! ## The loop of `parseFindFile` -/

theorem scanPath_append_eq (x : List Char) : (scanPath x).1 ++ (scanPath x).2 = x := by
  induction x with
  | nil => rfl
  | cons c cs ih =>
    unfold scanPath
    split
    · rfl
    · simp [ih]

theorem scanPath_fst (x : List Char) :
    ∀ c ∈ (scanPath x).1, isEol c = false ∧ c ≠ '\x00' := by
  induction x with
  | nil => intro c hc; simp [scanPath] at hc
  | cons d ds ih =>
    intro c hc
    unfold scanPath at hc
    split at hc
    · simp at hc
    · rename_i hd
      simp only [Bool.or_eq_true, beq_iff_eq, not_or] at hd
      rcases List.mem_cons.1 hc with rfl | hc
      · exact ⟨by simpa using hd.1, hd.2⟩
      · exact ih c hc

theorem scanPath_snd (x : List Char) :
    (scanPath x).2 = [] ∨ ∃ e y, (scanPath x).2 = e :: y ∧ (isEol e = true ∨ e = '\x00') := by
  induction x with
  | nil => left; rfl
  | cons d ds ih =>
    unfold scanPath
    split
    · rename_i hd
      simp only [Bool.or_eq_true, beq_iff_eq] at hd
      exact Or.inr ⟨d, ds, rfl, hd⟩
    · exact ih

theorem skipSpace_head {src : List Char} {c : Char} {y : List Char}
    (h : skipSpace src = c :: y) : isSpace c = false := by
  induction src with
  | nil => simp [skipSpace] at h
  | cons d ds ih =>
    cases hd : isSpace d with
    | true =>
      have : skipSpace (d :: ds) = skipSpace ds := by simp [skipSpace, List.dropWhile, hd]
      rw [this] at h
      exact ih h
    | false =>
      rw [skipSpace_cons hd] at h
      cases h
      exact hd

/-- Every pass of the body of `parseFindFile` that goes on moves `src`
forward. -/
theorem parseFindFileBody_length {src src₁ : List Char} {prev₁ : Option (List Char)}
    {out : List Entry} (h : parseFindFileBody src = .next out prev₁ src₁) :
    src₁.length < src.length := by
  unfold parseFindFileBody at h
  simp only at h
  split at h
  · cases h
  · rename_i hhead
    cases h
    have l₁ := skipSpace_length src
    cases hs : skipSpace src with
    | nil => rw [hs] at hhead; simp at hhead
    | cons c y =>
      rw [hs] at hhead l₁
      have hc := skipSpace_head hs
      have hnul : c ≠ '\x00' := by simpa using hhead
      have l₂ := congrArg List.length (scanPath_append_eq y)
      simp only [scanPath, isSpace_false_eol hc, Bool.false_or, beq_iff_eq, hnul, if_false,
        List.length_append, List.length_cons] at l₁ l₂ ⊢
      omega

theorem parseFindFile_never_faults (src : List Char) : parseFindFileBody src ≠ .fault := by
  unfold parseFindFileBody
  simp only
  split <;> simp

theorem parseFindFileLoop_fuel :
    ∀ (f g : Nat) (src : List Char), src.length < f → src.length < g →
      parseFindFileLoop f src = parseFindFileLoop g src := by
  intro f
  induction f with
  | zero => intro g src hf; omega
  | succ f ih =>
    intro g src hf hg
    cases g with
    | zero => omega
    | succ g =>
      unfold parseFindFileLoop
      cases hb : parseFindFileBody src with
      | stop => rfl
      | fault => rfl
      | next out prev₁ src₁ =>
        have := parseFindFileBody_length hb
        simp only
        rw [ih g src₁ (by omega) (by omega)]

/-- The loop of `parseFindFile`, unrolled once, free of the iteration bound. -/
theorem parseFindFileEntries_unfold (src : List Char) :
    parseFindFileEntries src =
      if (skipSpace src).headD '\x00' = '\x00' then .ok []
      else (parseFindFileEntries (scanPath (skipSpace src)).2).prepend
        [Entry.file (scanPath (skipSpace src)).1] := by
  unfold parseFindFileEntries
  rw [parseFindFileLoop]
  cases hb : parseFindFileBody src with
  | stop =>
    unfold parseFindFileBody at hb
    simp only at hb
    split at hb
    · rename_i h
      simp only [beq_iff_eq] at h
      rw [if_pos h]
    · cases hb
  | fault => exact absurd hb (parseFindFile_never_faults src)
  | next out prev₁ src₁ =>
    have hl := parseFindFileBody_length hb
    unfold parseFindFileBody at hb
    simp only at hb
    split at hb
    · cases hb
    · rename_i h
      simp only [beq_iff_eq] at h
      cases hb
      rw [if_neg h]
      simp only
      rw [parseFindFileLoop_fuel src.length ((scanPath (skipSpace src)).2.length + 1) _
        (by omega) (by omega)]

/-! ## The file records of a text -/

theorem fileRecords_nil : fileRecords [] = [] := by
  simp [fileRecords, physLines, nonBlank]

theorem fileRecords_cons_space {c : Char} (hc : isSpace c = true) (y : List Char) :
    fileRecords (c :: y) = fileRecords y := by
  unfold fileRecords physLines
  rw [List.splitOnP_cons]
  cases he : isEol c with
  | true => simp [nonBlank]
  | false =>
    have hb : isBlank c = true := by
      simp only [isSpace, isEol, isBlank, Bool.or_eq_true, Bool.or_eq_false_iff] at *
      rcases hc with ((h | h) | h) | h
      · simp [h] at he
      · simp [h] at he
      · exact Or.inl h
      · exact Or.inr h
    cases hs : List.splitOnP isEol y with
    | nil => exact absurd hs (List.splitOnP_ne_nil _ _)
    | cons h tl =>
      simp only [Bool.false_eq_true, if_false, List.modifyHead_cons]
      have h₁ : nonBlank (c :: h) = nonBlank h := by simp [nonBlank, hc]
      have h₂ : trimLeft (c :: h) = trimLeft h := by simp [trimLeft, List.dropWhile, hb]
      simp only [List.filter_cons, h₁]
      cases nonBlank h <;> simp [h₂]

theorem fileRecords_append_space {sp : List Char} (hsp : ∀ c ∈ sp, isSpace c = true)
    (y : List Char) : fileRecords (sp ++ y) = fileRecords y := by
  induction sp with
  | nil => rfl
  | cons c cs ih =>
    rw [List.cons_append, fileRecords_cons_space (hsp c (List.mem_cons_self _ _)),
      ih fun d hd => hsp d (List.mem_cons_of_mem _ hd)]

theorem fileRecords_line {b : Char} {bs : List Char} (hb : isSpace b = false)
    (hbs : ∀ c ∈ b :: bs, isEol c = false) :
    fileRecords (b :: bs) = [Entry.file (b :: bs)] ∧
    ∀ (e : Char) (y : List Char), isEol e = true →
      fileRecords ((b :: bs) ++ e :: y) = Entry.file (b :: bs) :: fileRecords y := by
  have hp : ∀ x ∈ b :: bs, ¬ isEol x = true := fun x hx => by simp [hbs x hx]
  have h₁ : nonBlank (b :: bs) = true := by simp [nonBlank, hb]
  have h₂ : trimLeft (b :: bs) = b :: bs := by
    simp [trimLeft, List.dropWhile, isSpace_false_blank hb]
  constructor
  · unfold fileRecords physLines
    rw [List.splitOnP_eq_single _ _ hp]
    simp [List.filter_cons, h₁, h₂]
  · intro e y he
    unfold fileRecords physLines
    rw [List.splitOnP_first _ _ hp e he]
    simp [List.filter_cons, h₁, h₂]

theorem cstr_cons (c : Char) (y : List Char) :
    cstr (c :: y) = if c = '\x00' then [] else c :: cstr y := by
  by_cases h : c = '\x00'
  · subst h; rfl
  · have : (c != '\x00') = true := by simpa using h
    simp [cstr, List.takeWhile, this, h]

theorem cstr_append {t : List Char} (ht : ∀ c ∈ t, c ≠ '\x00') (r : List Char) :
    cstr (t ++ r) = t ++ cstr r := by
  induction t with
  | nil => rfl
  | cons c cs ih =>
    rw [List.cons_append, cstr_cons, if_neg (ht c (List.mem_cons_self _ _)),
      ih fun d hd => ht d (List.mem_cons_of_mem _ hd), List.cons_append]

theorem isSpace_ne_nul {c : Char} (h : isSpace c = true) : c ≠ '\x00' := by
  rintro rfl
  simp [isSpace] at h

theorem isEol_ne_nul {c : Char} (h : isEol c = true) : c ≠ '\x00' :=
  isSpace_ne_nul (isEol_isSpace h)

theorem fileRecords_cstr_skipSpace (src : List Char) :
    fileRecords (cstr (skipSpace src)) = fileRecords (cstr src) := by
  induction src with
  | nil => rfl
  | cons c y ih =>
    cases hc : isSpace c with
    | true =>
      have : skipSpace (c :: y) = skipSpace y := by simp [skipSpace, List.dropWhile, hc]
      rw [this, ih, cstr_cons, if_neg (isSpace_ne_nul hc), fileRecords_cons_space hc]
    | false => rw [skipSpace_cons hc]

/-- The records of a text whose first character is no white space: the first
line, then the records of what the line scan leaves. -/
theorem fileRecords_cstr_scanPath {c : Char} (y : List Char) (hc : isSpace c = false)
    (hnul : c ≠ '\x00') :
    fileRecords (cstr (c :: y)) =
      Entry.file (scanPath (c :: y)).1 :: fileRecords (cstr (scanPath (c :: y)).2) := by
  have hsplit := scanPath_append_eq (c :: y)
  have hfst := scanPath_fst (c :: y)
  have hsnd := scanPath_snd (c :: y)
  have hhead : (scanPath (c :: y)).1 = c :: (scanPath y).1 := by
    simp [scanPath, isSpace_false_eol hc, hnul]
  generalize (scanPath (c :: y)).2 = r at hsplit hsnd
  rw [hhead] at hsplit hfst ⊢
  have hline := fileRecords_line hc fun d hd => (hfst d hd).1
  rw [← hsplit, cstr_append fun d hd => (hfst d hd).2]
  rcases hsnd with rfl | ⟨e, z, rfl, he | rfl⟩
  · simpa [cstr, fileRecords_nil] using hline.1
  · rw [cstr_cons, if_neg (isEol_ne_nul he), hline.2 e _ he,
      fileRecords_cons_space (isEol_isSpace he)]
  · simpa [cstr_cons, fileRecords_nil] using hline.1

/-- `parseFindFile` terminates on every buffer, and what it appends are the
file records of the C string in the buffer. -/
theorem parseFindFileEntries_eq :
    ∀ (n : Nat) (src : List Char), src.length ≤ n →
      parseFindFileEntries src = .ok (fileRecords (cstr src)) := by
  intro n
  induction n with
  | zero =>
    intro src h
    have : src = [] := List.length_eq_zero.1 (by omega)
    subst this
    rfl
  | succ n ih =>
    intro src h
    rw [parseFindFileEntries_unfold, ← fileRecords_cstr_skipSpace]
    have hlen := skipSpace_length src
    cases hs : skipSpace src with
    | nil => simp [cstr, fileRecords_nil]
    | cons c y =>
      have hc := skipSpace_head hs
      by_cases hnul : c = '\x00'
      · subst hnul
        simp [cstr_cons, fileRecords_nil]
      · rw [hs] at hlen
        have hsplit := congrArg List.length (scanPath_append_eq (c :: y))
        have hhead : (scanPath (c :: y)).1 = c :: (scanPath y).1 := by
          simp [scanPath, isSpace_false_eol hc, hnul]
        rw [hhead] at hsplit
        simp only [List.length_append, List.length_cons] at hsplit hlen
        rw [fileRecords_cstr_scanPath y hc hnul, ih (scanPath (c :: y)).2 (by omega)]
        simp [hnul, Run.prepend]

theorem parseFindFile_of_entries {src : List Char} {es : List Entry}
    (h : parseFindFileEntries src = .ok es) (dst : List Char) :
    parseFindFile dst src = .ok (dst ++ render es) := by
  simp [parseFindFile, h]

theorem physLines_append_eol (a : List Char) {e : Char} (he : isEol e = true) (b : List Char) :
    physLines (a ++ e :: b) = physLines a ++ physLines b := by
  unfold physLines
  induction a with
  | nil => simp [he]
  | cons c y ih =>
    rw [List.cons_append, List.splitOnP_cons, List.splitOnP_cons, ih]
    cases hc : isEol c with
    | true => simp
    | false =>
      cases hs : List.splitOnP isEol y with
      | nil => exact absurd hs (List.splitOnP_ne_nil _ _)
      | cons h tl => simp

theorem fileRecords_append_eol (a : List Char) {e : Char} (he : isEol e = true) (b : List Char) :
    fileRecords (a ++ e :: b) = fileRecords a ++ fileRecords b := by
  unfold fileRecords
  rw [physLines_append_eol a he b, List.filter_append, List.map_append]

/-- The records of a text that goes on after complete lines. -/
theorem fileRecords_after_lines {before : List Char}
    (hend : ∀ c ∈ before.getLast?, isEol c = true) (x : List Char) :
    fileRecords (before ++ x) = fileRecords before ++ fileRecords x := by
  rcases List.eq_nil_or_concat before with rfl | ⟨a, e, rfl⟩
  · simp [fileRecords_nil]
  · rw [List.concat_eq_append] at hend ⊢
    have he : isEol e = true := hend e (by simp)
    have h₁ := fileRecords_append_eol a he x
    have h₂ := fileRecords_append_eol a he []
    rw [fileRecords_nil, List.append_nil] at h₂
    rw [h₂, ← h₁]
    simp

/-- The records of a text that starts with a non-blank physical line. -/
theorem fileRecords_first_line {line rest : List Char}
    (hline : ∀ c ∈ line, isEol c = false ∧ c ≠ '\x00') (hnb : nonBlank line = true)
    (hrest : ∀ c ∈ rest.head?, isEol c = true ∨ c = '\x00') :
    fileRecords (line ++ cstr rest) = Entry.file (trimLeft line) :: fileRecords (cstr rest) := by
  have hsplit : line.takeWhile isBlank ++ trimLeft line = line :=
    List.takeWhile_append_dropWhile isBlank line
  have hsp : ∀ c ∈ line.takeWhile isBlank, isSpace c = true := fun c hc =>
    isBlank_isSpace (List.mem_takeWhile_imp hc)
  have hbody : ∀ c ∈ trimLeft line, isEol c = false := fun c hc =>
    (hline c (by rw [← hsplit]; exact List.mem_append_right _ hc)).1
  cases hb : trimLeft line with
  | nil =>
    have hall : ∀ x ∈ line, isBlank x = true := List.dropWhile_eq_nil_iff.1 hb
    simp only [nonBlank, List.any_eq_true, Bool.not_eq_true'] at hnb
    obtain ⟨x, hx, hxs⟩ := hnb
    rw [isBlank_isSpace (hall x hx)] at hxs
    cases hxs
  | cons b bs =>
    rw [hb] at hbody hsplit
    have hbl : isBlank b = false := by
      have := List.head?_dropWhile_not isBlank line
      unfold trimLeft at hb
      rw [hb] at this
      simpa using this
    have hbsp : isSpace b = false := by
      have hbe := hbody b (List.mem_cons_self _ _)
      simp only [isSpace, isEol, isBlank, Bool.or_eq_false_iff] at *
      exact ⟨⟨hbe, hbl.1⟩, hbl.2⟩
    have hl := fileRecords_line hbsp hbody
    rw [← hsplit, List.append_assoc, fileRecords_append_space hsp]
    cases rest with
    | nil => simpa [cstr, fileRecords_nil] using hl.1
    | cons e y =>
      rcases hrest e (by simp) with he | rfl
      · rw [cstr_cons, if_neg (isEol_ne_nul he), hl.2 e _ he,
          fileRecords_cons_space (isEol_isSpace he)]
      · simpa [cstr_cons, fileRecords_nil] using hl.1

/-! ## Line terminators -/

theorem replaceNewline_cons (nl : List Char) (c : Char) (y : List Char) :
    replaceNewline nl (c :: y) = (if c = '\n' then nl else [c]) ++ replaceNewline nl y := by
  simp [replaceNewline]

theorem replaceNewline_append (nl a b : List Char) :
    replaceNewline nl (a ++ b) = replaceNewline nl a ++ replaceNewline nl b := by
  simp [replaceNewline]

theorem replaceNewline_id (nl : List Char) {x : List Char} (h : ∀ c ∈ x, c ≠ '\n') :
    replaceNewline nl x = x := by
  induction x with
  | nil => rfl
  | cons c y ih =>
    rw [replaceNewline_cons, if_neg (h c (List.mem_cons_self _ _)),
      ih fun d hd => h d (List.mem_cons_of_mem _ hd)]
    rfl

theorem replaceNewline_space {nl : List Char} (hnl : ∀ c ∈ nl, isSpace c = true)
    {x : List Char} (h : ∀ c ∈ x, isSpace c = true) :
    ∀ c ∈ replaceNewline nl x, isSpace c = true := by
  induction x with
  | nil => intro c hc; simp [replaceNewline] at hc
  | cons d y ih =>
    intro c hc
    rw [replaceNewline_cons] at hc
    rcases List.mem_append.1 hc with hc | hc
    · by_cases hd : d = '\n'
      · rw [if_pos hd] at hc
        exact hnl c hc
      · rw [if_neg hd] at hc
        rw [List.mem_singleton.1 hc]
        exact h d (List.mem_cons_self _ _)
    · exact ih (fun e he => h e (List.mem_cons_of_mem _ he)) c hc

theorem replaceNewline_head {nl : List Char} (hnl : isEol (nl.headD ' ') = true)
    {x : List Char} (h : isEol (x.headD ' ') = true) :
    isEol ((replaceNewline nl x).headD ' ') = true := by
  cases x with
  | nil => simp [isEol] at h
  | cons d y =>
    rw [replaceNewline_cons]
    by_cases hd : d = '\n'
    · rw [if_pos hd]
      cases nl with
      | nil => simp [isEol] at hnl
      | cons e es => simpa using hnl
    · rw [if_neg hd]
      simpa using h

theorem isSpace_false_ne_newline {c : Char} (h : isSpace c = false) : c ≠ '\n' := by
  rintro rfl
  simp [isSpace] at h

theorem isBlank_ne_newline {c : Char} (h : isBlank c = true) : c ≠ '\n' := by
  rintro rfl
  simp [isBlank] at h

theorem isEol_false_ne_newline {c : Char} (h : isEol c = false) : c ≠ '\n' := by
  rintro rfl
  simp [isEol] at h

theorem Line.withNewline_wellFormed {nl : List Char} (hnl : ∀ c ∈ nl, isSpace c = true)
    (hhead : isEol (nl.headD ' ') = true) {tagLen : Nat} {l : Line} (h : l.WellFormed tagLen) :
    (l.withNewline nl).WellFormed tagLen :=
  ⟨replaceNewline_space hnl h.lead_space, h.tag_length, h.tag_token, h.sep₁_blank, h.sep₁_ne,
    h.line_token, h.line_ne, h.sep₂_blank, h.sep₂_ne, h.file_token, h.file_ne, h.sep₃_blank,
    h.sep₃_ne, h.snippet_line, h.snippet_head, replaceNewline_space hnl h.term_space,
    replaceNewline_head hhead h.term_head⟩

theorem Line.withNewline_wire (nl : List Char) {tagLen : Nat} {l : Line}
    (h : l.WellFormed tagLen) : (l.withNewline nl).wire = replaceNewline nl l.wire := by
  have tok : ∀ {x : List Char}, (∀ c ∈ x, isTokenChar c = true) → replaceNewline nl x = x :=
    fun hx => replaceNewline_id nl fun c hc => isSpace_false_ne_newline (isTokenChar_space (hx c hc))
  have bl : ∀ {x : List Char}, (∀ c ∈ x, isBlank c = true) → replaceNewline nl x = x :=
    fun hx => replaceNewline_id nl fun c hc => isBlank_ne_newline (hx c hc)
  have sn : replaceNewline nl l.snippet = l.snippet :=
    replaceNewline_id nl fun c hc => isEol_false_ne_newline (h.snippet_line c hc)
  simp only [Line.wire, Line.withNewline, replaceNewline_append, tok h.tag_token,
    tok h.line_token, tok h.file_token, bl h.sep₁_blank, bl h.sep₂_blank, bl h.sep₃_blank, sn]

theorem replaceNewline_wireAll (nl : List Char) {tagLen : Nat} :
    ∀ (ls : List Line) (trail : List Char), (∀ l ∈ ls, Line.WellFormed tagLen l) →
      replaceNewline nl (wireAll ls trail) =
        wireAll (ls.map (Line.withNewline nl)) (replaceNewline nl trail) := by
  intro ls
  induction ls with
  | nil => intro trail _; rfl
  | cons l ls ih =>
    intro trail h
    rw [wireAll, replaceNewline_append, List.map_cons, wireAll,
      Line.withNewline_wire nl (h l (List.mem_cons_self _ _)),
      ih trail fun m hm => h m (List.mem_cons_of_mem _ hm)]

theorem outline_withNewline (nl : List Char) (ls : List Line) :
    ∀ prev, outline prev (ls.map (Line.withNewline nl)) = outline prev ls := by
  induction ls with
  | nil => intro prev; rfl
  | cons l ls ih =>
    intro prev
    rw [List.map_cons, outline, outline, ih]
    rfl

/-- Putting a line terminator `nl` in place of every `\n` of a well-formed raw
text does not change what `parseCmd` appends. -/
theorem parseCmdEntries_replaceNewline {nl : List Char} (hnl : ∀ c ∈ nl, isSpace c = true)
    (hhead : isEol (nl.headD ' ') = true) {search t : List Char} (ht : WellFormed search t) :
    parseCmdEntries search (replaceNewline nl t) = parseCmdEntries search t := by
  obtain ⟨ls, trail, hls, htrail, rfl⟩ := ht
  rw [replaceNewline_wireAll nl ls trail hls, parseCmdEntries_wireAll hls htrail,
    parseCmdEntries_wireAll (fun l hl => by
      obtain ⟨m, hm, rfl⟩ := List.mem_map.1 hl
      exact Line.withNewline_wellFormed hnl hhead (hls m hm))
      (replaceNewline_space hnl htrail),
    outline_withNewline]

theorem skipSpace_replaceNewline {nl : List Char} (hnl : ∀ c ∈ nl, isSpace c = true)
    (u : List Char) : skipSpace (replaceNewline nl u) = replaceNewline nl (skipSpace u) := by
  induction u with
  | nil => rfl
  | cons c y ih =>
    rw [replaceNewline_cons]
    cases hc : isSpace c with
    | true =>
      have h₁ : ∀ d ∈ (if c = '\n' then nl else [c]), isSpace d = true := by
        intro d hd
        by_cases hcn : c = '\n'
        · rw [if_pos hcn] at hd; exact hnl d hd
        · rw [if_neg hcn] at hd; rw [List.mem_singleton.1 hd]; exact hc
      have h₂ : skipSpace (c :: y) = skipSpace y := by simp [skipSpace, List.dropWhile, hc]
      rw [skipSpace_append h₁, ih, h₂]
    | false =>
      rw [if_neg (isSpace_false_ne_newline hc), skipSpace_cons hc, replaceNewline_cons,
        if_neg (isSpace_false_ne_newline hc)]
      exact skipSpace_cons hc _

theorem scanPath_replaceNewline {nl : List Char} (hhead : isEol (nl.headD ' ') = true)
    (x : List Char) :
    scanPath (replaceNewline nl x) = ((scanPath x).1, replaceNewline nl (scanPath x).2) := by
  induction x with
  | nil => rfl
  | cons c y ih =>
    rw [replaceNewline_cons]
    by_cases hcn : c = '\n'
    · subst hcn
      rw [if_pos rfl]
      cases nl with
      | nil => simp [isEol] at hhead
      | cons e es =>
        have he : isEol e = true := by simpa using hhead
        have hn : isEol '\n' = true := rfl
        simp [scanPath, he, hn, replaceNewline_cons]
    · rw [if_neg hcn]
      by_cases hstop : (isEol c || c == '\x00') = true
      · simp [scanPath, hstop, replaceNewline_cons, hcn]
      · simp [scanPath, hstop, ih]

/-- Putting a line terminator `nl` in place of every `\n` of a raw text does
not change what `parseFindFile` appends. -/
theorem parseFindFileEntries_replaceNewline {nl : List Char} (hnl : ∀ c ∈ nl, isSpace c = true)
    (hhead : isEol (nl.headD ' ') = true) :
    ∀ (n : Nat) (u : List Char), u.length ≤ n →
      parseFindFileEntries (replaceNewline nl u) = parseFindFileEntries u := by
  intro n
  induction n with
  | zero =>
    intro u h
    have : u = [] := List.length_eq_zero.1 (by omega)
    subst this
    rfl
  | succ n ih =>
    intro u h
    rw [parseFindFileEntries_unfold, parseFindFileEntries_unfold u, skipSpace_replaceNewline hnl]
    have hlen := skipSpace_length u
    cases hs : skipSpace u with
    | nil => rfl
    | cons c y =>
      have hc := skipSpace_head hs
      rw [replaceNewline_cons, if_neg (isSpace_false_ne_newline hc)]
      by_cases hnul : c = '\x00'
      · simp [hnul]
      · have e₁ : ([c] ++ replaceNewline nl y) = replaceNewline nl (c :: y) := by
          rw [replaceNewline_cons, if_neg (isSpace_false_ne_newline hc)]
        have hsplit := congrArg List.length (scanPath_append_eq (c :: y))
        have hfst : (scanPath (c :: y)).1 = c :: (scanPath y).1 := by
          simp [scanPath, isSpace_false_eol hc, hnul]
        rw [hfst] at hsplit
        rw [hs] at hlen
        simp only [List.length_append, List.length_cons] at hsplit hlen
        have hR : [c] ++ replaceNewline nl y = c :: replaceNewline nl y := rfl
        have hsc : scanPath (c :: replaceNewline nl y) =
            ((scanPath (c :: y)).1, replaceNewline nl (scanPath (c :: y)).2) := by
          rw [← hR, e₁, scanPath_replaceNewline hhead]
        rw [hR, hsc, ih (scanPath (c :: y)).2 (by omega)]
        simp [hnul]

theorem mem_outline {e : Entry} (ls : List Line) :
    ∀ prev, e ∈ outline prev ls → ∃ l ∈ ls, e = .file l.file ∨ e = .hit l.line l.snippet := by
  induction ls with
  | nil => intro prev h; simp [outline] at h
  | cons l ls ih =>
    intro prev h
    rw [outline] at h
    rcases List.mem_append.1 h with h | h
    · by_cases hp : prev = some l.file
      · simp [hp] at h
      · rw [if_neg hp] at h
        exact ⟨l, List.mem_cons_self _ _, Or.inl (List.mem_singleton.1 h)⟩
    · rcases List.mem_cons.1 h with h | h
      · exact ⟨l, List.mem_cons_self _ _, Or.inr h⟩
      · obtain ⟨m, hm, hme⟩ := ih _ h
        exact ⟨m, List.mem_cons_of_mem _ hm, hme⟩

theorem mem_physLines (t : List Char) : ∀ l ∈ physLines t, ∀ c ∈ l, isEol c = false := by
  unfold physLines
  induction t with
  | nil => intro l hl c hc; simp at hl; subst hl; simp at hc
  | cons d y ih =>
    intro l hl c hc
    rw [List.splitOnP_cons] at hl
    cases hd : isEol d with
    | true =>
      rw [hd, if_pos rfl] at hl
      rcases List.mem_cons.1 hl with rfl | hl
      · simp at hc
      · exact ih l hl c hc
    | false =>
      rw [hd] at hl
      simp only [Bool.false_eq_true, if_false] at hl
      cases hs : List.splitOnP isEol y with
      | nil => exact absurd hs (List.splitOnP_ne_nil _ _)
      | cons h tl =>
        rw [hs] at hl ih
        simp only [List.modifyHead_cons] at hl
        rcases List.mem_cons.1 hl with rfl | hl
        · rcases List.mem_cons.1 hc with rfl | hc
          · exact hd
          · exact ih h (List.mem_cons_self _ _) c hc
        · exact ih l (List.mem_cons_of_mem _ hl) c hc

theorem payload_fileRecords (t : List Char) :
    ∀ e ∈ fileRecords t, '\r' ∉ e.payload := by
  intro e he hr
  simp only [fileRecords, List.mem_map, List.mem_filter] at he
  obtain ⟨l, ⟨hl, _⟩, rfl⟩ := he
  have hmem : '\r' ∈ l := (List.dropWhile_sublist isBlank).subset hr
  have := mem_physLines t l hl _ hmem
  simp [isEol] at this

theorem payload_outline {tagLen : Nat} {ls : List Line}
    (hls : ∀ l ∈ ls, Line.WellFormed tagLen l) :
    ∀ e ∈ outline none ls, '\r' ∉ e.payload := by
  intro e he hr
  obtain ⟨l, hl, rfl | rfl⟩ := mem_outline ls none he
  · have := isTokenChar_space ((hls l hl).file_token _ hr)
    simp [isSpace] at this
  · have := (hls l hl).snippet_line _ hr
    simp [isEol] at this

/-! ## Generic match parsing -/

/-- C1: for a raw text made of well-formed record lines, each ended by a line
terminator and with a tag as long as the search text, `parseCmd` succeeds and
appends exactly one match entry per record, in input order, with the record's
line-number token and snippet.  For the three records `foo 10 src/a.c some
code`, `foo 11 src/a.c more code`, `foo 3 src/b.c other` and the tag `foo` the
result is the two file groups `src/a.c` with (10, some code), (11, more code)
and `src/b.c` with (3, other). -/
theorem parseCmd_one_match_per_record (search dst : List Char) (ls : List Line)
    (trail : List Char) (hls : ∀ l ∈ ls, Line.WellFormed (strlen search) l)
    (ht : ∀ c ∈ trail, isSpace c = true) :
    (∃ es, parseCmdEntries search (wireAll ls trail) = .ok es ∧
      parseCmd search dst (wireAll ls trail) = .ok (dst ++ render es) ∧
      hitsOf es = ls.map fun l => (l.line, l.snippet)) ∧
    parseCmdEntries "foo".data
        "foo 10 src/a.c some code\nfoo 11 src/a.c more code\nfoo 3 src/b.c other\n".data =
      .ok [.file "src/a.c".data, .hit "10".data "some code".data,
        .hit "11".data "more code".data, .file "src/b.c".data, .hit "3".data "other".data] ∧
    groupsOf [.file "src/a.c".data, .hit "10".data "some code".data,
        .hit "11".data "more code".data, .file "src/b.c".data, .hit "3".data "other".data] =
      [("src/a.c".data, [("10".data, "some code".data), ("11".data, "more code".data)]),
       ("src/b.c".data, [("3".data, "other".data)])] ∧
    parseCmd "foo".data []
        "foo 10 src/a.c some code\nfoo 11 src/a.c more code\nfoo 3 src/b.c other\n".data =
      .ok ("\n\tsrc/a.c\n\t\tline 10:\tsome code\n\t\tline 11:\tmore code" ++
        "\n\tsrc/b.c\n\t\tline 3:\tother").data := by
  refine ⟨⟨outline none ls, parseCmdEntries_wireAll hls ht,
    parseCmd_of_entries (parseCmdEntries_wireAll hls ht) dst, hitsOf_outline ls none⟩, ?_⟩
  exact ⟨by decide, by decide, by decide⟩

/-- Witness for C1: the three records of the example, as record lines. -/
theorem parseCmd_one_match_per_record_witness :
    (∀ l ∈ [Line.plain "foo".data "10".data "src/a.c".data "some code".data,
        Line.plain "foo".data "11".data "src/a.c".data "more code".data,
        Line.plain "foo".data "3".data "src/b.c".data "other".data],
      Line.WellFormed (strlen "foo".data) l) ∧
    (∀ c ∈ ([] : List Char), isSpace c = true) ∧
    wireAll [Line.plain "foo".data "10".data "src/a.c".data "some code".data,
        Line.plain "foo".data "11".data "src/a.c".data "more code".data,
        Line.plain "foo".data "3".data "src/b.c".data "other".data] [] =
      "foo 10 src/a.c some code\nfoo 11 src/a.c more code\nfoo 3 src/b.c other\n".data ∧
    ∃ es, parseCmdEntries "foo".data (wireAll
        [Line.plain "foo".data "10".data "src/a.c".data "some code".data,
        Line.plain "foo".data "11".data "src/a.c".data "more code".data,
        Line.plain "foo".data "3".data "src/b.c".data "other".data] []) = .ok es ∧
      parseCmd "foo".data "Find \"foo\"".data (wireAll
        [Line.plain "foo".data "10".data "src/a.c".data "some code".data,
        Line.plain "foo".data "11".data "src/a.c".data "more code".data,
        Line.plain "foo".data "3".data "src/b.c".data "other".data] []) =
          .ok ("Find \"foo\"".data ++ render es) ∧
      hitsOf es = [("10".data, "some code".data), ("11".data, "more code".data),
        ("3".data, "other".data)] :=
  ⟨by decide, by decide, by decide,
    (parseCmd_one_match_per_record "foo".data "Find \"foo\"".data
      [Line.plain "foo".data "10".data "src/a.c".data "some code".data,
        Line.plain "foo".data "11".data "src/a.c".data "more code".data,
        Line.plain "foo".data "3".data "src/b.c".data "other".data] []
      (by decide) (by decide)).1⟩

/-- C2: for a well-formed sequence of records `parseCmd` appends, record by
record, a file heading if and only if the record is the first one or its
file-path token differs from the file-path token of the record right before
it, and then the match entry.  So the headings are the file paths with every
run of consecutive equal paths collapsed to one, and there are as many
headings as such runs.  `src/a.c` after `src/a.cpp` starts a new heading, and
the interleaved files `a.c`, `b.c`, `a.c` give a second heading for `a.c`. -/
theorem parseCmd_heading_iff_file_changes (search : List Char) (ls : List Line)
    (trail : List Char) (hls : ∀ l ∈ ls, Line.WellFormed (strlen search) l)
    (ht : ∀ c ∈ trail, isSpace c = true) :
    (∃ es, parseCmdEntries search (wireAll ls trail) = .ok es ∧
      es = (List.range ls.length).flatMap (entriesAt none ls) ∧
      headingsOf es = List.destutter (· ≠ ·) (ls.map Line.file) ∧
      (headingsOf es).length = (List.destutter (· ≠ ·) (ls.map Line.file)).length) ∧
    parseCmdEntries "foo".data "foo 1 src/a.cpp x\nfoo 2 src/a.c y\n".data =
      .ok [.file "src/a.cpp".data, .hit "1".data "x".data,
        .file "src/a.c".data, .hit "2".data "y".data] ∧
    parseCmdEntries "foo".data "foo 1 a.c x\nfoo 2 b.c y\nfoo 3 a.c z\n".data =
      .ok [.file "a.c".data, .hit "1".data "x".data, .file "b.c".data, .hit "2".data "y".data,
        .file "a.c".data, .hit "3".data "z".data] := by
  refine ⟨⟨outline none ls, parseCmdEntries_wireAll hls ht, outline_eq_flatMap ls none,
    headingsOf_outline ls, by rw [headingsOf_outline ls]⟩, by decide, by decide⟩

/-- Witness for C2: two records of one file, then a record of another file and
one more of the first. -/
theorem parseCmd_heading_iff_file_changes_witness :
    (∀ l ∈ [Line.plain "foo".data "1".data "a.c".data "x".data,
        Line.plain "foo".data "2".data "a.c".data "y".data,
        Line.plain "foo".data "3".data "b.c".data "z".data,
        Line.plain "foo".data "4".data "a.c".data "w".data],
      Line.WellFormed (strlen "foo".data) l) ∧
    (∀ c ∈ ['\n'], isSpace c = true) ∧
    ∃ es, parseCmdEntries "foo".data (wireAll
        [Line.plain "foo".data "1".data "a.c".data "x".data,
        Line.plain "foo".data "2".data "a.c".data "y".data,
        Line.plain "foo".data "3".data "b.c".data "z".data,
        Line.plain "foo".data "4".data "a.c".data "w".data] ['\n']) = .ok es ∧
      es = (List.range 4).flatMap (entriesAt none
        [Line.plain "foo".data "1".data "a.c".data "x".data,
        Line.plain "foo".data "2".data "a.c".data "y".data,
        Line.plain "foo".data "3".data "b.c".data "z".data,
        Line.plain "foo".data "4".data "a.c".data "w".data]) ∧
      headingsOf es = List.destutter (· ≠ ·) ["a.c".data, "a.c".data, "b.c".data, "a.c".data] ∧
      (headingsOf es).length =
        (List.destutter (· ≠ ·) ["a.c".data, "a.c".data, "b.c".data, "a.c".data]).length :=
  ⟨by decide, by decide,
    (parseCmd_heading_iff_file_changes "foo".data
      [Line.plain "foo".data "1".data "a.c".data "x".data,
        Line.plain "foo".data "2".data "a.c".data "y".data,
        Line.plain "foo".data "3".data "b.c".data "z".data,
        Line.plain "foo".data "4".data "a.c".data "w".data] ['\n']
      (by decide) (by decide)).1⟩

/-- C3: white space in front of a well-formed raw text and after its last
line terminator does not change what `parseCmd` appends: for every well-formed
text `t` and all strings `pre` and `post` of newlines, carriage returns, spaces
and tabs, parsing `pre ++ t ++ post` succeeds with the result of parsing `t`.
In particular a text with two blank lines and a space in front and a blank
line at the end parses like the text without them. -/
theorem parseCmd_blank_lines (search dst t pre post : List Char) (ht : WellFormed search t)
    (hpre : ∀ c ∈ pre, isSpace c = true) (hpost : ∀ c ∈ post, isSpace c = true) :
    parseCmd search dst (pre ++ t ++ post) = parseCmd search dst t ∧
    (∃ out, parseCmd search dst t = .ok out) ∧
    parseCmdEntries "foo".data "\n\n foo 1 x.c y\n\n".data =
      parseCmdEntries "foo".data "foo 1 x.c y\n".data ∧
    parseCmdEntries "foo".data "foo 1 x.c y\n".data =
      .ok [.file "x.c".data, .hit "1".data "y".data] := by
  obtain ⟨ls, trail, hls, htrail, rfl⟩ := ht
  have hpost₂ : ∀ c ∈ trail ++ post, isSpace c = true := by
    intro c hc
    rcases List.mem_append.1 hc with hc | hc
    · exact htrail c hc
    · exact hpost c hc
  have h₁ : parseCmdEntries search (pre ++ wireAll ls trail ++ post) = .ok (outline none ls) := by
    unfold parseCmdEntries
    rw [List.append_assoc, parseCmdFrom_skip hpre, wireAll_append]
    exact parseCmdFrom_wireAll ls _ none hls hpost₂
  have h₂ := parseCmdEntries_wireAll hls htrail
  refine ⟨?_, ⟨_, parseCmd_of_entries h₂ dst⟩, by decide, by decide⟩
  rw [parseCmd_of_entries h₁, parseCmd_of_entries h₂]

/-- Witness for C3: the example of the specification, with the UI buffer
holding a search header. -/
theorem parseCmd_blank_lines_witness :
    WellFormed "foo".data "foo 1 x.c y\n".data ∧
    (∀ c ∈ "\n\n ".data, isSpace c = true) ∧ (∀ c ∈ "\n".data, isSpace c = true) ∧
    parseCmd "foo".data "hdr".data ("\n\n ".data ++ "foo 1 x.c y\n".data ++ "\n".data) =
      parseCmd "foo".data "hdr".data "foo 1 x.c y\n".data :=
  have hwf : WellFormed "foo".data "foo 1 x.c y\n".data :=
    ⟨[Line.plain "foo".data "1".data "x.c".data "y".data], [], by decide, by decide, by decide⟩
  ⟨hwf, by decide, by decide,
    (parseCmd_blank_lines "foo".data "hdr".data "foo 1 x.c y\n".data "\n\n ".data "\n".data
      hwf (by decide) (by decide)).1⟩

/-- C7: the snippet of a well-formed record is the remainder of its physical
line.  With `l.sep₃ ++ l.snippet` the characters between the file-path token
and the line terminator, the match entry carries these characters from the
first one that is no space or tab on, unchanged up to the terminator: every
run of spaces and tabs inside the snippet and at its end is kept. -/
theorem parseCmd_snippet_is_line_remainder (search : List Char) (l : Line)
    (prev : Option (List Char)) (rest : List Char) (h : l.WellFormed (strlen search)) :
    parseCmdFrom search prev (l.wire ++ rest) =
      (parseCmdFrom search (some l.file) rest).prepend
        ((if prev = some l.file then [] else [Entry.file l.file]) ++
          [Entry.hit l.line ((l.sep₃ ++ l.snippet).dropWhile isBlank)]) ∧
    (l.sep₃ ++ l.snippet).dropWhile isBlank = l.snippet ∧
    (∀ c ∈ (l.sep₃ ++ l.snippet).dropWhile isBlank, c ≠ '\n' ∧ c ≠ '\r') := by
  have hs : (l.sep₃ ++ l.snippet).dropWhile isBlank = l.snippet := by
    have h₁ := skipBlank_append h.sep₃_blank l.snippet
    have h₂ : skipBlank l.snippet = l.snippet := by
      cases hsn : l.snippet with
      | nil => rfl
      | cons c cs =>
        have := h.snippet_head
        rw [hsn] at this
        exact skipBlank_cons (by simpa using this) cs
    rw [h₂] at h₁
    exact h₁
  refine ⟨?_, hs, ?_⟩
  · rw [hs]
    exact parseCmdFrom_wire h prev rest
  · rw [hs]
    intro c hc
    have := h.snippet_line c hc
    simp only [isEol, Bool.or_eq_false_iff, beq_eq_false_iff_ne] at this
    exact this

/-- Witness for C7: a record whose snippet has runs of spaces and tabs inside
and at its end, followed by another record. -/
theorem parseCmd_snippet_is_line_remainder_witness :
    Line.WellFormed (strlen "foo".data)
      ⟨[], "foo".data, " ".data, "7".data, "\t".data, "a.c".data, "  \t".data,
        "int  x =\t\t1;  ".data, "\r\n".data⟩ ∧
    Line.wire ⟨[], "foo".data, " ".data, "7".data, "\t".data, "a.c".data, "  \t".data,
        "int  x =\t\t1;  ".data, "\r\n".data⟩ ++ "foo 9 a.c y\n".data =
      "foo 7\ta.c  \tint  x =\t\t1;  \r\nfoo 9 a.c y\n".data ∧
    parseCmdFrom "foo".data none
        (Line.wire ⟨[], "foo".data, " ".data, "7".data, "\t".data, "a.c".data, "  \t".data,
          "int  x =\t\t1;  ".data, "\r\n".data⟩ ++ "foo 9 a.c y\n".data) =
      (parseCmdFrom "foo".data (some "a.c".data) "foo 9 a.c y\n".data).prepend
        ((if none = some "a.c".data then [] else [Entry.file "a.c".data]) ++
          [Entry.hit "7".data (("  \t".data ++ "int  x =\t\t1;  ".data).dropWhile isBlank)]) :=
  ⟨by decide, by decide,
    (parseCmd_snippet_is_line_remainder "foo".data
      ⟨[], "foo".data, " ".data, "7".data, "\t".data, "a.c".data, "  \t".data,
        "int  x =\t\t1;  ".data, "\r\n".data⟩ none "foo 9 a.c y\n".data (by decide)).1⟩

/-! ## File-list parsing -/

/-- C4: for every raw text, without a precondition, `parseFindFile` terminates
and appends exactly one file-only record for every physical line that has a
character other than white space, in input order, and nothing for the other
lines.  The text with the lines `a/b.c`, an empty line and `c/d.c` gives the
two records `a/b.c` and `c/d.c`. -/
theorem parseFindFile_one_record_per_line (dst src : List Char) :
    parseFindFileEntries src = .ok (fileRecords (cstr src)) ∧
    parseFindFile dst src = .ok (dst ++ render (fileRecords (cstr src))) ∧
    (fileRecords (cstr src)).length = ((physLines (cstr src)).filter nonBlank).length ∧
    (∀ e ∈ fileRecords (cstr src), e.isFile = true) ∧
    parseFindFileEntries "a/b.c\n\nc/d.c\n".data =
      .ok [.file "a/b.c".data, .file "c/d.c".data] ∧
    parseFindFileEntries " \t\n\r\n  \n".data = .ok [] := by
  have h := parseFindFileEntries_eq src.length src (Nat.le_refl _)
  refine ⟨h, parseFindFile_of_entries h dst, by simp [fileRecords], ?_, by decide, by decide⟩
  intro e he
  simp only [fileRecords, List.mem_map] at he
  obtain ⟨l, _, rfl⟩ := he
  rfl

/-- C5, as the code has it: the record of a non-blank physical line is the
line without the spaces and tabs at its start; the spaces and tabs at its end
stay in the record.  `before` is the text of the lines in front of the line,
`rest` what follows it: a line terminator, a NUL or the end of the buffer. -/
theorem parseFindFile_record_is_left_trimmed (before line rest : List Char)
    (hnul : ∀ c ∈ before, c ≠ '\x00') (hend : ∀ c ∈ before.getLast?, isEol c = true)
    (hline : ∀ c ∈ line, isEol c = false ∧ c ≠ '\x00') (hnb : nonBlank line = true)
    (hrest : ∀ c ∈ rest.head?, isEol c = true ∨ c = '\x00') :
    parseFindFileEntries (before ++ line ++ rest) =
      .ok (fileRecords before ++ Entry.file (trimLeft line) :: fileRecords (cstr rest)) ∧
    parseFindFileEntries rest = .ok (fileRecords (cstr rest)) ∧
    (∃ blanks, line = blanks ++ trimLeft line ∧ ∀ c ∈ blanks, isBlank c = true) := by
  refine ⟨?_, parseFindFileEntries_eq rest.length rest (Nat.le_refl _),
    ⟨line.takeWhile isBlank, (List.takeWhile_append_dropWhile isBlank line).symm,
      fun c hc => List.mem_takeWhile_imp hc⟩⟩
  rw [parseFindFileEntries_eq _ _ (Nat.le_refl _), List.append_assoc, cstr_append hnul,
    cstr_append fun c hc => (hline c hc).2, fileRecords_after_lines hend,
    fileRecords_first_line hline hnb hrest]

/-- Witness for C5: the line `  a/b.c  ` after a first line and in front of a
third one. -/
theorem parseFindFile_record_is_left_trimmed_witness :
    (∀ c ∈ "x.h\n".data, c ≠ '\x00') ∧ (∀ c ∈ "x.h\n".data.getLast?, isEol c = true) ∧
    (∀ c ∈ "  a/b.c  ".data, isEol c = false ∧ c ≠ '\x00') ∧
    nonBlank "  a/b.c  ".data = true ∧
    (∀ c ∈ "\nc/d.c".data.head?, isEol c = true ∨ c = '\x00') ∧
    parseFindFileEntries ("x.h\n".data ++ "  a/b.c  ".data ++ "\nc/d.c".data) =
      .ok (fileRecords "x.h\n".data ++
        Entry.file (trimLeft "  a/b.c  ".data) :: fileRecords (cstr "\nc/d.c".data)) ∧
    trimLeft "  a/b.c  ".data = "a/b.c  ".data :=
  ⟨by decide, by decide, by decide, by decide, by decide,
    (parseFindFile_record_is_left_trimmed "x.h\n".data "  a/b.c  ".data "\nc/d.c".data
      (by decide) (by decide) (by decide) (by decide) (by decide)).1, by decide⟩

/-- C5 as stated fails: the line `  a/b.c  ` gives a record that ends with two
spaces, not the trimmed line `a/b.c`. -/
theorem parseFindFile_keeps_trailing_blanks :
    parseFindFileEntries "  a/b.c  \n".data = .ok [Entry.file "a/b.c  ".data] ∧
    trim "  a/b.c  ".data = "a/b.c".data ∧
    parseFindFileEntries "  a/b.c  \n".data ≠ .ok [Entry.file (trim "  a/b.c  ".data)] := by
  decide

/-! ## Line terminators and malformed output -/

/-- C6: both parsers give the same output when every `\n` of the raw text is
replaced by `\r\n` or by `\r`: `parseCmd` for every well-formed text `t`,
`parseFindFile` for every text `u`; and no carriage return stands in a snippet
or a file path that they append. -/
theorem parsers_tolerate_crlf (search dst t u : List Char) (ht : WellFormed search t) :
    parseCmd search dst (replaceNewline ['\r', '\n'] t) = parseCmd search dst t ∧
    parseCmd search dst (replaceNewline ['\r'] t) = parseCmd search dst t ∧
    (∃ es, parseCmdEntries search t = .ok es ∧ ∀ e ∈ es, '\r' ∉ e.payload) ∧
    parseFindFile dst (replaceNewline ['\r', '\n'] u) = parseFindFile dst u ∧
    parseFindFile dst (replaceNewline ['\r'] u) = parseFindFile dst u ∧
    (∃ es, parseFindFileEntries u = .ok es ∧ ∀ e ∈ es, '\r' ∉ e.payload) := by
  have c₁ := @parseCmdEntries_replaceNewline ['\r', '\n'] (by decide) (by decide) search t ht
  have c₂ := @parseCmdEntries_replaceNewline ['\r'] (by decide) (by decide) search t ht
  have f₁ := @parseFindFileEntries_replaceNewline ['\r', '\n'] (by decide) (by decide)
    u.length u (Nat.le_refl _)
  have f₂ := @parseFindFileEntries_replaceNewline ['\r'] (by decide) (by decide)
    u.length u (Nat.le_refl _)
  refine ⟨by simp only [parseCmd, c₁], by simp only [parseCmd, c₂], ?_,
    by simp only [parseFindFile, f₁], by simp only [parseFindFile, f₂],
    ⟨_, parseFindFileEntries_eq u.length u (Nat.le_refl _), payload_fileRecords _⟩⟩
  obtain ⟨ls, trail, hls, htrail, rfl⟩ := ht
  exact ⟨_, parseCmdEntries_wireAll hls htrail, payload_outline hls⟩

/-- Witness for C6: two records of one file, and a file list with an empty
line. -/
theorem parsers_tolerate_crlf_witness :
    WellFormed "foo".data "foo 1 x.c y\nfoo 2 x.c z\n".data ∧
    replaceNewline ['\r', '\n'] "foo 1 x.c y\nfoo 2 x.c z\n".data =
      "foo 1 x.c y\r\nfoo 2 x.c z\r\n".data ∧
    parseCmd "foo".data "hdr".data
        (replaceNewline ['\r', '\n'] "foo 1 x.c y\nfoo 2 x.c z\n".data) =
      parseCmd "foo".data "hdr".data "foo 1 x.c y\nfoo 2 x.c z\n".data ∧
    parseFindFile "hdr".data (replaceNewline ['\r', '\n'] "a/b.c\n\nc/d.c\n".data) =
      parseFindFile "hdr".data "a/b.c\n\nc/d.c\n".data :=
  have hwf : WellFormed "foo".data "foo 1 x.c y\nfoo 2 x.c z\n".data :=
    ⟨[Line.plain "foo".data "1".data "x.c".data "y".data,
      Line.plain "foo".data "2".data "x.c".data "z".data], [], by decide, by decide, by decide⟩
  have h := parsers_tolerate_crlf "foo".data "hdr".data "foo 1 x.c y\nfoo 2 x.c z\n".data
    "a/b.c\n\nc/d.c\n".data hwf
  ⟨hwf, by decide, h.1, h.2.2.2.1⟩

/-- C8, as the code has it: `parseCmd` passes over exactly as many characters
as the search text has.  For a record line whose tag token has the length of
the search text, whatever its characters (a match of another case, say), the
line number, the file path and the snippet that are appended are those of the
record. -/
theorem parseCmd_skips_tag_of_search_length (search dst : List Char) (l : Line)
    (h : l.WellFormed (strlen search)) :
    parseCmdEntries search l.wire = .ok [.file l.file, .hit l.line l.snippet] ∧
    parseCmd search dst l.wire =
      .ok (dst ++ (['\n', '\t'] ++ l.file ++
        ("\n\t\tline ".data ++ l.line ++ [':', '\t'] ++ l.snippet))) := by
  have he : parseCmdEntries search l.wire = .ok [.file l.file, .hit l.line l.snippet] := by
    have := @parseCmdEntries_wireAll search [l] [] (by simpa using h) (by simp)
    simpa [wireAll, outline] using this
  refine ⟨he, ?_⟩
  rw [parseCmd_of_entries he]
  simp [render, Entry.text]

/-- Witness for C8: a match `FOO` of a search for `foo` that ignores case. -/
theorem parseCmd_skips_tag_of_search_length_witness :
    Line.WellFormed (strlen "foo".data)
      (Line.plain "FOO".data "10".data "a.c".data "int FOO;".data) ∧
    Line.wire (Line.plain "FOO".data "10".data "a.c".data "int FOO;".data) =
      "FOO 10 a.c int FOO;\n".data ∧
    parseCmdEntries "foo".data
        (Line.wire (Line.plain "FOO".data "10".data "a.c".data "int FOO;".data)) =
      .ok [.file "a.c".data, .hit "10".data "int FOO;".data] :=
  ⟨by decide, by decide,
    (parseCmd_skips_tag_of_search_length "foo".data []
      (Line.plain "FOO".data "10".data "a.c".data "int FOO;".data) (by decide)).1⟩

/-- C8 as stated fails: the first token of a record is not passed over as a
whole.  For the search text `foo.*` and the record of the tag `foobar` at line
10 of `a.c`, `parseCmd` takes `r` for the line number, `10` for the file path
and the rest of the line, file path included, for the snippet; the same record
parses as it should for the search text `foobar`; and a first token shorter
than the search text makes the scan leave the buffer. -/
theorem parseCmd_skips_search_length :
    parseCmdEntries "foo.*".data "foobar 10 a.c int foobar;\n".data =
      .ok [.file "10".data, .hit "r".data "a.c int foobar;".data] ∧
    parseCmdEntries "foo.*".data "foobar 10 a.c int foobar;\n".data ≠
      .ok [.file "a.c".data, .hit "10".data "int foobar;".data] ∧
    parseCmdEntries "foobar".data "foobar 10 a.c int foobar;\n".data =
      .ok [.file "a.c".data, .hit "10".data "int foobar;".data] ∧
    parseCmdEntries "foo.*bar".data "foobar 1 a.c x\n".data = .outOfBounds := by
  decide

/-- C9, the code at the failing inputs: on a line that lacks a field, on a
text shorter than the tag and on a last line without a line terminator
`parseCmd` reads a position after the terminating NUL; a line without a
snippet in front of a good line makes it take the next line into the file
path, so that entries are appended for the malformed line and none for the
line after it. -/
theorem parseCmd_reads_after_nul :
    parseCmdEntries "foo".data "foo".data = .outOfBounds ∧
    parseCmdEntries "foo".data "foo 10 a.c\n".data = .outOfBounds ∧
    parseCmdEntries "foo".data "fo".data = .outOfBounds ∧
    parseCmdEntries "foo".data "foo 10 a.c x".data = .outOfBounds ∧
    parseCmd "foo".data "hdr".data "foo".data = .outOfBounds ∧
    parseCmdEntries "foo".data "foo 10 a.c\nfoo 11 b.c y\n".data =
      .ok [.file "a.c\nfoo".data, .hit "10".data "11 b.c y".data] ∧
    parseFindFileEntries "foo".data = .ok [.file "foo".data] := by
  decide

/-! ## The list of pending updates -/

theorem sheduleForUpdate_eq {CPath : Type} [DecidableEq CPath] (file : CPath)
    (l : List CPath) : sheduleForUpdate file l = if file ∈ l then l else l ++ [file] := by
  unfold sheduleForUpdate
  by_cases h : file ∈ l
  · have : l.reverse.any (fun updFile => updFile == file) = true := by
      simp only [List.any_eq_true, List.mem_reverse, beq_iff_eq]
      exact ⟨file, h, rfl⟩
    rw [if_pos this, if_pos h]
  · have : ¬ l.reverse.any (fun updFile => updFile == file) = true := by
      simp only [List.any_eq_true, List.mem_reverse, beq_iff_eq, not_exists, not_and]
      intro x hx hxe
      exact h (hxe ▸ hx)
    rw [if_neg this, if_neg h]

theorem mem_sheduleForUpdate {CPath : Type} [DecidableEq CPath] (file : CPath)
    (l : List CPath) : file ∈ sheduleForUpdate file l := by
  rw [sheduleForUpdate_eq]
  by_cases h : file ∈ l
  · rw [if_pos h]; exact h
  · rw [if_neg h]; simp

theorem sheduleForUpdate_nodup {CPath : Type} [DecidableEq CPath] (file : CPath)
    {l : List CPath} (h : l.Nodup) : (sheduleForUpdate file l).Nodup := by
  rw [sheduleForUpdate_eq]
  by_cases hm : file ∈ l
  · rw [if_pos hm]; exact h
  · rw [if_neg hm, ← List.concat_eq_append]
    exact List.Nodup.concat hm h

/-- No state of the pending list holds a path twice. -/
theorem Pending.nodup {CPath : Type} [DecidableEq CPath] {l : List CPath} (h : Pending l) :
    l.Nodup := by
  induction h with
  | empty => exact List.nodup_nil
  | shedule file _ ih => exact sheduleForUpdate_nodup file ih
  | erase i _ ih => exact List.Nodup.eraseIdx i ih

/-- C10: `sheduleForUpdate` is idempotent on the pending list: calling it
twice with a path leaves the list that one call leaves, and that list holds
exactly one entry equal to the path. -/
theorem sheduleForUpdate_idempotent {CPath : Type} [DecidableEq CPath] (p : CPath)
    (l : List CPath) (hl : Pending l) :
    sheduleForUpdate p (sheduleForUpdate p l) = sheduleForUpdate p l ∧
    (sheduleForUpdate p l).count p = 1 := by
  constructor
  · rw [sheduleForUpdate_eq p (sheduleForUpdate p l), if_pos (mem_sheduleForUpdate p l)]
  · exact List.count_eq_one_of_mem (sheduleForUpdate_nodup p hl.nodup)
      (mem_sheduleForUpdate p l)

/-- Witness for C10: a second deferral of `src/a.c` while `src/b.c` and
`src/a.c` are pending. -/
theorem sheduleForUpdate_idempotent_witness :
    Pending (sheduleForUpdate "src/a.c".data (sheduleForUpdate "src/b.c".data [])) ∧
    sheduleForUpdate "src/a.c".data (sheduleForUpdate "src/a.c".data
        (sheduleForUpdate "src/a.c".data (sheduleForUpdate "src/b.c".data []))) =
      sheduleForUpdate "src/a.c".data
        (sheduleForUpdate "src/a.c".data (sheduleForUpdate "src/b.c".data [])) ∧
    (sheduleForUpdate "src/a.c".data
      (sheduleForUpdate "src/a.c".data (sheduleForUpdate "src/b.c".data []))).count
        "src/a.c".data = 1 :=
  have hp : Pending (sheduleForUpdate "src/a.c".data (sheduleForUpdate "src/b.c".data [])) :=
    Pending.shedule _ (Pending.shedule _ Pending.empty)
  ⟨hp, sheduleForUpdate_idempotent "src/a.c".data _ hp⟩

/-! ## The update scheduler -/

/-- The four ways through `UpdateSingleFile`, with `f` the file it works on
and `w₁`, `w₂` the states of the collaborators after `GetDB` and `Cmd::Run`. -/
theorem UpdateSingleFile_cases {W CPath : Type} [DecidableEq CPath] (env : World W CPath)
    (f : CPath) (l : List CPath) (w : W) :
    UpdateSingleFile env (some f) l w = ⟨false, l, (env.getDB w f).2, .noDatabase, []⟩ ∨
    UpdateSingleFile env (some f) l w =
      ⟨true, sheduleForUpdate f l, (env.getDB w f).2, .busy, [.defer f]⟩ ∨
    UpdateSingleFile env (some f) l w =
      ⟨false, l, (env.cmdRun (env.getDB w f).2 f).2, .rejected, []⟩ ∨
    UpdateSingleFile env (some f) l w =
      ⟨true, l, (env.cmdRun (env.getDB w f).2 f).2, .submitted, []⟩ := by
  unfold UpdateSingleFile
  simp only
  split
  · exact Or.inl rfl
  · split
    · exact Or.inr (Or.inl rfl)
    · split
      · exact Or.inr (Or.inr (Or.inl rfl))
      · exact Or.inr (Or.inr (Or.inr rfl))

/-- An attempt that makes `UpdateSingleFile` return false leaves the pending
list as it was and calls `sheduleForUpdate` for nothing. -/
theorem UpdateSingleFile_false {W CPath : Type} [DecidableEq CPath] (env : World W CPath)
    (f : CPath) (l : List CPath) (w : W) (h : (UpdateSingleFile env (some f) l w).ret = false) :
    (UpdateSingleFile env (some f) l w).UpdateList = l ∧
    (UpdateSingleFile env (some f) l w).log = [] ∧
    ((UpdateSingleFile env (some f) l w).attempt = .noDatabase ∨
      (UpdateSingleFile env (some f) l w).attempt = .rejected) := by
  rcases UpdateSingleFile_cases env f l w with e | e | e | e <;> rw [e] at h ⊢ <;> simp at h ⊢

/-- An attempt that makes `UpdateSingleFile` return true either deferred the
file again or submitted the command. -/
theorem UpdateSingleFile_true {W CPath : Type} [DecidableEq CPath] (env : World W CPath)
    (f : CPath) (l : List CPath) (w : W) (h : (UpdateSingleFile env (some f) l w).ret = true) :
    ((UpdateSingleFile env (some f) l w).UpdateList = sheduleForUpdate f l ∧
      (UpdateSingleFile env (some f) l w).log = [.defer f] ∧
      (UpdateSingleFile env (some f) l w).attempt = .busy) ∨
    ((UpdateSingleFile env (some f) l w).UpdateList = l ∧
      (UpdateSingleFile env (some f) l w).log = [] ∧
      (UpdateSingleFile env (some f) l w).attempt = .submitted) := by
  rcases UpdateSingleFile_cases env f l w with e | e | e | e <;> rw [e] at h ⊢ <;> simp at h ⊢

theorem firstContained_none {CPath : Type} (c : CPath → Bool) (l : List CPath) :
    firstContained c l = none ↔ ∀ x ∈ l, c x = false := by
  induction l with
  | nil => simp [firstContained]
  | cons x xs ih =>
    unfold firstContained
    cases hx : c x with
    | true => simp [hx]
    | false =>
      simp only [Bool.false_eq_true, if_false, List.mem_cons, forall_eq_or_imp, hx, true_and]
      rw [← ih]
      cases firstContained c xs <;> simp

theorem firstContained_some {CPath : Type} (c : CPath → Bool) (l : List CPath) :
    ∀ f e, firstContained c l = some (f, e) →
      ∃ pre post, l = pre ++ f :: post ∧ (∀ x ∈ pre, c x = false) ∧ c f = true ∧
        e = pre ++ post := by
  induction l with
  | nil => intro f e h; simp [firstContained] at h
  | cons x xs ih =>
    intro f e h
    unfold firstContained at h
    cases hx : c x with
    | true =>
      simp only [hx, if_true, Option.some.injEq, Prod.mk.injEq] at h
      obtain ⟨rfl, rfl⟩ := h
      exact ⟨[], xs, rfl, by simp, hx, rfl⟩
    | false =>
      simp only [hx, Bool.false_eq_true, if_false] at h
      cases hr : firstContained c xs with
      | none => rw [hr] at h; cases h
      | some fe =>
        obtain ⟨f', e'⟩ := fe
        rw [hr] at h
        simp only [Option.some.injEq, Prod.mk.injEq] at h
        obtain ⟨rfl, rfl⟩ := h
        obtain ⟨pre, post, rfl, hpre, hf, rfl⟩ := ih _ _ hr
        refine ⟨x :: pre, post, rfl, ?_, hf, rfl⟩
        intro y hy
        rcases List.mem_cons.1 hy with rfl | hy
        · exact hx
        · exact hpre y hy

theorem firstContained_append {CPath : Type} (c : CPath → Bool) {pre : List CPath}
    (hpre : ∀ x ∈ pre, c x = false) {f : CPath} (hf : c f = true) (post : List CPath) :
    firstContained c (pre ++ f :: post) = some (f, pre ++ post) := by
  induction pre with
  | nil => simp [firstContained, hf]
  | cons x xs ih =>
    have hx : c x = false := hpre x (List.mem_cons_self _ _)
    have := ih fun y hy => hpre y (List.mem_cons_of_mem _ hy)
    simp [firstContained, hx, this]

theorem firstContained_length {CPath : Type} (c : CPath → Bool) {l e : List CPath} {f : CPath}
    (h : firstContained c l = some (f, e)) : e.length + 1 = l.length := by
  obtain ⟨pre, post, rfl, _, _, rfl⟩ := firstContained_some c l f e h
  simp
  omega

theorem runSheduledLoop_fuel {W CPath : Type} [DecidableEq CPath] (env : World W CPath)
    (dbPath : CPath) :
    ∀ (m n : Nat) (l : List CPath) (w : W), l.length < m → l.length < n →
      runSheduledLoop env m dbPath l w = runSheduledLoop env n dbPath l w := by
  intro m
  induction m with
  | zero => intro n l w hm; omega
  | succ m ih =>
    intro n l w hm hn
    cases n with
    | zero => omega
    | succ n =>
      unfold runSheduledLoop
      split
      · rfl
      · cases hfc : firstContained (fun updFile => env.isContainedIn updFile dbPath) l with
        | none => rfl
        | some fe =>
          obtain ⟨f, e⟩ := fe
          have hlen := firstContained_length _ hfc
          simp only
          cases hret : (UpdateSingleFile env (some f) e w).ret with
          | true => rfl
          | false =>
            have hl := (UpdateSingleFile_false env f e w hret).1
            simp only [Bool.not_false, if_true]
            rw [ih n _ _ (by rw [hl]; omega) (by rw [hl]; omega)]

/-- `runSheduledUpdate`, unrolled once, free of the bound on the recursion. -/
theorem runSheduledUpdate_unfold {W CPath : Type} [DecidableEq CPath] (env : World W CPath)
    (dbPath : CPath) (l : List CPath) (w : W) :
    runSheduledUpdate env dbPath l w =
      match firstContained (fun updFile => env.isContainedIn updFile dbPath) l with
      | none => some ⟨false, l, w, []⟩
      | some (file, erased) =>
        if (UpdateSingleFile env (some file) erased w).ret then
          some ⟨true, (UpdateSingleFile env (some file) erased w).UpdateList,
            (UpdateSingleFile env (some file) erased w).world,
            Event.replay file (UpdateSingleFile env (some file) erased w).attempt ::
              (UpdateSingleFile env (some file) erased w).log⟩
        else
          (runSheduledUpdate env dbPath erased (UpdateSingleFile env (some file) erased w).world).map
            (Replay.after [Event.replay file (UpdateSingleFile env (some file) erased w).attempt]) := by
  unfold runSheduledUpdate
  rw [runSheduledLoop]
  cases hfc : firstContained (fun updFile => env.isContainedIn updFile dbPath) l with
  | none =>
    simp only
    split <;> rfl
  | some fe =>
    obtain ⟨f, e⟩ := fe
    have hlen := firstContained_length _ hfc
    have hne : l.isEmpty = false := by
      cases l with
      | nil => simp at hlen
      | cons x xs => rfl
    simp only [hne, Bool.false_eq_true, if_false]
    cases hret : (UpdateSingleFile env (some f) e w).ret with
    | true => simp
    | false =>
      obtain ⟨hl, hlog, _⟩ := UpdateSingleFile_false env f e w hret
      simp only [Bool.not_false, if_true, Bool.false_eq_true, if_false, hl, hlog]
      rw [runSheduledLoop_fuel env dbPath l.length (e.length + 1) e _ (by omega) (by omega)]

/-- Induction over the recursion of `runSheduledUpdate`: the call returns, and
a property that holds when no entry is contained, when the first contained
entry is deferred again or submitted, and that is kept by a failed attempt in
front of the rest of the call, holds of the result. -/
theorem runSheduledUpdate_induction {W CPath : Type} [DecidableEq CPath] (env : World W CPath)
    (dbPath : CPath) (P : List CPath → Replay W CPath → Prop)
    (hnone : ∀ (l : List CPath) (w : W), (∀ x ∈ l, env.isContainedIn x dbPath = false) →
      P l ⟨false, l, w, []⟩)
    (hbusy : ∀ (pre post : List CPath) (f : CPath) (w : W),
      (∀ x ∈ pre, env.isContainedIn x dbPath = false) → env.isContainedIn f dbPath = true →
      P (pre ++ f :: post)
        ⟨true, sheduleForUpdate f (pre ++ post), w, [.replay f .busy, .defer f]⟩)
    (hsubmitted : ∀ (pre post : List CPath) (f : CPath) (w : W),
      (∀ x ∈ pre, env.isContainedIn x dbPath = false) → env.isContainedIn f dbPath = true →
      P (pre ++ f :: post) ⟨true, pre ++ post, w, [.replay f .submitted]⟩)
    (hfailed : ∀ (pre post : List CPath) (f : CPath) (a : Attempt) (r : Replay W CPath),
      (∀ x ∈ pre, env.isContainedIn x dbPath = false) → env.isContainedIn f dbPath = true →
      (a = .noDatabase ∨ a = .rejected) → P (pre ++ post) r →
      P (pre ++ f :: post) (r.after [.replay f a])) :
    ∀ (n : Nat) (l : List CPath) (w : W), l.length ≤ n →
      ∃ r, runSheduledUpdate env dbPath l w = some r ∧ P l r := by
  intro n
  induction n with
  | zero =>
    intro l w hl
    have : l = [] := List.length_eq_zero.1 (by omega)
    subst this
    exact ⟨_, by rw [runSheduledUpdate_unfold]; rfl, hnone [] w (by simp)⟩
  | succ n ih =>
    intro l w hl
    rw [runSheduledUpdate_unfold]
    cases hfc : firstContained (fun updFile => env.isContainedIn updFile dbPath) l with
    | none => exact ⟨_, rfl, hnone l w ((firstContained_none _ l).1 hfc)⟩
    | some fe =>
      obtain ⟨f, e⟩ := fe
      obtain ⟨pre, post, rfl, hpre, hf, rfl⟩ := firstContained_some _ l f e hfc
      simp only
      cases hret : (UpdateSingleFile env (some f) (pre ++ post) w).ret with
      | true =>
        simp only [if_true]
        rcases UpdateSingleFile_true env f (pre ++ post) w hret with ⟨h₁, h₂, h₃⟩ | ⟨h₁, h₂, h₃⟩
        · exact ⟨_, rfl, by rw [h₁, h₂, h₃]; exact hbusy pre post f _ hpre hf⟩
        · exact ⟨_, rfl, by rw [h₁, h₂, h₃]; exact hsubmitted pre post f _ hpre hf⟩
      | false =>
        simp only [Bool.false_eq_true, if_false]
        obtain ⟨_, _, ha⟩ := UpdateSingleFile_false env f (pre ++ post) w hret
        obtain ⟨r, hr, hP⟩ := ih (pre ++ post) (UpdateSingleFile env (some f) (pre ++ post) w).world
          (by simp at hl ⊢; omega)
        exact ⟨_, by rw [hr]; rfl, hfailed pre post f _ r hpre hf ha hP⟩

theorem UpdateSingleFile_none {W CPath : Type} [DecidableEq CPath] (env : World W CPath)
    (l : List CPath) (w : W) :
    UpdateSingleFile env none l w = UpdateSingleFile env (some (env.filePath w)) l w := rfl

theorem UpdateSingleFile_nodup {W CPath : Type} [DecidableEq CPath] (env : World W CPath)
    (file : Option CPath) {l : List CPath} (w : W) (h : l.Nodup) :
    (UpdateSingleFile env file l w).UpdateList.Nodup := by
  cases file with
  | none =>
    rw [UpdateSingleFile_none]
    rcases UpdateSingleFile_cases env (env.filePath w) l w with e | e | e | e <;> rw [e]
    · exact h
    · exact sheduleForUpdate_nodup _ h
    · exact h
    · exact h
  | some f =>
    rcases UpdateSingleFile_cases env f l w with e | e | e | e <;> rw [e]
    · exact h
    · exact sheduleForUpdate_nodup _ h
    · exact h
    · exact h

theorem nodup_erase_middle {CPath : Type} {pre post : List CPath} {f : CPath}
    (h : (pre ++ f :: post).Nodup) : (pre ++ post).Nodup ∧ f ∉ pre ++ post := by
  have := List.nodup_middle.1 h
  exact ⟨(List.nodup_cons.1 this).2, (List.nodup_cons.1 this).1⟩

/-- `runSheduledUpdate` returns, and it keeps the pending list free of
duplicates. -/
theorem runSheduledUpdate_nodup {W CPath : Type} [DecidableEq CPath] (env : World W CPath)
    (dbPath : CPath) (l : List CPath) (w : W) :
    ∃ r, runSheduledUpdate env dbPath l w = some r ∧ (l.Nodup → r.UpdateList.Nodup) := by
  refine runSheduledUpdate_induction env dbPath (fun l r => l.Nodup → r.UpdateList.Nodup)
    ?_ ?_ ?_ ?_ l.length l w (Nat.le_refl _)
  · intro l w _ h
    exact h
  · intro pre post f w _ _ h
    exact sheduleForUpdate_nodup f (nodup_erase_middle h).1
  · intro pre post f w _ _ h
    exact (nodup_erase_middle h).1
  · intro pre post f a r _ _ _ ih h
    exact ih (nodup_erase_middle h).1

theorem runCalls_shedule {W CPath : Type} [DecidableEq CPath] (env : World W CPath)
    (f : CPath) (calls : List (Call W CPath)) (l : List CPath) (w : W) :
    runCalls env (.shedule f :: calls) l w =
      (runCalls env calls (sheduleForUpdate f l) w).map (Replay.after [Event.defer f]) := rfl

theorem runCalls_update {W CPath : Type} [DecidableEq CPath] (env : World W CPath)
    (f : CPath) (calls : List (Call W CPath)) (l : List CPath) (w : W) :
    runCalls env (.update (some f) :: calls) l w =
      (runCalls env calls (UpdateSingleFile env (some f) l w).UpdateList
        (UpdateSingleFile env (some f) l w).world).map
        (Replay.after (Event.update f (UpdateSingleFile env (some f) l w).attempt ::
          (UpdateSingleFile env (some f) l w).log)) := rfl

theorem runCalls_update_none {W CPath : Type} [DecidableEq CPath] (env : World W CPath)
    (calls : List (Call W CPath)) (l : List CPath) (w : W) :
    runCalls env (.update none :: calls) l w =
      runCalls env (.update (some (env.filePath w)) :: calls) l w := rfl

theorem runCalls_replay {W CPath : Type} [DecidableEq CPath] (env : World W CPath)
    (d : CPath) (calls : List (Call W CPath)) (l : List CPath) (w : W) {r₁ : Replay W CPath}
    (h : runSheduledUpdate env d l w = some r₁) :
    runCalls env (.replay d :: calls) l w =
      (runCalls env calls r₁.UpdateList r₁.world).map (Replay.after r₁.log) := by
  rw [runCalls, h]

theorem runCalls_other {W CPath : Type} [DecidableEq CPath] (env : World W CPath)
    (g : W → W) (calls : List (Call W CPath)) (l : List CPath) (w : W) :
    runCalls env (.other g :: calls) l w = runCalls env calls l (g w) := rfl

/-- Every sequence of calls returns and keeps the pending list free of
duplicates. -/
theorem runCalls_nodup {W CPath : Type} [DecidableEq CPath] (env : World W CPath) :
    ∀ (calls : List (Call W CPath)) (l : List CPath) (w : W), l.Nodup →
      ∃ r, runCalls env calls l w = some r ∧ r.UpdateList.Nodup := by
  intro calls
  induction calls with
  | nil => intro l w h; exact ⟨_, rfl, h⟩
  | cons c calls ih =>
    intro l w h
    cases c with
    | shedule f =>
      obtain ⟨r, hr, hn⟩ := ih (sheduleForUpdate f l) w (sheduleForUpdate_nodup f h)
      exact ⟨r.after _, by rw [runCalls_shedule, hr]; rfl, hn⟩
    | update file =>
      cases file with
      | none =>
        obtain ⟨r, hr, hn⟩ := ih _ (UpdateSingleFile env (some (env.filePath w)) l w).world
          (UpdateSingleFile_nodup env (some (env.filePath w)) w h)
        exact ⟨r.after _, by rw [runCalls_update_none, runCalls_update, hr]; rfl, hn⟩
      | some f =>
        obtain ⟨r, hr, hn⟩ := ih _ (UpdateSingleFile env (some f) l w).world
          (UpdateSingleFile_nodup env (some f) w h)
        exact ⟨r.after _, by rw [runCalls_update, hr]; rfl, hn⟩
    | replay d =>
      obtain ⟨r₁, hr₁, hn₁⟩ := runSheduledUpdate_nodup env d l w
      obtain ⟨r, hr, hn⟩ := ih r₁.UpdateList r₁.world (hn₁ h)
      exact ⟨r.after _, by rw [runCalls_replay env d calls l w hr₁, hr]; rfl, hn⟩
    | other g =>
      obtain ⟨r, hr, hn⟩ := ih l (g w) h
      exact ⟨r, by rw [runCalls_other, hr], hn⟩

/-- C11: the pending list never holds a path twice.  The empty list holds
none twice, and `sheduleForUpdate`, `UpdateSingleFile` and `runSheduledUpdate`
with its recursive retries, each of which returns, leave a list without
duplicates when they start from one; so does every sequence of such calls
from the empty list. -/
theorem updateList_never_has_duplicates {W CPath : Type} [DecidableEq CPath]
    (env : World W CPath) (dbPath f : CPath) (file : Option CPath) (l : List CPath) (w : W)
    (calls : List (Call W CPath)) (h : l.Nodup) :
    ([] : List CPath).Nodup ∧
    (sheduleForUpdate f l).Nodup ∧
    (UpdateSingleFile env file l w).UpdateList.Nodup ∧
    (∃ r, runSheduledUpdate env dbPath l w = some r ∧ r.UpdateList.Nodup) ∧
    (∃ r, runCalls env calls [] w = some r ∧ r.UpdateList.Nodup) := by
  refine ⟨List.nodup_nil, sheduleForUpdate_nodup f h, UpdateSingleFile_nodup env file w h, ?_,
    runCalls_nodup env calls [] w List.nodup_nil⟩
  obtain ⟨r, hr, hn⟩ := runSheduledUpdate_nodup env dbPath l w
  exact ⟨r, hr, hn h⟩

/-- Witness for C11: two files of the project `/p` and one of another project
are pending, the database of `/p` gives no handle. -/
theorem updateList_never_has_duplicates_witness :
    ["/p/a.c".data, "/q/x.c".data, "/p/b.c".data].Nodup ∧
    (sheduleForUpdate "/p/b.c".data ["/p/a.c".data, "/q/x.c".data, "/p/b.c".data]).Nodup ∧
    (∃ r, runSheduledUpdate (World.rooted false false false) "/p/".data
        ["/p/a.c".data, "/q/x.c".data, "/p/b.c".data] () = some r ∧ r.UpdateList.Nodup) ∧
    (runSheduledUpdate (World.rooted false false false) "/p/".data
        ["/p/a.c".data, "/q/x.c".data, "/p/b.c".data] ()).map (fun r => r.UpdateList) =
      some ["/q/x.c".data] :=
  have h := updateList_never_has_duplicates (World.rooted false false false) "/p/".data
    "/p/b.c".data none ["/p/a.c".data, "/q/x.c".data, "/p/b.c".data] () [] (by decide)
  ⟨by decide, h.2.1, h.2.2.2.1, by decide⟩

theorem filter_sheduleForUpdate {CPath : Type} [DecidableEq CPath] (q : CPath → Bool)
    {f : CPath} (hf : q f = false) (l : List CPath) :
    (sheduleForUpdate f l).filter q = l.filter q := by
  rw [sheduleForUpdate_eq]
  split
  · rfl
  · simp [List.filter_append, hf]

theorem filter_erase_middle {CPath : Type} (q : CPath → Bool) {f : CPath} (hf : q f = false)
    (pre post : List CPath) : (pre ++ f :: post).filter q = (pre ++ post).filter q := by
  simp [List.filter_append, List.filter_cons, hf]

/-- `runSheduledUpdate` returns and leaves the entries that are not contained
in the root where they are. -/
theorem runSheduledUpdate_keeps_others {W CPath : Type} [DecidableEq CPath]
    (env : World W CPath) (dbPath : CPath) (l : List CPath) (w : W) :
    ∃ r, runSheduledUpdate env dbPath l w = some r ∧
      r.UpdateList.filter (fun x => !env.isContainedIn x dbPath) =
        l.filter (fun x => !env.isContainedIn x dbPath) := by
  refine runSheduledUpdate_induction env dbPath
    (fun l r => r.UpdateList.filter (fun x => !env.isContainedIn x dbPath) =
      l.filter (fun x => !env.isContainedIn x dbPath)) ?_ ?_ ?_ ?_ l.length l w (Nat.le_refl _)
  · intro l w _
    rfl
  · intro pre post f w _ hf
    simp only
    rw [filter_sheduleForUpdate _ (by simp [hf]), filter_erase_middle _ (by simp [hf])]
  · intro pre post f w _ hf
    simp only
    rw [filter_erase_middle _ (by simp [hf])]
  · intro pre post f a r _ hf _ ih
    simp only [Replay.after]
    rw [ih, filter_erase_middle _ (by simp [hf])]

/-- C12: `runSheduledUpdate(dbPath)` works on the first entry of the list that
is contained in `dbPath`.  When no entry is contained (the empty list
included) it returns false, attempts nothing and leaves the list as it is.
Otherwise, with `p` the first contained entry, the update attempt for `p` is
the first thing it does, on the list with exactly `p` erased; it returns true
with the outcome of that attempt, or goes on with the list without `p` when
the attempt failed.  The entries that are not contained in `dbPath` are the
same, in the same order, after the call. -/
theorem runSheduledUpdate_first_contained {W CPath : Type} [DecidableEq CPath]
    (env : World W CPath) (dbPath : CPath) (l : List CPath) (w : W) :
    ((∀ x ∈ l, env.isContainedIn x dbPath = false) →
      runSheduledUpdate env dbPath l w = some ⟨false, l, w, []⟩) ∧
    (∀ pre p post, l = pre ++ p :: post → (∀ x ∈ pre, env.isContainedIn x dbPath = false) →
      env.isContainedIn p dbPath = true →
      ∃ r, runSheduledUpdate env dbPath l w = some r ∧
        r.log.head? = some (.replay p (UpdateSingleFile env (some p) (pre ++ post) w).attempt) ∧
        ((UpdateSingleFile env (some p) (pre ++ post) w).ret = true →
          r = ⟨true, (UpdateSingleFile env (some p) (pre ++ post) w).UpdateList,
            (UpdateSingleFile env (some p) (pre ++ post) w).world,
            .replay p (UpdateSingleFile env (some p) (pre ++ post) w).attempt ::
              (UpdateSingleFile env (some p) (pre ++ post) w).log⟩) ∧
        ((UpdateSingleFile env (some p) (pre ++ post) w).ret = false →
          ∃ r₁, runSheduledUpdate env dbPath (pre ++ post)
              (UpdateSingleFile env (some p) (pre ++ post) w).world = some r₁ ∧
            r = r₁.after [.replay p (UpdateSingleFile env (some p) (pre ++ post) w).attempt])) ∧
    (∃ r, runSheduledUpdate env dbPath l w = some r ∧
      r.UpdateList.filter (fun x => !env.isContainedIn x dbPath) =
        l.filter (fun x => !env.isContainedIn x dbPath)) := by
  refine ⟨?_, ?_, runSheduledUpdate_keeps_others env dbPath l w⟩
  · intro h
    rw [runSheduledUpdate_unfold, (firstContained_none _ l).2 h]
  · rintro pre p post rfl hpre hp
    rw [runSheduledUpdate_unfold, firstContained_append _ hpre hp]
    simp only
    cases hret : (UpdateSingleFile env (some p) (pre ++ post) w).ret with
    | true => exact ⟨_, rfl, rfl, fun _ => rfl, fun h => by cases h⟩
    | false =>
      obtain ⟨r₁, hr₁, _⟩ := runSheduledUpdate_nodup env dbPath (pre ++ post)
        (UpdateSingleFile env (some p) (pre ++ post) w).world
      refine ⟨r₁.after [.replay p (UpdateSingleFile env (some p) (pre ++ post) w).attempt],
        by simp [hr₁], rfl, ?_, fun _ => ⟨r₁, hr₁, rfl⟩⟩
      intro h
      cases h

/-- Witness for C12: a file of another project is pending in front of two
files of the project `/p`, whose database gives no handle. -/
theorem runSheduledUpdate_first_contained_witness :
    (∀ x ∈ ["/q/x.c".data], (World.rooted false false false).isContainedIn x "/p/".data = false) ∧
    (World.rooted false false false).isContainedIn "/p/a.c".data "/p/".data = true ∧
    (∃ r, runSheduledUpdate (World.rooted false false false) "/p/".data
        ["/q/x.c".data, "/p/a.c".data, "/p/b.c".data] () = some r ∧
      r.log.head? = some (.replay "/p/a.c".data
        (UpdateSingleFile (World.rooted false false false) (some "/p/a.c".data)
          (["/q/x.c".data] ++ ["/p/b.c".data]) ()).attempt)) ∧
    (runSheduledUpdate (World.rooted false false false) "/p/".data
        ["/q/x.c".data, "/p/a.c".data, "/p/b.c".data] ()).map
        (fun r => (r.ret, r.UpdateList, r.log)) =
      some (false, ["/q/x.c".data],
        [.replay "/p/a.c".data .noDatabase, .replay "/p/b.c".data .noDatabase]) ∧
    (runSheduledUpdate (World.rooted false false false) "/p/".data ["/q/x.c".data] ()).map
        (fun r => (r.ret, r.UpdateList, r.log)) = some (false, ["/q/x.c".data], []) :=
  have h := (runSheduledUpdate_first_contained (World.rooted false false false) "/p/".data
    ["/q/x.c".data, "/p/a.c".data, "/p/b.c".data] ()).2.1 ["/q/x.c".data] "/p/a.c".data
    ["/p/b.c".data] rfl (by decide) (by decide)
  ⟨by decide, by decide, h.imp fun _ hr => ⟨hr.1, hr.2.1⟩, by decide, by decide⟩

/-- C13, as the code has it: an update attempt of `runSheduledUpdate` that
finds the database but not the exclusive handle puts the path back: the call
returns, and when its log holds such an attempt for `p`, `sheduleForUpdate(p)`
was called, `p` is in the pending list after the call and the call returned
true. -/
theorem runSheduledUpdate_busy_defers_again {W CPath : Type} [DecidableEq CPath]
    (env : World W CPath) (dbPath p : CPath) (l : List CPath) (w : W) :
    ∃ r, runSheduledUpdate env dbPath l w = some r ∧
      (Event.replay p .busy ∈ r.log →
        p ∈ r.UpdateList ∧ r.ret = true ∧ Event.defer p ∈ r.log) := by
  refine runSheduledUpdate_induction env dbPath
    (fun _ r => Event.replay p .busy ∈ r.log →
      p ∈ r.UpdateList ∧ r.ret = true ∧ Event.defer p ∈ r.log) ?_ ?_ ?_ ?_
    l.length l w (Nat.le_refl _)
  · intro l w _ h
    simp at h
  · intro pre post f w _ _ h
    simp only [List.mem_cons, Event.replay.injEq, and_true, List.mem_singleton,
      reduceCtorEq, or_false, List.not_mem_nil] at h
    subst h
    exact ⟨mem_sheduleForUpdate _ _, rfl, by simp⟩
  · intro pre post f w _ _ h
    simp at h
  · intro pre post f a r _ _ ha ih h
    simp only [Replay.after, List.singleton_append, List.mem_cons, Event.replay.injEq] at h
    rcases h with ⟨_, h⟩ | h
    · rcases ha with rfl | rfl <;> cases h
    · obtain ⟨h₁, h₂, h₃⟩ := ih h
      exact ⟨h₁, h₂, List.mem_cons_of_mem _ h₃⟩

/-- Witness for C13: the database of `/p` is held by another command when the
pending file `/p/a.c` is replayed. -/
theorem runSheduledUpdate_busy_defers_again_witness :
    ∃ r, runSheduledUpdate (World.rooted true false false) "/p/".data
        ["/p/a.c".data, "/p/b.c".data] () = some r ∧
      Event.replay "/p/a.c".data .busy ∈ r.log ∧
      "/p/a.c".data ∈ r.UpdateList ∧ r.ret = true ∧ Event.defer "/p/a.c".data ∈ r.log := by
  obtain ⟨r, hr, h⟩ := runSheduledUpdate_busy_defers_again (World.rooted true false false)
    "/p/".data "/p/a.c".data ["/p/a.c".data, "/p/b.c".data] ()
  have hlog : (runSheduledUpdate (World.rooted true false false) "/p/".data
      ["/p/a.c".data, "/p/b.c".data] ()).map (fun r => r.log) =
      some [.replay "/p/a.c".data .busy, .defer "/p/a.c".data] := by decide
  rw [hr] at hlog
  have hmem : Event.replay "/p/a.c".data .busy ∈ r.log := by
    simp only [Option.map_some', Option.some.injEq] at hlog
    rw [hlog]
    exact List.mem_cons_self _ _
  exact ⟨r, hr, hmem, h hmem⟩

/-- C13 as stated fails: with `/p/a.c` and `/p/b.c` pending and the database
of `/p` present but not acquirable, `runSheduledUpdate` erases `/p/a.c`,
`UpdateSingleFile` defers it again, and the call returns true with `/p/a.c`
in the pending list, behind `/p/b.c`. -/
theorem runSheduledUpdate_busy_path_is_pending :
    (runSheduledUpdate (World.rooted true false false) "/p/".data
        ["/p/a.c".data, "/p/b.c".data] ()).map (fun r => (r.ret, r.UpdateList, r.log)) =
      some (true, ["/p/b.c".data, "/p/a.c".data],
        [.replay "/p/a.c".data .busy, .defer "/p/a.c".data]) ∧
    "/p/a.c".data ∈ ["/p/b.c".data, "/p/a.c".data] := by
  decide

theorem filter_length_erase_middle {CPath : Type} (q : CPath → Bool) {f : CPath}
    (hf : q f = true) (pre post : List CPath) :
    ((pre ++ f :: post).filter q).length = ((pre ++ post).filter q).length + 1 := by
  simp [List.filter_append, List.filter_cons, hf]
  omega

/-- `runSheduledUpdate` returns after at most as many update attempts as the
list has entries that are contained in the root. -/
theorem runSheduledUpdate_replays {W CPath : Type} [DecidableEq CPath]
    (env : World W CPath) (dbPath : CPath) (l : List CPath) (w : W) :
    ∃ r, runSheduledUpdate env dbPath l w = some r ∧
      failedReplays r.log ≤ replays r.log ∧
      replays r.log ≤ (l.filter fun x => env.isContainedIn x dbPath).length := by
  refine runSheduledUpdate_induction env dbPath
    (fun l r => failedReplays r.log ≤ replays r.log ∧
      replays r.log ≤ (l.filter fun x => env.isContainedIn x dbPath).length) ?_ ?_ ?_ ?_
    l.length l w (Nat.le_refl _)
  · intro l w _
    simp [failedReplays, replays]
  · intro pre post f w _ hf
    rw [filter_length_erase_middle (fun x => env.isContainedIn x dbPath) hf]
    simp [failedReplays, replays]
  · intro pre post f w _ hf
    rw [filter_length_erase_middle (fun x => env.isContainedIn x dbPath) hf]
    simp [failedReplays, replays]
  · intro pre post f a r _ hf ha ih
    rw [filter_length_erase_middle (fun x => env.isContainedIn x dbPath) hf]
    have hl : ∀ a : Attempt, (Replay.after [Event.replay f a] r).log = .replay f a :: r.log :=
      fun _ => rfl
    rcases ha with rfl | rfl <;> rw [hl] <;> simp only [failedReplays, replays] <;> omega

/-- In a world where every path is contained and no database is found, each
pending entry costs `runSheduledUpdate` one failed attempt. -/
theorem runSheduledUpdate_all_fail (l : List Nat) :
    ∃ r, runSheduledUpdate (World.const false false false) 0 l () = some r ∧
      failedReplays r.log = l.length := by
  induction l with
  | nil => exact ⟨_, rfl, rfl⟩
  | cons x xs ih =>
    obtain ⟨r, hr, hn⟩ := ih
    refine ⟨r.after [.replay x .noDatabase], ?_, ?_⟩
    · rw [runSheduledUpdate_unfold]
      simp only [firstContained, World.const, if_true, UpdateSingleFile, Bool.not_false,
        Bool.false_eq_true, if_false]
      have hr₂ : runSheduledUpdate (World.const false false false) 0 xs () = some r := hr
      simp only [World.const] at hr₂
      rw [hr₂]
      rfl
    · simp [Replay.after, failedReplays, hn]

/-- C14, as the code has it: `runSheduledUpdate` keeps no count of failures.
A call returns after at most as many failed update attempts as the pending
list has entries contained in `dbPath` when the call starts. -/
theorem runSheduledUpdate_failures_bounded_by_entries {W CPath : Type} [DecidableEq CPath]
    (env : World W CPath) (dbPath : CPath) (l : List CPath) (w : W) :
    ∃ r, runSheduledUpdate env dbPath l w = some r ∧
      failedReplays r.log ≤ (l.filter fun x => env.isContainedIn x dbPath).length := by
  obtain ⟨r, hr, h₁, h₂⟩ := runSheduledUpdate_replays env dbPath l w
  exact ⟨r, hr, Nat.le_trans h₁ h₂⟩

/-- C14 as stated fails: no constant bounds the failed update attempts of one
call.  In a world where every path is contained in the root and no database
is found, a call makes one failed attempt for every pending entry; five
pending entries give five failed attempts in one call. -/
theorem runSheduledUpdate_no_fixed_bound :
    (¬ ∃ k : Nat, ∀ (l : List Nat) (r : Replay Unit Nat),
      runSheduledUpdate (World.const false false false) 0 l () = some r →
        failedReplays r.log ≤ k) ∧
    (runSheduledUpdate (World.const false false false) 0 [1, 2, 3, 4, 5] ()).map
      (fun r => (r.ret, r.UpdateList, failedReplays r.log)) = some (false, [], 5) := by
  refine ⟨?_, by decide⟩
  rintro ⟨k, hk⟩
  obtain ⟨r, hr, hn⟩ := runSheduledUpdate_all_fail (List.range (k + 1))
  have := hk _ r hr
  rw [hn, List.length_range] at this
  omega

/-- C16: `UpdateSingleFile` defers exactly when the database refuses the
write.  With `f` the file it works on: when `GetDB` gives a handle without
the exclusive access, `sheduleForUpdate(f)` is called, so that `f` is added to
the pending list unless it is there, `Cmd::Run` is not called and the result
is true; when `GetDB` gives no handle the result is false and the list is
unchanged; when the handle is granted the list is unchanged and the result is
that of `Cmd::Run`. -/
theorem UpdateSingleFile_defers_when_refused {W CPath : Type} [DecidableEq CPath]
    (env : World W CPath) (file : Option CPath) (l : List CPath) (w : W) (f : CPath)
    (hf : f = match file with
      | some g => g
      | none => env.filePath w) :
    ((env.getDB w f).1.1 = true → (env.getDB w f).1.2 = false →
      (UpdateSingleFile env file l w).ret = true ∧
      (UpdateSingleFile env file l w).UpdateList = sheduleForUpdate f l ∧
      (UpdateSingleFile env file l w).UpdateList = (if f ∈ l then l else l ++ [f]) ∧
      (UpdateSingleFile env file l w).log = [.defer f] ∧
      (UpdateSingleFile env file l w).attempt = .busy ∧
      (UpdateSingleFile env file l w).world = (env.getDB w f).2) ∧
    ((env.getDB w f).1.1 = false →
      (UpdateSingleFile env file l w).ret = false ∧
      (UpdateSingleFile env file l w).UpdateList = l ∧
      (UpdateSingleFile env file l w).log = [] ∧
      (UpdateSingleFile env file l w).attempt = .noDatabase) ∧
    ((env.getDB w f).1.1 = true → (env.getDB w f).1.2 = true →
      (UpdateSingleFile env file l w).ret = (env.cmdRun (env.getDB w f).2 f).1 ∧
      (UpdateSingleFile env file l w).UpdateList = l ∧
      (UpdateSingleFile env file l w).log = [] ∧
      (UpdateSingleFile env file l w).world = (env.cmdRun (env.getDB w f).2 f).2 ∧
      ((UpdateSingleFile env file l w).attempt = .submitted ↔
        (env.cmdRun (env.getDB w f).2 f).1 = true)) := by
  have hu : UpdateSingleFile env file l w = UpdateSingleFile env (some f) l w := by
    cases file with
    | none => rw [UpdateSingleFile_none, hf]
    | some g => rw [hf]
  rw [hu]
  refine ⟨?_, ?_, ?_⟩
  · intro h₁ h₂
    simp [UpdateSingleFile, h₁, h₂, sheduleForUpdate_eq]
  · intro h₁
    simp [UpdateSingleFile, h₁]
  · intro h₁ h₂
    cases h₃ : (env.cmdRun (env.getDB w f).2 f).1 <;> simp [UpdateSingleFile, h₁, h₂, h₃]

/-- Witness for C16: `/p/a.c` is saved while the database of `/p` is held by
another command and `/p/b.c` is pending. -/
theorem UpdateSingleFile_defers_when_refused_witness :
    ((World.rooted true false false).getDB () "/p/a.c".data).1.1 = true ∧
    ((World.rooted true false false).getDB () "/p/a.c".data).1.2 = false ∧
    (UpdateSingleFile (World.rooted true false false) (some "/p/a.c".data)
      ["/p/b.c".data] ()).ret = true ∧
    (UpdateSingleFile (World.rooted true false false) (some "/p/a.c".data)
      ["/p/b.c".data] ()).UpdateList = ["/p/b.c".data, "/p/a.c".data] ∧
    (UpdateSingleFile (World.rooted true false false) (some "/p/a.c".data)
      ["/p/b.c".data] ()).attempt = .busy :=
  have h := (UpdateSingleFile_defers_when_refused (World.rooted true false false)
    (some "/p/a.c".data) ["/p/b.c".data] () "/p/a.c".data rfl).1 rfl rfl
  ⟨rfl, rfl, h.1, h.2.1.trans (by decide), h.2.2.2.2.1⟩

/-! ## A path is not replayed twice -/

theorem watch_append {CPath : Type} [DecidableEq CPath] (p : CPath) (l₁ l₂ : List (Event CPath)) :
    ∀ s, watch p s (l₁ ++ l₂) = (watch p s l₁).bind fun s₁ => watch p s₁ l₂ := by
  induction l₁ with
  | nil => intro s; rfl
  | cons e es ih =>
    intro s
    simp only [List.cons_append, watch]
    cases watchStep p s e with
    | none => rfl
    | some s₁ => exact ih s₁

/-- What a watch that ends without an alarm says of the log: a replay of `p`
after a replay of `p` that submitted the command has a `sheduleForUpdate(p)`
in between, and from an armed state every replay of `p` has one in front. -/
theorem watch_sound {CPath : Type} [DecidableEq CPath] (p : CPath) (log : List (Event CPath)) :
    ∀ s s₁, watch p s log = some s₁ →
      (∀ a b c x, log = a ++ .replay p .submitted :: (b ++ .replay p x :: c) →
        Event.defer p ∈ b) ∧
      (s = true → ∀ b c x, log = b ++ .replay p x :: c → Event.defer p ∈ b) := by
  induction log with
  | nil =>
    intro s s₁ _
    constructor
    · intro a b c x h
      cases a <;> simp at h
    · intro _ b c x h
      cases b <;> simp at h
  | cons e es ih =>
    intro s s₁ h
    simp only [watch] at h
    cases hstep : watchStep p s e with
    | none => rw [hstep] at h; cases h
    | some s₂ =>
      rw [hstep] at h
      obtain ⟨ih₁, ih₂⟩ := ih s₂ s₁ h
      constructor
      · intro a b c x hlog
        cases a with
        | nil =>
          simp only [List.nil_append, List.cons.injEq] at hlog
          obtain ⟨rfl, rfl⟩ := hlog
          have hs₂ : s₂ = true := by
            simp only [watchStep, if_true] at hstep
            cases s <;> simp at hstep
            exact hstep
          exact ih₂ hs₂ b c x rfl
        | cons e₁ a₁ =>
          simp only [List.cons_append, List.cons.injEq] at hlog
          exact ih₁ a₁ b c x hlog.2
      · intro hs b c x hlog
        subst hs
        cases b with
        | nil =>
          simp only [List.nil_append, List.cons.injEq] at hlog
          obtain ⟨rfl, rfl⟩ := hlog
          simp [watchStep] at hstep
        | cons e₁ b₁ =>
          simp only [List.cons_append, List.cons.injEq] at hlog
          obtain ⟨rfl, hes⟩ := hlog
          by_cases hd : e = Event.defer p
          · rw [hd]; exact List.mem_cons_self _ _
          · have hs₂ : s₂ = true := by
              cases e with
              | defer f =>
                have hfp : f ≠ p := fun hfp => hd (by rw [hfp])
                simp only [watchStep, Bool.true_and, Option.some.injEq] at hstep
                rw [← hstep]
                simpa using hfp
              | update f a =>
                simp [watchStep] at hstep
                exact hstep
              | replay f a =>
                by_cases hfp : f = p
                · simp [watchStep, hfp] at hstep
                · simp [watchStep, hfp] at hstep
                  exact hstep
            exact List.mem_cons_of_mem _ (ih₂ hs₂ b₁ c x hes)

theorem mem_sheduleForUpdate_iff {CPath : Type} [DecidableEq CPath] (f p : CPath)
    (l : List CPath) : p ∈ sheduleForUpdate f l ↔ p ∈ l ∨ p = f := by
  rw [sheduleForUpdate_eq]
  split
  · rename_i h
    constructor
    · exact Or.inl
    · rintro (h₁ | rfl)
      · exact h₁
      · exact h
  · simp

/-- One call of `runSheduledUpdate` under the watch: from a list without
duplicates that does not hold `p` when the watch is armed, the call returns,
the watch raises no alarm, and the same holds of the list after the call. -/
theorem runSheduledUpdate_watch {W CPath : Type} [DecidableEq CPath] (env : World W CPath)
    (dbPath p : CPath) (l : List CPath) (w : W) :
    ∃ r, runSheduledUpdate env dbPath l w = some r ∧
      ∀ s, (s = true → p ∉ l) → l.Nodup →
        ∃ s₁, watch p s r.log = some s₁ ∧ (s₁ = true → p ∉ r.UpdateList) ∧
          r.UpdateList.Nodup := by
  refine runSheduledUpdate_induction env dbPath
    (fun l r => ∀ s, (s = true → p ∉ l) → l.Nodup →
        ∃ s₁, watch p s r.log = some s₁ ∧ (s₁ = true → p ∉ r.UpdateList) ∧
          r.UpdateList.Nodup) ?_ ?_ ?_ ?_ l.length l w (Nat.le_refl _)
  · intro l w _ s hs hn
    exact ⟨s, rfl, hs, hn⟩
  · intro pre post f w _ _ s hs hn
    obtain ⟨hn₁, hf⟩ := nodup_erase_middle hn
    by_cases hfp : f = p
    · subst hfp
      have hs₀ : s = false := by
        cases s with
        | false => rfl
        | true => exact absurd (by simp) (hs rfl)
      subst hs₀
      exact ⟨false, by simp [watch, watchStep], by simp, sheduleForUpdate_nodup _ hn₁⟩
    · refine ⟨s, by simp [watch, watchStep, hfp], ?_, sheduleForUpdate_nodup _ hn₁⟩
      intro hst hmem
      rcases (mem_sheduleForUpdate_iff f p _).1 hmem with h | h
      · exact hs hst (by
          rcases List.mem_append.1 h with h | h
          · exact List.mem_append_left _ h
          · exact List.mem_append_right _ (List.mem_cons_of_mem _ h))
      · exact hfp h.symm
  · intro pre post f w _ _ s hs hn
    obtain ⟨hn₁, hf⟩ := nodup_erase_middle hn
    by_cases hfp : f = p
    · subst hfp
      have hs₀ : s = false := by
        cases s with
        | false => rfl
        | true => exact absurd (by simp) (hs rfl)
      subst hs₀
      exact ⟨true, by simp [watch, watchStep], fun _ => hf, hn₁⟩
    · refine ⟨s, by simp [watch, watchStep, hfp], ?_, hn₁⟩
      intro hst h
      exact hs hst (by
        rcases List.mem_append.1 h with h | h
        · exact List.mem_append_left _ h
        · exact List.mem_append_right _ (List.mem_cons_of_mem _ h))
  · intro pre post f a r _ _ ha ih s hs hn
    obtain ⟨hn₁, hf⟩ := nodup_erase_middle hn
    have hlog : (Replay.after [Event.replay f a] r).log = .replay f a :: r.log := rfl
    have hlist : (Replay.after [Event.replay f a] r).UpdateList = r.UpdateList := rfl
    rw [hlog, hlist]
    by_cases hfp : f = p
    · subst hfp
      have hs₀ : s = false := by
        cases s with
        | false => rfl
        | true => exact absurd (by simp) (hs rfl)
      subst hs₀
      obtain ⟨s₁, h₁, h₂, h₃⟩ := ih false (by simp) hn₁
      refine ⟨s₁, ?_, h₂, h₃⟩
      rcases ha with rfl | rfl <;> simpa [watch, watchStep] using h₁
    · obtain ⟨s₁, h₁, h₂, h₃⟩ := ih s (fun hst h => hs hst (by
        rcases List.mem_append.1 h with h | h
        · exact List.mem_append_left _ h
        · exact List.mem_append_right _ (List.mem_cons_of_mem _ h))) hn₁
      exact ⟨s₁, by simpa [watch, watchStep, hfp] using h₁, h₂, h₃⟩

theorem sheduleForUpdate_watch {CPath : Type} [DecidableEq CPath] (p f : CPath)
    (l : List CPath) (s : Bool) (hs : s = true → p ∉ l) :
    (s && f != p) = true → p ∉ sheduleForUpdate f l := by
  intro h hmem
  simp only [Bool.and_eq_true, bne_iff_ne] at h
  rcases (mem_sheduleForUpdate_iff f p l).1 hmem with h₁ | h₁
  · exact hs h.1 h₁
  · exact h.2 h₁.symm

/-- One call of `UpdateSingleFile` from outside under the watch. -/
theorem UpdateSingleFile_watch {W CPath : Type} [DecidableEq CPath] (env : World W CPath)
    (p f : CPath) (l : List CPath) (w : W) (s : Bool) (hs : s = true → p ∉ l) :
    ∃ s₁, watch p s (Event.update f (UpdateSingleFile env (some f) l w).attempt ::
        (UpdateSingleFile env (some f) l w).log) = some s₁ ∧
      (s₁ = true → p ∉ (UpdateSingleFile env (some f) l w).UpdateList) := by
  rcases UpdateSingleFile_cases env f l w with e | e | e | e <;> rw [e]
  · exact ⟨s, rfl, hs⟩
  · exact ⟨s && f != p, rfl, sheduleForUpdate_watch p f l s hs⟩
  · exact ⟨s, rfl, hs⟩
  · exact ⟨s, rfl, hs⟩

/-- Every sequence of calls under the watch: it returns and the watch raises
no alarm. -/
theorem runCalls_watch {W CPath : Type} [DecidableEq CPath] (env : World W CPath) (p : CPath) :
    ∀ (calls : List (Call W CPath)) (l : List CPath) (w : W) (s : Bool),
      (s = true → p ∉ l) → l.Nodup →
      ∃ r s₁, runCalls env calls l w = some r ∧ watch p s r.log = some s₁ := by
  intro calls
  induction calls with
  | nil => intro l w s _ _; exact ⟨_, s, rfl, rfl⟩
  | cons c calls ih =>
    intro l w s hs hn
    cases c with
    | shedule f =>
      obtain ⟨r, s₁, hr, hw⟩ := ih (sheduleForUpdate f l) w (s && f != p)
        (sheduleForUpdate_watch p f l s hs) (sheduleForUpdate_nodup f hn)
      refine ⟨r.after [.defer f], s₁, by rw [runCalls_shedule, hr]; rfl, ?_⟩
      exact hw
    | update file =>
      have key : ∀ f : CPath, ∃ r s₁, runCalls env (.update (some f) :: calls) l w = some r ∧
          watch p s r.log = some s₁ := by
        intro f
        obtain ⟨s₂, hw₂, hs₂⟩ := UpdateSingleFile_watch env p f l w s hs
        obtain ⟨r, s₁, hr, hw⟩ := ih _ (UpdateSingleFile env (some f) l w).world s₂ hs₂
          (UpdateSingleFile_nodup env (some f) w hn)
        refine ⟨r.after (Event.update f (UpdateSingleFile env (some f) l w).attempt ::
          (UpdateSingleFile env (some f) l w).log), s₁, by rw [runCalls_update, hr]; rfl, ?_⟩
        have hlog : (Replay.after (Event.update f (UpdateSingleFile env (some f) l w).attempt ::
            (UpdateSingleFile env (some f) l w).log) r).log =
            (Event.update f (UpdateSingleFile env (some f) l w).attempt ::
              (UpdateSingleFile env (some f) l w).log) ++ r.log := rfl
        rw [hlog, watch_append, hw₂]
        exact hw
      cases file with
      | none => rw [runCalls_update_none]; exact key _
      | some f => exact key f
    | replay d =>
      obtain ⟨r₁, hr₁, h₁⟩ := runSheduledUpdate_watch env d p l w
      obtain ⟨s₂, hw₂, hs₂, hn₂⟩ := h₁ s hs hn
      obtain ⟨r, s₁, hr, hw⟩ := ih r₁.UpdateList r₁.world s₂ hs₂ hn₂
      refine ⟨r.after r₁.log, s₁, by rw [runCalls_replay env d calls l w hr₁, hr]; rfl, ?_⟩
      have hlog : (Replay.after r₁.log r).log = r₁.log ++ r.log := rfl
      rw [hlog, watch_append, hw₂]
      exact hw
    | other g =>
      obtain ⟨r, s₁, hr, hw⟩ := ih l (g w) s hs hn
      exact ⟨r, s₁, by rw [runCalls_other, hr], hw⟩

/-- C15: `runSheduledUpdate` never replays a path twice.  In the log of every
sequence of calls of `sheduleForUpdate`, `UpdateSingleFile` and
`runSheduledUpdate`, for any roots and with anything happening to the
collaborators in between, from a pending list without duplicates: when
`runSheduledUpdate` replayed `p` with the command submitted and replays `p`
again later, `sheduleForUpdate(p)` was called in between. -/
theorem runSheduledUpdate_never_replays_twice {W CPath : Type} [DecidableEq CPath]
    (env : World W CPath) (p : CPath) (calls : List (Call W CPath)) (l : List CPath) (w : W)
    (hl : l.Nodup) :
    ∃ r, runCalls env calls l w = some r ∧
      ∀ a b c x, r.log = a ++ .replay p .submitted :: (b ++ .replay p x :: c) →
        Event.defer p ∈ b := by
  obtain ⟨r, s₁, hr, hw⟩ := runCalls_watch env p calls l w false (by simp) hl
  exact ⟨r, hr, (watch_sound p r.log false s₁ hw).1⟩

/-- Witness for C15: `/p/a.c` is replayed and submitted, deferred again, and
replayed a second time. -/
theorem runSheduledUpdate_never_replays_twice_witness :
    ["/p/a.c".data].Nodup ∧
    (runCalls (World.rooted true true true)
        [.replay "/p/".data, .shedule "/p/a.c".data, .replay "/p/".data]
        ["/p/a.c".data] ()).map (fun r => r.log) =
      some [.replay "/p/a.c".data .submitted, .defer "/p/a.c".data,
        .replay "/p/a.c".data .submitted] ∧
    ∃ r, runCalls (World.rooted true true true)
        [.replay "/p/".data, .shedule "/p/a.c".data, .replay "/p/".data]
        ["/p/a.c".data] () = some r ∧
      ∀ a b c x, r.log = a ++ .replay "/p/a.c".data .submitted ::
          (b ++ .replay "/p/a.c".data x :: c) → Event.defer "/p/a.c".data ∈ b :=
  ⟨by decide, by decide,
    runSheduledUpdate_never_replays_twice (World.rooted true true true) "/p/a.c".data
      [.replay "/p/".data, .shedule "/p/a.c".data, .replay "/p/".data] ["/p/a.c".data] ()
      (by decide)⟩

/-! ## The completion callbacks -/

/-- C17, as the code has it: `cmdReady`, `autoComplReady` and `showResult`
call `runSheduledUpdate` for the command's database root first, once, whatever
the status of the command.  `findReady` does so, through `showResult`, when
the status is not no-result; with a no-result status and a handle it submits
the command again with `showResult` as callback.  `autoComplHalf`, for a
command without error and with a handle, submits the command again with
`autoComplReady` as callback.  `showInfo`, the callback of the version query,
which has no database, does not call `runSheduledUpdate`. -/
theorem callbacks_consult_scheduler (cMaxTagLen : Nat) (cmd : CmdData) :
    ((cmdReady cmd).head? = some (.runSheduledUpdate cmd.dbPath) ∧
      ((cmdReady cmd).filter Act.isReplay).length = 1) ∧
    ((autoComplReady cmd).head? = some (.runSheduledUpdate cmd.dbPath) ∧
      ((autoComplReady cmd).filter Act.isReplay).length = 1) ∧
    ((showResult cMaxTagLen cmd).head? = some (.runSheduledUpdate cmd.dbPath) ∧
      ((showResult cMaxTagLen cmd).filter Act.isReplay).length = 1) ∧
    (cmd.noResult = false → ∀ db,
      (findReady cMaxTagLen cmd db).head? = some (.runSheduledUpdate cmd.dbPath) ∧
      ((findReady cMaxTagLen cmd db).filter Act.isReplay).length = 1) ∧
    (cmd.noResult = true →
      findReady cMaxTagLen cmd true = [.getDatabase, .cmdRun .FIND_SYMBOL .showResult]) ∧
    (cmd.error = false →
      autoComplHalf cmd true = [.getDatabase, .cmdRun .AUTOCOMPLETE_SYMBOL .autoComplReady]) ∧
    (showInfo cmd).filter Act.isReplay = [] := by
  obtain ⟨dbPath, tag, result, error, noResult⟩ := cmd
  refine ⟨?_, ?_, ?_, ?_, ?_, ?_, ?_⟩
  · cases error <;> simp [cmdReady, Act.isReplay]
  · cases error <;> cases noResult <;> simp [autoComplReady, Act.isReplay]
  · cases error <;> cases noResult <;> simp [showResult, Act.isReplay]
  · intro h db
    simp only at h
    subst h
    cases error <;> simp [findReady, showResult, Act.isReplay]
  · intro h
    simp only at h
    subst h
    simp [findReady]
  · intro h
    simp only at h
    subst h
    simp [autoComplHalf]
  · simp [showInfo, Act.isReplay]

/-- Witness for C17: a definition search without a result. -/
theorem callbacks_consult_scheduler_witness :
    (⟨"/p/".data, "foo".data, [], false, true⟩ : CmdData).noResult = true ∧
    findReady 64 ⟨"/p/".data, "foo".data, [], false, true⟩ true =
      [.getDatabase, .cmdRun .FIND_SYMBOL .showResult] ∧
    (showResult 64 ⟨"/p/".data, "foo".data, [], false, true⟩).head? =
      some (.runSheduledUpdate "/p/".data) :=
  have h := callbacks_consult_scheduler 64 ⟨"/p/".data, "foo".data, [], false, true⟩
  ⟨rfl, h.2.2.2.2.1 rfl, h.2.2.1.1⟩

/-- C17 as stated fails: three callbacks have a path without a call of
`runSheduledUpdate`.  `showInfo` never calls it; `autoComplHalf` never calls
it, neither when it reports an error nor when it submits the second half; and
`findReady` does not call it for a command without a result. -/
theorem callbacks_without_scheduler :
    (showInfo ⟨"/p/".data, [], "6.5".data, false, false⟩).filter Act.isReplay = [] ∧
    (autoComplHalf ⟨"/p/".data, "fo".data, "boom".data, true, false⟩ true).filter
      Act.isReplay = [] ∧
    (autoComplHalf ⟨"/p/".data, "fo".data, "foo".data, false, false⟩ true).filter
      Act.isReplay = [] ∧
    (findReady 64 ⟨"/p/".data, "foo".data, [], false, true⟩ true).filter Act.isReplay = [] ∧
    (findReady 64 ⟨"/p/".data, "foo".data, [], false, true⟩ false).filter Act.isReplay = [] := by
  decide

/-- C19: `showResult` does exactly one of three things after it has consulted
the scheduler.  For an error status it reports the error in a message box
whose text starts with the output of the command; for a no-result status
without error it shows the notice that the tag was not found, complete when
the tag is shorter than `cMaxTagLen`; otherwise it shows the result window.
The result window is shown if and only if the status is neither error nor
no-result. -/
theorem showResult_one_of_three (cMaxTagLen : Nat) (cmd : CmdData) :
    (∃ act, showResult cMaxTagLen cmd = [.runSheduledUpdate cmd.dbPath, act] ∧
      (cmd.error = true →
        act = .messageBox (cmd.result ++ "\nTry re-creating database.".data)) ∧
      (cmd.error = false → cmd.noResult = true →
        act = .messageBox (notFoundText cMaxTagLen cmd.tag)) ∧
      (cmd.error = false → cmd.noResult = false → act = .resultShow)) ∧
    (Act.resultShow ∈ showResult cMaxTagLen cmd ↔ cmd.error = false ∧ cmd.noResult = false) ∧
    (cmd.tag.length < cMaxTagLen →
      notFoundText cMaxTagLen cmd.tag = ['"'] ++ cmd.tag ++ "\" not found".data) := by
  obtain ⟨dbPath, tag, result, error, noResult⟩ := cmd
  refine ⟨?_, ?_, ?_⟩
  · cases error <;> cases noResult <;> simp [showResult]
  · cases error <;> cases noResult <;> simp [showResult]
  · intro h
    simp only at h
    apply List.take_of_length_le
    simp
    omega

/-- Witness for C19: a search for `foo` that found nothing. -/
theorem showResult_one_of_three_witness :
    "foo".data.length < 64 ∧
    notFoundText 64 "foo".data = "\"foo\" not found".data ∧
    showResult 64 ⟨"/p/".data, "foo".data, [], false, true⟩ =
      [.runSheduledUpdate "/p/".data, .messageBox "\"foo\" not found".data] :=
  ⟨by decide,
    ((showResult_one_of_three 64 ⟨"/p/".data, "foo".data, [], false, true⟩).2.2
      (by decide)).trans (by decide),
    by decide⟩

/-! ## Start-up and the database callbacks -/

/-- C18: `checkForGTagsBinaries` returns true if and only if the two files it
tests exist: `global.exe` in the binaries directory next to the plug-in, and
`gtags.exe` in the directory of that `global.exe`, which is the same directory
when `StripFilename` cuts a path after its last backslash.  `PluginInit`
returns `FALSE` exactly when `checkForGTagsBinaries` returns false; then `HMod`
is what it was and no window class is registered. -/
theorem pluginInit_needs_binaries (fs : Files) (cBinsDir moduleFileName : List Char)
    (hMod : Nat) (st : Plugin) :
    ((checkForGTagsBinaries fs cBinsDir moduleFileName).1 = true ↔
      fs.fileExists (globalExe fs cBinsDir moduleFileName) = true ∧
      fs.fileExists (gtagsExe fs cBinsDir moduleFileName) = true) ∧
    ((∀ dir name : List Char, '\\' ∉ name →
        fs.stripFilename (dir ++ ['\\'] ++ name) = dir ++ ['\\']) →
      globalExe fs cBinsDir moduleFileName =
        fs.stripFilename moduleFileName ++ cBinsDir ++ ['\\'] ++ "global.exe".data ∧
      gtagsExe fs cBinsDir moduleFileName =
        fs.stripFilename moduleFileName ++ cBinsDir ++ ['\\'] ++ "gtags.exe".data) ∧
    ((PluginInit fs cBinsDir moduleFileName hMod st).1 = false ↔
      (checkForGTagsBinaries fs cBinsDir moduleFileName).1 = false) ∧
    ((checkForGTagsBinaries fs cBinsDir moduleFileName).1 = false →
      (PluginInit fs cBinsDir moduleFileName hMod st).2.HMod = st.HMod ∧
      (PluginInit fs cBinsDir moduleFileName hMod st).2.registered = st.registered) ∧
    ((checkForGTagsBinaries fs cBinsDir moduleFileName).1 = true →
      (PluginInit fs cBinsDir moduleFileName hMod st).2.HMod = some hMod ∧
      (PluginInit fs cBinsDir moduleFileName hMod st).2.registered =
        st.registered ++ [.ActivityWin, .SearchWin, .AutoCompleteWin]) := by
  refine ⟨?_, ?_, ?_, ?_, ?_⟩
  · unfold checkForGTagsBinaries
    cases fs.fileExists (globalExe fs cBinsDir moduleFileName) <;>
      cases fs.fileExists (gtagsExe fs cBinsDir moduleFileName) <;> simp
  · intro h
    refine ⟨rfl, ?_⟩
    unfold gtagsExe globalExe
    rw [h _ _ (by decide)]
  · unfold PluginInit
    cases (checkForGTagsBinaries fs cBinsDir moduleFileName).1 <;> simp
  · intro h
    simp [PluginInit, h]
  · intro h
    simp [PluginInit, h]

/-- C20: the database callbacks of the configuration window give up the
handle of the command exactly once.  The calls of `dbWriteReady`, of
`createDbCB` and of `updateDbCB` to the registry are one call on the handle of
the command: `PutDb` when the status is `OK`, `UnregisterDb` for every other
status. -/
theorem dbWriteReady_gives_up_handle_once {Status : Type} [DecidableEq Status]
    (OK RUN_ERROR : Status) (cmd : DbCmd Status) (cw : Bool) (updateCount : Int) :
    (dbWriteReady OK RUN_ERROR cmd).filter CfgAct.isRegistry =
      [if cmd.status = OK then .putDb cmd.db else .unregisterDb cmd.db] ∧
    (createDbCB OK RUN_ERROR cmd cw).filter CfgAct.isRegistry =
      [if cmd.status = OK then .putDb cmd.db else .unregisterDb cmd.db] ∧
    (updateDbCB OK RUN_ERROR cmd cw updateCount).1.filter CfgAct.isRegistry =
      [if cmd.status = OK then .putDb cmd.db else .unregisterDb cmd.db] ∧
    ((dbWriteReady OK RUN_ERROR cmd).filter CfgAct.isRegistry).length = 1 := by
  have h : (dbWriteReady OK RUN_ERROR cmd).filter CfgAct.isRegistry =
      [if cmd.status = OK then .putDb cmd.db else .unregisterDb cmd.db] := by
    have h₁ : (if cmd.status ≠ OK then [CfgAct.unregisterDb cmd.db]
        else [CfgAct.putDb cmd.db]).filter CfgAct.isRegistry =
        [if cmd.status = OK then .putDb cmd.db else .unregisterDb cmd.db] := by
      by_cases hs : cmd.status = OK
      · rw [if_neg (not_not.2 hs), if_pos hs]; rfl
      · rw [if_pos hs, if_neg hs]; rfl
    have h₂ : (if cmd.status = RUN_ERROR then [CfgAct.messageBox "Running GTags failed".data]
        else match cmd.result with
          | some text => [CfgAct.messageBox text]
          | none => []).filter CfgAct.isRegistry = [] := by
      split
      · rfl
      · split <;> rfl
    unfold dbWriteReady
    rw [List.filter_append, h₁, h₂, List.append_nil]
  refine ⟨h, ?_, ?_, by rw [h]; rfl⟩
  · unfold createDbCB
    rw [List.filter_append, h]
    cases cw <;> by_cases h₁ : cmd.status = OK <;>
      simp [h₁, List.filter_cons, CfgAct.isRegistry]
  · unfold updateDbCB
    cases cw
    · simpa using h
    · by_cases h₃ : updateCount - 1 = 0 <;>
        simp [h₃, List.filter_append, h, List.filter_cons, CfgAct.isRegistry]

/-! ## Termination and result of a replay -/

/-- C22: `runSheduledUpdate` terminates for every pending list and root.  A
recursive call is made only after the first contained entry was erased and
`UpdateSingleFile` returned false for it, which leaves the list without that
entry as it is and calls `sheduleForUpdate` for nothing; the list of the
recursive call is one entry shorter.  So the call returns, whatever bound
above the length of the list the recursion is given, after at most as many
update attempts as the list has entries contained in `dbPath`. -/
theorem runSheduledUpdate_terminates {W CPath : Type} [DecidableEq CPath]
    (env : World W CPath) (dbPath : CPath) (l : List CPath) (w : W) :
    (∃ r, runSheduledUpdate env dbPath l w = some r ∧
      (∀ n, l.length < n → runSheduledLoop env n dbPath l w = some r) ∧
      replays r.log ≤ (l.filter fun x => env.isContainedIn x dbPath).length) ∧
    (∀ f e, firstContained (fun x => env.isContainedIn x dbPath) l = some (f, e) →
      (UpdateSingleFile env (some f) e w).ret = false →
      (UpdateSingleFile env (some f) e w).UpdateList = e ∧
      (UpdateSingleFile env (some f) e w).log = [] ∧
      e.length + 1 = l.length ∧
      runSheduledUpdate env dbPath l w =
        (runSheduledUpdate env dbPath e (UpdateSingleFile env (some f) e w).world).map
          (Replay.after [.replay f (UpdateSingleFile env (some f) e w).attempt])) := by
  constructor
  · obtain ⟨r, hr, _, h⟩ := runSheduledUpdate_replays env dbPath l w
    refine ⟨r, hr, ?_, h⟩
    intro n hn
    rw [← hr]
    exact runSheduledLoop_fuel env dbPath n (l.length + 1) l w hn (Nat.lt_succ_self _)
  · intro f e hfc hret
    obtain ⟨h₁, h₂, _⟩ := UpdateSingleFile_false env f e w hret
    refine ⟨h₁, h₂, firstContained_length _ hfc, ?_⟩
    rw [runSheduledUpdate_unfold, hfc]
    simp only [hret, Bool.false_eq_true, if_false]

/-- Witness for C22: three files of the project `/p` are pending and its
database gives no handle; the call makes three attempts and returns false. -/
theorem runSheduledUpdate_terminates_witness :
    firstContained (fun x => (World.rooted false false false).isContainedIn x "/p/".data)
      ["/p/a.c".data, "/p/b.c".data, "/p/c.c".data] =
        some ("/p/a.c".data, ["/p/b.c".data, "/p/c.c".data]) ∧
    (UpdateSingleFile (World.rooted false false false) (some "/p/a.c".data)
      ["/p/b.c".data, "/p/c.c".data] ()).ret = false ∧
    (UpdateSingleFile (World.rooted false false false) (some "/p/a.c".data)
      ["/p/b.c".data, "/p/c.c".data] ()).UpdateList = ["/p/b.c".data, "/p/c.c".data] ∧
    (runSheduledUpdate (World.rooted false false false) "/p/".data
      ["/p/a.c".data, "/p/b.c".data, "/p/c.c".data] ()).map
        (fun r => (r.ret, r.UpdateList, replays r.log)) = some (false, [], 3) :=
  ⟨by decide, by decide,
    ((runSheduledUpdate_terminates (World.rooted false false false) "/p/".data
      ["/p/a.c".data, "/p/b.c".data, "/p/c.c".data] ()).2 "/p/a.c".data
      ["/p/b.c".data, "/p/c.c".data] (by decide) (by decide)).1, by decide⟩

theorem mem_erase_middle {CPath : Type} {pre post : List CPath} {f x : CPath}
    (h : x ∈ pre ++ post) : x ∈ pre ++ f :: post := by
  rcases List.mem_append.1 h with h | h
  · exact List.mem_append_left _ h
  · exact List.mem_append_right _ (List.mem_cons_of_mem _ h)

/-- What a call of `runSheduledUpdate` returns and what its log holds. -/
theorem runSheduledUpdate_result {W CPath : Type} [DecidableEq CPath]
    (env : World W CPath) (dbPath : CPath) (l : List CPath) (w : W) :
    ∃ r, runSheduledUpdate env dbPath l w = some r ∧
      (r.ret = true ↔ ∃ f a, Event.replay f a ∈ r.log ∧ a.failed = false) ∧
      (∀ f a, Event.replay f a ∈ r.log → env.isContainedIn f dbPath = true ∧ f ∈ l) ∧
      (∀ x ∈ r.UpdateList, x ∈ l) ∧
      (l.Nodup → ∀ f a, Event.replay f a ∈ r.log → a.failed = true → f ∉ r.UpdateList) := by
  refine runSheduledUpdate_induction env dbPath
    (fun l r => (r.ret = true ↔ ∃ f a, Event.replay f a ∈ r.log ∧ a.failed = false) ∧
      (∀ f a, Event.replay f a ∈ r.log → env.isContainedIn f dbPath = true ∧ f ∈ l) ∧
      (∀ x ∈ r.UpdateList, x ∈ l) ∧
      (l.Nodup → ∀ f a, Event.replay f a ∈ r.log → a.failed = true → f ∉ r.UpdateList))
    ?_ ?_ ?_ ?_ l.length l w (Nat.le_refl _)
  · intro l w _
    simp
  · intro pre post f w _ hf
    refine ⟨?_, ?_, ?_, ?_⟩
    · simp only [true_iff]
      exact ⟨f, .busy, by simp, rfl⟩
    · intro g a hg
      simp only [List.mem_cons, Event.replay.injEq, List.mem_singleton, reduceCtorEq,
        or_false, List.not_mem_nil] at hg
      obtain ⟨rfl, _⟩ := hg
      exact ⟨hf, by simp⟩
    · intro x hx
      rcases (mem_sheduleForUpdate_iff f x _).1 hx with h | rfl
      · exact mem_erase_middle h
      · simp
    · intro _ g a hg ha
      simp only [List.mem_cons, Event.replay.injEq, List.mem_singleton, reduceCtorEq,
        or_false, List.not_mem_nil] at hg
      obtain ⟨_, rfl⟩ := hg
      cases ha
  · intro pre post f w _ hf
    refine ⟨?_, ?_, ?_, ?_⟩
    · simp only [true_iff]
      exact ⟨f, .submitted, by simp, rfl⟩
    · intro g a hg
      simp only [List.mem_singleton, Event.replay.injEq] at hg
      obtain ⟨rfl, _⟩ := hg
      exact ⟨hf, by simp⟩
    · intro x hx
      exact mem_erase_middle hx
    · intro _ g a hg ha
      simp only [List.mem_singleton, Event.replay.injEq] at hg
      obtain ⟨_, rfl⟩ := hg
      cases ha
  · intro pre post f a r _ hf ha ih
    obtain ⟨ih₁, ih₂, ih₃, ih₄⟩ := ih
    have hlog : (Replay.after [Event.replay f a] r).log = .replay f a :: r.log := rfl
    have hlist : (Replay.after [Event.replay f a] r).UpdateList = r.UpdateList := rfl
    have hret : (Replay.after [Event.replay f a] r).ret = r.ret := rfl
    have hfail : a.failed = true := by rcases ha with rfl | rfl <;> rfl
    rw [hlog, hlist, hret]
    refine ⟨?_, ?_, ?_, ?_⟩
    · rw [ih₁]
      constructor
      · rintro ⟨g, b, hg, hb⟩
        exact ⟨g, b, List.mem_cons_of_mem _ hg, hb⟩
      · rintro ⟨g, b, hg, hb⟩
        rcases List.mem_cons.1 hg with hg | hg
        · simp only [Event.replay.injEq] at hg
          obtain ⟨_, rfl⟩ := hg
          rw [hfail] at hb
          cases hb
        · exact ⟨g, b, hg, hb⟩
    · intro g b hg
      rcases List.mem_cons.1 hg with hg | hg
      · simp only [Event.replay.injEq] at hg
        obtain ⟨rfl, _⟩ := hg
        exact ⟨hf, by simp⟩
      · exact ⟨(ih₂ g b hg).1, mem_erase_middle (ih₂ g b hg).2⟩
    · intro x hx
      exact mem_erase_middle (ih₃ x hx)
    · intro hn g b hg hb
      obtain ⟨hn₁, hfn⟩ := nodup_erase_middle hn
      rcases List.mem_cons.1 hg with hg | hg
      · simp only [Event.replay.injEq] at hg
        obtain ⟨rfl, _⟩ := hg
        exact fun hmem => hfn (ih₃ g hmem)
      · exact ih₄ hn₁ g b hg hb

/-- A call of `runSheduledUpdate` does not replay a path that is not pending,
and does not make it pending. -/
theorem runSheduledUpdate_absent {W CPath : Type} [DecidableEq CPath]
    (env : World W CPath) (dbPath p : CPath) (l : List CPath) (w : W) :
    ∃ r, runSheduledUpdate env dbPath l w = some r ∧
      (p ∉ l → p ∉ r.UpdateList ∧ ∀ x, Event.replay p x ∉ r.log) := by
  obtain ⟨r, hr, _, h₂, h₃, _⟩ := runSheduledUpdate_result env dbPath l w
  exact ⟨r, hr, fun hp => ⟨fun hm => hp (h₃ p hm), fun x hx => hp (h₂ p x hx).2⟩⟩

/-- Calls of `runSheduledUpdate` alone never replay a path that is not
pending. -/
theorem runCalls_absent {W CPath : Type} [DecidableEq CPath] (env : World W CPath) (p : CPath) :
    ∀ (calls : List (Call W CPath)) (l : List CPath) (w : W),
      (∀ c ∈ calls, c.internal = true) → p ∉ l →
      ∃ r, runCalls env calls l w = some r ∧ ∀ x, Event.replay p x ∉ r.log := by
  intro calls
  induction calls with
  | nil => intro l w _ _; exact ⟨_, rfl, by simp⟩
  | cons c calls ih =>
    intro l w hc hp
    have hcs : ∀ c ∈ calls, c.internal = true := fun d hd => hc d (List.mem_cons_of_mem _ hd)
    have hc₀ := hc c (List.mem_cons_self _ _)
    cases c with
    | shedule f => cases hc₀
    | update f => cases hc₀
    | replay d =>
      obtain ⟨r₁, hr₁, h₁⟩ := runSheduledUpdate_absent env d p l w
      obtain ⟨r, hr, h⟩ := ih r₁.UpdateList r₁.world hcs (h₁ hp).1
      refine ⟨r.after r₁.log, by rw [runCalls_replay env d calls l w hr₁, hr]; rfl, ?_⟩
      intro x hx
      have hlog : (Replay.after r₁.log r).log = r₁.log ++ r.log := rfl
      rw [hlog] at hx
      rcases List.mem_append.1 hx with hx | hx
      · exact (h₁ hp).2 x hx
      · exact h x hx
    | other g =>
      obtain ⟨r, hr, h⟩ := ih l (g w) hcs hp
      exact ⟨r, by rw [runCalls_other, hr], h⟩

/-- C27: `runSheduledUpdate(dbPath)` returns true if and only if it erased a
pending path whose `UpdateSingleFile` attempt returned true; the paths it
replays are pending paths contained in `dbPath`.  With a pending list without
duplicates, every path it erased whose attempt returned false (no database
found, or the command refused) is not in the pending list after the call; no
later call of `runSheduledUpdate`, for any root, replays it, and in any later
sequence of calls a replay of it comes after a new `sheduleForUpdate` for
it. -/
theorem runSheduledUpdate_result_and_failed_paths {W CPath : Type} [DecidableEq CPath]
    (env : World W CPath) (dbPath : CPath) (l : List CPath) (w : W) (hl : l.Nodup) :
    ∃ r, runSheduledUpdate env dbPath l w = some r ∧
      (r.ret = true ↔ ∃ f a, Event.replay f a ∈ r.log ∧ a.failed = false) ∧
      (∀ f a, Event.replay f a ∈ r.log → env.isContainedIn f dbPath = true ∧ f ∈ l) ∧
      (∀ f a, Event.replay f a ∈ r.log → a.failed = true →
        f ∉ r.UpdateList ∧
        (∀ (calls : List (Call W CPath)) (w₁ : W), (∀ c ∈ calls, c.internal = true) →
          ∃ r₁, runCalls env calls r.UpdateList w₁ = some r₁ ∧
            ∀ x, Event.replay f x ∉ r₁.log) ∧
        (∀ (calls : List (Call W CPath)) (w₁ : W),
          ∃ r₁, runCalls env calls r.UpdateList w₁ = some r₁ ∧
            ∀ b c x, r₁.log = b ++ .replay f x :: c → Event.defer f ∈ b)) := by
  obtain ⟨r, hr, h₁, h₂, _, h₄⟩ := runSheduledUpdate_result env dbPath l w
  obtain ⟨r₀, hr₀, hn⟩ := runSheduledUpdate_nodup env dbPath l w
  rw [hr] at hr₀
  cases hr₀
  refine ⟨r, hr, h₁, h₂, ?_⟩
  intro f a hf ha
  have habs := h₄ hl f a hf ha
  refine ⟨habs, fun calls w₁ hc => runCalls_absent env f calls r.UpdateList w₁ hc habs, ?_⟩
  intro calls w₁
  obtain ⟨r₁, s₁, hr₁, hw⟩ := runCalls_watch env f calls r.UpdateList w₁ true
    (fun _ => habs) (hn hl)
  exact ⟨r₁, hr₁, (watch_sound f r₁.log true s₁ hw).2 rfl⟩

/-- Witness for C27: `/p/a.c` and `/p/b.c` are pending; no database is found
for them, so both are dropped and the call returns false. -/
theorem runSheduledUpdate_result_and_failed_paths_witness :
    ["/p/a.c".data, "/p/b.c".data].Nodup ∧
    (runSheduledUpdate (World.rooted false false false) "/p/".data
      ["/p/a.c".data, "/p/b.c".data] ()).map (fun r => (r.ret, r.UpdateList, r.log)) =
        some (false, [], [.replay "/p/a.c".data .noDatabase, .replay "/p/b.c".data .noDatabase]) ∧
    ∃ r, runSheduledUpdate (World.rooted false false false) "/p/".data
        ["/p/a.c".data, "/p/b.c".data] () = some r ∧
      (r.ret = true ↔ ∃ f a, Event.replay f a ∈ r.log ∧ a.failed = false) :=
  ⟨by decide, by decide,
    (runSheduledUpdate_result_and_failed_paths (World.rooted false false false) "/p/".data
      ["/p/a.c".data, "/p/b.c".data] () (by decide)).imp fun _ h => ⟨h.1, h.2.1⟩⟩

/-! ## The hierarchy of the result view -/

theorem Entry.text_eq (e : Entry) : e.text = '\n' :: e.body := by
  cases e <;> rfl

theorem physLines_render :
    ∀ (es : List Entry), (∀ e ∈ es, ∀ c ∈ e.body, isEol c = false) →
      ∀ body : List Char, (∀ c ∈ body, isEol c = false) →
        physLines (body ++ render es) = body :: es.map Entry.body := by
  intro es
  induction es with
  | nil =>
    intro _ body hb
    simp only [render, List.append_nil, List.map_nil]
    exact List.splitOnP_eq_single _ _ fun x hx => by simp [hb x hx]
  | cons e es ih =>
    intro hes body hb
    have he := hes e (List.mem_cons_self _ _)
    have := ih (fun d hd => hes d (List.mem_cons_of_mem _ hd)) e.body he
    rw [render, Entry.text_eq, List.cons_append, List.map_cons, ← this]
    exact List.splitOnP_first _ _ (fun x hx => by simp [hb x hx]) '\n' rfl _

theorem owners_outline (ls : List Line) :
    ∀ prev, owners prev (outline prev ls) =
      ls.map fun l => (some l.file, l.line, l.snippet) := by
  induction ls with
  | nil => intro prev; rfl
  | cons l ls ih =>
    intro prev
    rw [outline]
    by_cases h : prev = some l.file
    · subst h
      simp [owners, ih]
    · simp [h, owners, ih]

theorem body_outline {tagLen : Nat} {ls : List Line}
    (hls : ∀ l ∈ ls, Line.WellFormed tagLen l) :
    ∀ e ∈ outline none ls, ∀ c ∈ e.body, isEol c = false := by
  intro e he c hc
  obtain ⟨l, hl, rfl | rfl⟩ := mem_outline ls none he
  · rcases List.mem_cons.1 hc with rfl | hc
    · rfl
    · exact isSpace_false_eol (isTokenChar_space ((hls l hl).file_token c hc))
  · simp only [Entry.body, List.append_assoc, List.mem_append] at hc
    rcases hc with hc | hc | hc | hc
    · revert c
      decide
    · exact isSpace_false_eol (isTokenChar_space ((hls l hl).line_token c hc))
    · revert c
      decide
    · exact (hls l hl).snippet_line c hc

/-- C24: the text that `parseCmd` appends for a well-formed raw text is made
of file lines and match lines only: its physical lines are an empty first
line (the text starts with `\n`, which ends the search header) and one line
for every entry, a tab and the path for a file heading, two tabs, `line `,
the number, a colon, a tab and the snippet for a match.  The path of a file
line is not empty and does not start with a tab.  The first line appended is
a file line, and for every match line the nearest file line in front of it
carries the file path of the record of that match. -/
theorem parseCmd_hierarchy (search : List Char) (ls : List Line) (trail : List Char)
    (hls : ∀ l ∈ ls, Line.WellFormed (strlen search) l)
    (ht : ∀ c ∈ trail, isSpace c = true) :
    ∃ es, parseCmdEntries search (wireAll ls trail) = .ok es ∧
      physLines (render es) = [] :: es.map Entry.body ∧
      (∀ p, Entry.file p ∈ es → p ≠ [] ∧ p.head? ≠ some '\t') ∧
      (ls ≠ [] → ∃ p rest, es = .file p :: rest) ∧
      owners none es = ls.map fun l => (some l.file, l.line, l.snippet) := by
  refine ⟨outline none ls, parseCmdEntries_wireAll hls ht, ?_, ?_, ?_, owners_outline ls none⟩
  · exact physLines_render _ (body_outline hls) [] (by simp)
  · intro p hp
    obtain ⟨l, hl, h | h⟩ := mem_outline ls none hp
    · cases h
      refine ⟨(hls l hl).file_ne, ?_⟩
      intro hh
      have hmem : '\t' ∈ l.file := List.mem_of_mem_head? hh
      have := isTokenChar_space ((hls l hl).file_token _ hmem)
      simp [isSpace] at this
    · cases h
  · intro hne
    cases ls with
    | nil => exact absurd rfl hne
    | cons l ls =>
      exact ⟨l.file, Entry.hit l.line l.snippet :: outline (some l.file) ls, by simp [outline]⟩

/-- Witness for C24: two records of one file and one of another. -/
theorem parseCmd_hierarchy_witness :
    (∀ l ∈ [Line.plain "foo".data "10".data "a.c".data "x y".data,
        Line.plain "foo".data "11".data "a.c".data "z".data,
        Line.plain "foo".data "3".data "b.c".data "w".data],
      Line.WellFormed (strlen "foo".data) l) ∧
    (∀ c ∈ ([] : List Char), isSpace c = true) ∧
    physLines (render [.file "a.c".data, .hit "10".data "x y".data, .hit "11".data "z".data,
        .file "b.c".data, .hit "3".data "w".data]) =
      [[], "\ta.c".data, "\t\tline 10:\tx y".data, "\t\tline 11:\tz".data, "\tb.c".data,
        "\t\tline 3:\tw".data] ∧
    ∃ es, parseCmdEntries "foo".data (wireAll
        [Line.plain "foo".data "10".data "a.c".data "x y".data,
        Line.plain "foo".data "11".data "a.c".data "z".data,
        Line.plain "foo".data "3".data "b.c".data "w".data] []) = .ok es ∧
      owners none es = [(some "a.c".data, "10".data, "x y".data),
        (some "a.c".data, "11".data, "z".data), (some "b.c".data, "3".data, "w".data)] :=
  ⟨by decide, by decide, by decide,
    (parseCmd_hierarchy "foo".data
      [Line.plain "foo".data "10".data "a.c".data "x y".data,
        Line.plain "foo".data "11".data "a.c".data "z".data,
        Line.plain "foo".data "3".data "b.c".data "w".data] []
      (by decide) (by decide)).imp fun _ h => ⟨h.1, h.2.2.2.2⟩⟩

/-! ## The entry points and the registry -/

theorem getSelection_ops (N : Nat) (i : Inputs) (a s : Bool) :
    ∀ o ∈ (getSelection N i a s).2, (∃ k, o = Op.store k) ∨ ∃ t, o = Op.messageBox t := by
  intro o ho
  unfold getSelection at ho
  dsimp only at ho
  generalize (if (s || i.selection == 0 && a) = true then i.word else i.selection) = len at ho
  split_ifs at ho
  · simp at ho
  · simp only [List.mem_singleton] at ho
    exact Or.inr ⟨_, ho⟩
  · simp only [List.mem_map] at ho
    obtain ⟨k, -, rfl⟩ := ho
    exact Or.inl ⟨k, rfl⟩
  · simp only [List.mem_singleton] at ho
    exact Or.inl ⟨0, ho⟩

theorem getSelection_value (N : Nat) (i : Inputs) (a s : Bool) :
    (getSelection N i a s).1 =
      if i.vertical = true ∨
          N ≤ (if (s || i.selection == 0 && a) = true then i.word else i.selection) then 0
      else if (s || i.selection == 0 && a) = true then i.word else i.selection := by
  unfold getSelection
  dsimp only
  generalize (if (s || i.selection == 0 && a) = true then i.word else i.selection) = len
  by_cases hv : i.vertical = true
  · simp [hv]
  · by_cases hl : len = 0
    · subst hl
      simp [hv]
    · by_cases hN : N ≤ len
      · simp [hv, hl, hN]
      · simp [hv, hl, hN]

theorem getSelection_access (N : Nat) (i : Inputs) (a s : Bool) :
    (getSelection N i a s).2.filter Op.isAccess = [] := by
  rw [List.filter_eq_nil_iff]
  intro o ho
  rcases getSelection_ops N i a s o ho with ⟨k, rfl⟩ | ⟨t, rfl⟩ <;> simp [Op.isAccess]

theorem getSelection_shift_access (N : Nat) (i : Inputs) (a s : Bool) (n : Nat) :
    ((getSelection N i a s).2.map (Op.shift n)).filter Op.isAccess = [] := by
  rw [List.filter_eq_nil_iff]
  intro o ho
  obtain ⟨o₁, ho₁, rfl⟩ := List.mem_map.1 ho
  rcases getSelection_ops N i a s o₁ ho₁ with ⟨k, rfl⟩ | ⟨t, rfl⟩ <;>
    simp [Op.isAccess, Op.shift]

theorem enterTag_access (N : Nat) (i : Inputs) (d : Option Nat) (m r : Bool) :
    (enterTag N i d m r).2.filter Op.isAccess = [] := by
  rw [List.filter_eq_nil_iff]
  intro o ho
  cases d with
  | none =>
    simp only [enterTag, List.nil_append, List.mem_singleton] at ho
    subst ho
    simp [Op.isAccess]
  | some len =>
    simp only [enterTag, List.mem_append, List.mem_map, List.mem_singleton] at ho
    rcases ho with ⟨k, -, rfl⟩ | rfl <;> simp [Op.isAccess]

theorem query_filter (i : Inputs) (pre : List Op) (c : Bool) (tail : Handle → List Op)
    (hpre : pre.filter Op.isAccess = []) (ops : List Op)
    (hops : ops = if c then pre else
      match getDatabase false i with
      | (none, g) => pre ++ g
      | (some db, g) => pre ++ g ++ tail db) :
    ops.filter Op.isAccess =
      if c = true then []
      else Op.GetDB false ::
        if (i.db && i.success) = true then (tail .granted).filter Op.isAccess else [] := by
  subst hops
  cases c
  · cases hdb : i.db <;> cases hs : i.success <;>
      simp [getDatabase, hdb, hs, hpre, List.filter_append, Op.isAccess]
  · simp [hpre]

theorem access_facts (i : Inputs) (ops : List Op) (t : Prop) [Decidable t] (id₀ : CmdID)
    (cb₀ : Callback)
    (h : ops.filter Op.isAccess =
      if t then []
      else Op.GetDB false ::
        if (i.db && i.success) = true then [Op.Run id₀ cb₀ .granted] else []) :
    (∀ w, Op.GetDB w ∈ ops → w = false) ∧ (∀ w, Op.RegisterDB w ∉ ops) ∧
      ∀ id cb h, Op.Run id cb h ∈ ops →
        Op.GetDB false ∈ ops ∧ h = .granted ∧ (getDatabase false i).1 = some .granted := by
  have hm : ∀ o, o.isAccess = true → (o ∈ ops ↔ o ∈ ops.filter Op.isAccess) := by
    intro o ho
    simp [List.mem_filter, ho]
  refine ⟨?_, ?_, ?_⟩
  · intro w hw
    rw [hm (Op.GetDB w) rfl, h] at hw
    by_cases ht : t
    · simp [ht] at hw
    · cases hd : (i.db && i.success) <;> simp [ht, hd] at hw <;> exact hw
  · intro w hw
    rw [hm (Op.RegisterDB w) rfl, h] at hw
    by_cases ht : t
    · simp [ht] at hw
    · cases hd : (i.db && i.success) <;> simp [ht, hd] at hw
  · intro id cb g hw
    rw [hm (Op.Run id cb g) rfl, h] at hw
    rw [hm (Op.GetDB false) rfl, h]
    by_cases ht : t
    · simp [ht] at hw
    · cases hd : (i.db && i.success)
      · simp [ht, hd] at hw
      · simp only [ht, hd, if_false, if_true, List.mem_cons, List.mem_singleton,
          List.not_mem_nil, or_false] at hw
        rcases hw with hw | hw
        · cases hw
        · cases hw
          rw [Bool.and_eq_true] at hd
          refine ⟨by simp [ht], rfl, ?_⟩
          simp [getDatabase, hd.1, hd.2]

theorem tag_entered (N : Nat) (i : Inputs) (sel : Nat) (d : Option Nat) (m r : Bool) :
    (!(if (sel == 0) = true then enterTag N i d m r else (true, [])).1) =
      (sel == 0 && !i.entered) := by
  cases h : sel == 0 <;> simp [enterTag]

theorem FindFile_access (N fileName : Nat) (i : Inputs) :
    (FindFile N fileName i).filter Op.isAccess =
      if (getSelection N i false false).1 = 0 ∧ i.entered = false then []
      else Op.GetDB false ::
        if (i.db && i.success) = true then [Op.Run .FIND_FILE .showResult .granted] else [] := by
  have h := query_filter i
    ((getSelection N i false false).2 ++
      (if ((getSelection N i false false).1 == 0) = true then
        enterTag N i (some (if fileName ≥ N then N - 1 else fileName)) true true
      else (true, [])).2)
    (!(if ((getSelection N i false false).1 == 0) = true then
        enterTag N i (some (if fileName ≥ N then N - 1 else fileName)) true true
      else (true, [])).1)
    (fun db => [.Run .FIND_FILE .showResult db])
    (by
      rw [List.filter_append, getSelection_access]
      split
      · exact enterTag_access _ _ _ _ _
      · rfl)
    (FindFile N fileName i) rfl
  rw [h, tag_entered]
  simp [Op.isAccess]

theorem FindDefinition_access (N : Nat) (i : Inputs) :
    (FindDefinition N i).filter Op.isAccess =
      if (getSelection N i true false).1 = 0 ∧ i.entered = false then []
      else Op.GetDB false ::
        if (i.db && i.success) = true then [Op.Run .FIND_DEFINITION .findReady .granted]
        else [] := by
  have h := query_filter i
    ((getSelection N i true false).2 ++
      (if ((getSelection N i true false).1 == 0) = true then enterTag N i none true false
      else (true, [])).2)
    (!(if ((getSelection N i true false).1 == 0) = true then enterTag N i none true false
      else (true, [])).1)
    (fun db => [.Run .FIND_DEFINITION .findReady db])
    (by
      rw [List.filter_append, getSelection_access]
      split
      · exact enterTag_access _ _ _ _ _
      · rfl)
    (FindDefinition N i) rfl
  rw [h, tag_entered]
  simp [Op.isAccess]

theorem FindReference_access (N : Nat) (i : Inputs) :
    (FindReference N i).filter Op.isAccess =
      if (getSelection N i true false).1 = 0 ∧ i.entered = false then []
      else Op.GetDB false ::
        if (i.db && i.success) = true then [Op.Run .FIND_REFERENCE .findReady .granted]
        else [] := by
  have h := query_filter i
    ((getSelection N i true false).2 ++
      (if ((getSelection N i true false).1 == 0) = true then enterTag N i none true false
      else (true, [])).2)
    (!(if ((getSelection N i true false).1 == 0) = true then enterTag N i none true false
      else (true, [])).1)
    (fun db => [.Run .FIND_REFERENCE .findReady db])
    (by
      rw [List.filter_append, getSelection_access]
      split
      · exact enterTag_access _ _ _ _ _
      · rfl)
    (FindReference N i) rfl
  rw [h, tag_entered]
  simp [Op.isAccess]

theorem Grep_access (N : Nat) (i : Inputs) :
    (Grep N i).filter Op.isAccess =
      if (getSelection N i true false).1 = 0 ∧ i.entered = false then []
      else Op.GetDB false ::
        if (i.db && i.success) = true then [Op.Run .GREP .showResult .granted] else [] := by
  have h := query_filter i
    ((getSelection N i true false).2 ++
      (if ((getSelection N i true false).1 == 0) = true then enterTag N i none true true
      else (true, [])).2)
    (!(if ((getSelection N i true false).1 == 0) = true then enterTag N i none true true
      else (true, [])).1)
    (fun db => [.Run .GREP .showResult db])
    (by
      rw [List.filter_append, getSelection_access]
      split
      · exact enterTag_access _ _ _ _ _
      · rfl)
    (Grep N i) rfl
  rw [h, tag_entered]
  simp [Op.isAccess]

theorem AutoComplete_access (N : Nat) (i : Inputs) :
    (AutoComplete N i).filter Op.isAccess =
      if (getSelection N i true true).1 = 0 then []
      else Op.GetDB false ::
        if (i.db && i.success) = true then [Op.Run .AUTOCOMPLETE .autoComplHalf .granted]
        else [] := by
  have h := query_filter i (getSelection N i true true).2
    ((getSelection N i true true).1 == 0)
    (fun db => [.Run .AUTOCOMPLETE .autoComplHalf db])
    (getSelection_access _ _ _ _) (AutoComplete N i) rfl
  rw [h]
  simp [Op.isAccess]

theorem AutoCompleteFile_access (N : Nat) (i : Inputs) :
    (AutoCompleteFile N i).filter Op.isAccess =
      if (getSelection N i true true).1 = 0 then []
      else Op.GetDB false ::
        if (i.db && i.success) = true then
          [Op.Run .AUTOCOMPLETE_FILE .autoComplReady .granted]
        else [] := by
  have h := query_filter i ((getSelection N i true true).2.map (Op.shift 1))
    ((getSelection N i true true).1 == 0)
    (fun db => [.store 0, .Run .AUTOCOMPLETE_FILE .autoComplReady db])
    (getSelection_shift_access _ _ _ _ _) (AutoCompleteFile N i) rfl
  rw [h]
  simp [Op.isAccess]

theorem autoComplHalf_access (cmd : CmdData) (i : Inputs) :
    (autoComplHalf.ops cmd i).filter Op.isAccess =
      if cmd.error = true then []
      else Op.GetDB false ::
        if (i.db && i.success) = true then
          [Op.Run .AUTOCOMPLETE_SYMBOL .autoComplReady .granted]
        else [] := by
  cases he : cmd.error <;> cases hdb : i.db <;> cases hs : i.success <;>
    simp [autoComplHalf.ops, autoComplHalf, Act.ops, getDatabase, Op.isAccess, he, hdb, hs]

theorem findReady_access (N : Nat) (cmd : CmdData) (i : Inputs) :
    (findReady.ops N cmd i).filter Op.isAccess =
      if cmd.noResult = false then []
      else Op.GetDB false ::
        if (i.db && i.success) = true then [Op.Run .FIND_SYMBOL .showResult .granted]
        else [] := by
  cases hn : cmd.noResult <;> cases he : cmd.error <;> cases hdb : i.db <;>
    cases hs : i.success <;>
    simp [findReady.ops, findReady, showResult, Act.ops, getDatabase, Op.isAccess, hn, he,
      hdb, hs]

/-- C23: the query entry points `AutoComplete`, `AutoCompleteFile`,
`FindFile`, `FindDefinition`, `FindReference` and `Grep` and the follow-ups
`autoComplHalf` and `findReady` call `GetDB` with `writeEn = false` only and
never `RegisterDB`, and they hand a command to `Cmd::Run` only after such a
`GetDB`, with the handle it granted: when `getDatabase(false)` gives no handle
they submit nothing.  `CreateDatabase`, `UpdateSingleFile` and
`DeleteDatabase` start with `GetDB` with `writeEn = true` and make every
`GetDB` and `RegisterDB` with `writeEn = true`.  The calls to the registry and
to `Cmd::Run` are these, in this order.  A query that has a tag (`getSelection`
gave a length other than zero or, where it is asked, `enterTag` gave true; a
follow-up for a command without error, with the no-result status for
`findReady`) calls `GetDB` with `writeEn = false` once and then, if and only
if the handle is granted, `Cmd::Run` once with its command; a query without a
tag calls neither.  `getSelection` gives zero for a vertical selection and for
a text of `cMaxTagLen` characters or more, else the length of the text.  A
writer calls `GetDB` with `writeEn = true` first, then: `CreateDatabase` asks
and runs or puts back when a database was found, browses and registers with
`writeEn = true` and runs otherwise; `UpdateSingleFile` runs when the handle
is granted; `DeleteDatabase` unregisters or puts back when the handle is
granted. -/
theorem queries_shared_writers_exclusive (cMaxTagLen fileName : Nat) (i : Inputs)
    (cmd : CmdData) :
    (∀ ops ∈ [AutoComplete cMaxTagLen i, AutoCompleteFile cMaxTagLen i,
        FindFile cMaxTagLen fileName i, FindDefinition cMaxTagLen i,
        FindReference cMaxTagLen i, Grep cMaxTagLen i,
        autoComplHalf.ops cmd i, findReady.ops cMaxTagLen cmd i],
      (∀ w, Op.GetDB w ∈ ops → w = false) ∧ (∀ w, Op.RegisterDB w ∉ ops) ∧
      ∀ id cb h, Op.Run id cb h ∈ ops →
        Op.GetDB false ∈ ops ∧ h = .granted ∧ (getDatabase false i).1 = some .granted) ∧
    (∀ ops ∈ [CreateDatabase i, UpdateSingleFile.ops i, DeleteDatabase i],
      ops.head? = some (Op.GetDB true) ∧ (∀ w, Op.GetDB w ∈ ops → w = true) ∧
      ∀ w, Op.RegisterDB w ∈ ops → w = true) ∧
    (AutoComplete cMaxTagLen i).filter Op.isAccess =
      (if (getSelection cMaxTagLen i true true).1 = 0 then []
      else Op.GetDB false ::
        if (i.db && i.success) = true then [Op.Run .AUTOCOMPLETE .autoComplHalf .granted]
        else []) ∧
    (AutoCompleteFile cMaxTagLen i).filter Op.isAccess =
      (if (getSelection cMaxTagLen i true true).1 = 0 then []
      else Op.GetDB false ::
        if (i.db && i.success) = true then
          [Op.Run .AUTOCOMPLETE_FILE .autoComplReady .granted]
        else []) ∧
    (FindFile cMaxTagLen fileName i).filter Op.isAccess =
      (if (getSelection cMaxTagLen i false false).1 = 0 ∧ i.entered = false then []
      else Op.GetDB false ::
        if (i.db && i.success) = true then [Op.Run .FIND_FILE .showResult .granted]
        else []) ∧
    (FindDefinition cMaxTagLen i).filter Op.isAccess =
      (if (getSelection cMaxTagLen i true false).1 = 0 ∧ i.entered = false then []
      else Op.GetDB false ::
        if (i.db && i.success) = true then [Op.Run .FIND_DEFINITION .findReady .granted]
        else []) ∧
    (FindReference cMaxTagLen i).filter Op.isAccess =
      (if (getSelection cMaxTagLen i true false).1 = 0 ∧ i.entered = false then []
      else Op.GetDB false ::
        if (i.db && i.success) = true then [Op.Run .FIND_REFERENCE .findReady .granted]
        else []) ∧
    (Grep cMaxTagLen i).filter Op.isAccess =
      (if (getSelection cMaxTagLen i true false).1 = 0 ∧ i.entered = false then []
      else Op.GetDB false ::
        if (i.db && i.success) = true then [Op.Run .GREP .showResult .granted] else []) ∧
    (autoComplHalf.ops cmd i).filter Op.isAccess =
      (if cmd.error = true then []
      else Op.GetDB false ::
        if (i.db && i.success) = true then
          [Op.Run .AUTOCOMPLETE_SYMBOL .autoComplReady .granted]
        else []) ∧
    (findReady.ops cMaxTagLen cmd i).filter Op.isAccess =
      (if cmd.noResult = false then []
      else Op.GetDB false ::
        if (i.db && i.success) = true then [Op.Run .FIND_SYMBOL .showResult .granted]
        else []) ∧
    (getSelection cMaxTagLen i true true).1 =
      (if i.vertical = true ∨ cMaxTagLen ≤ i.word then 0 else i.word) ∧
    (getSelection cMaxTagLen i true false).1 =
      (if i.vertical = true ∨
          cMaxTagLen ≤ (if i.selection = 0 then i.word else i.selection) then 0
      else if i.selection = 0 then i.word else i.selection) ∧
    (getSelection cMaxTagLen i false false).1 =
      (if i.vertical = true ∨ cMaxTagLen ≤ i.selection then 0 else i.selection) ∧
    (CreateDatabase i).filter Op.isAccess =
      Op.GetDB true ::
        (if i.db = true then
          if i.choice = true then
            [Op.Run .CREATE_DATABASE .cmdReady (if i.success = true then .granted else .denied)]
          else [Op.PutDB (if i.success = true then .granted else .denied)]
        else if i.pidl = true then
          [Op.RegisterDB true, Op.Run .CREATE_DATABASE .cmdReady .registered]
        else []) ∧
    (UpdateSingleFile.ops i).filter Op.isAccess =
      Op.GetDB true ::
        (if (i.db && i.success) = true then [Op.Run .UPDATE_SINGLE .cmdReady .granted]
        else []) ∧
    (DeleteDatabase i).filter Op.isAccess =
      Op.GetDB true ::
        (if (i.db && i.success) = true then
          if i.choice = true then [Op.UnregisterDB .granted] else [Op.PutDB .granted]
        else []) := by
  refine ⟨?_, ?_, AutoComplete_access _ _, AutoCompleteFile_access _ _, FindFile_access _ _ _,
    FindDefinition_access _ _, FindReference_access _ _, Grep_access _ _,
    autoComplHalf_access _ _, findReady_access _ _ _, ?_, ?_, ?_, ?_, ?_, ?_⟩
  · intro ops hops
    simp only [List.mem_cons, List.mem_singleton, List.not_mem_nil, or_false] at hops
    rcases hops with rfl | rfl | rfl | rfl | rfl | rfl | rfl | rfl
    · exact access_facts i _ _ _ _ (AutoComplete_access _ _)
    · exact access_facts i _ _ _ _ (AutoCompleteFile_access _ _)
    · exact access_facts i _ _ _ _ (FindFile_access _ _ _)
    · exact access_facts i _ _ _ _ (FindDefinition_access _ _)
    · exact access_facts i _ _ _ _ (FindReference_access _ _)
    · exact access_facts i _ _ _ _ (Grep_access _ _)
    · exact access_facts i _ _ _ _ (autoComplHalf_access _ _)
    · exact access_facts i _ _ _ _ (findReady_access _ _ _)
  · intro ops hops
    simp only [List.mem_cons, List.mem_singleton, List.not_mem_nil, or_false] at hops
    rcases hops with rfl | rfl | rfl
    · cases hdb : i.db <;> cases hs : i.success <;> cases hc : i.choice <;>
        cases hp : i.pidl <;> simp [CreateDatabase, hdb, hs, hc, hp]
    · cases hdb : i.db <;> cases hs : i.success <;> simp [UpdateSingleFile.ops, hdb, hs]
    · cases hdb : i.db <;> cases hs : i.success <;> cases hc : i.choice <;>
        simp [DeleteDatabase, getDatabase, hdb, hs, hc]
  · simpa using getSelection_value cMaxTagLen i true true
  · simpa using getSelection_value cMaxTagLen i true false
  · simpa using getSelection_value cMaxTagLen i false false
  · cases hdb : i.db <;> cases hs : i.success <;> cases hc : i.choice <;>
      cases hp : i.pidl <;> simp [CreateDatabase, Op.isAccess, hdb, hs, hc, hp]
  · cases hdb : i.db <;> cases hs : i.success <;>
      simp [UpdateSingleFile.ops, Op.isAccess, hdb, hs]
  · cases hdb : i.db <;> cases hs : i.success <;> cases hc : i.choice <;>
      simp [DeleteDatabase, getDatabase, Op.isAccess, hdb, hs, hc]

/-- C21: `CreateDatabase` does not read the flag `success`.  When `GetDB`
gives a pointer and clears `success`, the answer Yes hands a
`CREATE_DATABASE` command to `Cmd::Run` with the handle that was denied, and
the answer No gives that handle to `PutDB`; `getDatabase(true)` and
`UpdateSingleFile` on the same input return without either call. -/
theorem CreateDatabase_ignores_success (v : Bool) (s w : Nat) (e p u : Bool) :
    CreateDatabase ⟨v, s, w, e, true, false, true, p, u⟩ =
      [.GetDB true, .ask, .Run .CREATE_DATABASE .cmdReady .denied] ∧
    CreateDatabase ⟨v, s, w, e, true, false, false, p, u⟩ =
      [.GetDB true, .ask, .PutDB .denied] ∧
    getDatabase true ⟨v, s, w, e, true, false, true, p, u⟩ =
      (none, [.GetDB true, .messageBox "GTags database is in use".data]) ∧
    UpdateSingleFile.ops ⟨v, s, w, e, true, false, true, p, u⟩ =
      [.GetDB true, .sheduleForUpdate] :=
  ⟨rfl, rfl, rfl, rfl⟩

/-- C29: a word of `cMaxTagLen - 1` characters is accepted by `getSelection`,
and `AutoCompleteFile`, which gives `&tag[1]` to `getSelection`, then stores to
`tag[cMaxTagLen]`, one element past the array; here `cMaxTagLen = n + 2`.
Words of fewer characters are stored below `cMaxTagLen`. -/
theorem AutoCompleteFile_stores_past_tag (n s : Nat) (e d su c p u : Bool) :
    (getSelection (n + 2) ⟨false, s, n + 1, e, d, su, c, p, u⟩ true true).1 = n + 1 ∧
    Op.store (n + 2) ∈ AutoCompleteFile (n + 2) ⟨false, s, n + 1, e, d, su, c, p, u⟩ ∧
    ∀ len, len < n + 1 → ∀ k,
      Op.store k ∈ AutoCompleteFile (n + 2) ⟨false, s, len, e, d, su, c, p, u⟩ → k < n + 2 := by
  have hsel : ∀ len, 0 < len → len < n + 2 →
      getSelection (n + 2) ⟨false, s, len, e, d, su, c, p, u⟩ true true =
        (len, (List.range (len + 1)).map Op.store) := by
    intro len h₀ h₁
    have h₂ : ¬ len = 0 := by omega
    have h₃ : ¬ n + 2 ≤ len := by omega
    have h₄ : min (len + 1) (n + 2) = len + 1 := by omega
    simp [getSelection, AtoW, h₂, h₃, h₄]
  have hmem : ∀ len, 0 < len → len < n + 2 → ∀ k,
      Op.store k ∈ AutoCompleteFile (n + 2) ⟨false, s, len, e, d, su, c, p, u⟩ ↔
        (1 ≤ k ∧ k ≤ len + 1) ∨ (k = 0 ∧ d = true ∧ su = true) := by
    intro len h₀ h₁ k
    have h₂ : ¬ len = 0 := by omega
    have hex : (∃ a < len + 1, a + 1 = k) ↔ (1 ≤ k ∧ k ≤ len + 1) :=
      ⟨by rintro ⟨a, ha, rfl⟩; omega, fun h => ⟨k - 1, by omega, by omega⟩⟩
    rw [AutoCompleteFile, hsel len h₀ h₁]
    cases d <;> cases su <;>
      simp [getDatabase, h₂, Op.shift, List.mem_range, hex]
  refine ⟨by rw [hsel (n + 1) (by omega) (by omega)], ?_, ?_⟩
  · rw [hmem (n + 1) (by omega) (by omega)]
    exact Or.inl ⟨by omega, by omega⟩
  · intro len hlen k hk
    by_cases h₀ : len = 0
    · subst h₀
      simp [AutoCompleteFile, getSelection, Op.shift] at hk
      omega
    · rw [hmem len (by omega) (by omega)] at hk
      omega

/-! ## The fall-back of a definition or reference search -/

theorem runsFrom_showResult (cMaxTagLen : Nat) (outcomes : List (CmdData × Bool)) :
    runsFrom cMaxTagLen .showResult outcomes = 1 := by
  cases outcomes with
  | nil => rfl
  | cons o rest =>
    cases he : o.1.error <;> cases hn : o.1.noResult <;>
      simp [runsFrom, Callback.acts, showResult, Act.continuation, he, hn]

/-- C26: when the command given to `findReady` has the no-result status and
`getDatabase()` gives a handle, `findReady` hands the same command object to
`Cmd::Run` with the identifier `FIND_SYMBOL`, the name `cFindSymbol`, the new
handle, the tag and the flags it had, and the continuation `showResult`.
`showResult` hands no command to `Cmd::Run`: a run that continues with
`showResult` is one run, and a run that continues with `findReady` leads to at
most two runs, whatever the outcomes.  For a command without the no-result
status `findReady` makes the calls of `showResult` and runs nothing. -/
theorem findReady_falls_back_once (cMaxTagLen : Nat) (cFindSymbol : List Char)
    (cmd : CmdData) (args : CmdArgs) (h : Handle) (db : Bool)
    (outcomes : List (CmdData × Bool)) :
    (cmd.noResult = true →
      findReady cMaxTagLen cmd true = [.getDatabase, .cmdRun .FIND_SYMBOL .showResult] ∧
      findReady.run cFindSymbol args cmd.noResult (some h) =
        some (⟨.FIND_SYMBOL, cFindSymbol, h, args.tag, args.regExp, args.matchCase⟩,
          .showResult)) ∧
    (∀ id cb, Act.cmdRun id cb ∉ showResult cMaxTagLen cmd) ∧
    runsFrom cMaxTagLen .showResult outcomes = 1 ∧
    runsFrom cMaxTagLen .findReady outcomes ≤ 2 ∧
    (cmd.noResult = false →
      findReady cMaxTagLen cmd db = showResult cMaxTagLen cmd ∧
      findReady.run cFindSymbol args cmd.noResult (some h) = none) := by
  refine ⟨?_, ?_, runsFrom_showResult _ _, ?_, ?_⟩
  · intro hn
    rw [hn]
    exact ⟨by simp [findReady, hn], rfl⟩
  · intro id cb
    cases he : cmd.error <;> cases hn : cmd.noResult <;> simp [showResult, he, hn]
  · cases outcomes with
    | nil => simp [runsFrom]
    | cons o rest =>
      cases he : o.1.error <;> cases hn : o.1.noResult <;> cases hd : o.2 <;>
        simp [runsFrom, Callback.acts, findReady, showResult, Act.continuation, he, hn, hd,
          runsFrom_showResult]
  · intro hn
    rw [hn]
    exact ⟨by simp [findReady, hn], rfl⟩

/-- Witness for C26: a definition search for `foo` that finds nothing falls
back to a symbol search, which makes the second and last run. -/
theorem findReady_falls_back_once_witness :
    findReady 64 ⟨"C:\\p\\".data, "foo".data, [], false, true⟩ true =
      [.getDatabase, .cmdRun .FIND_SYMBOL .showResult] ∧
    findReady.run "Find Symbol".data
        ⟨.FIND_DEFINITION, "Find Definition".data, .granted, "foo".data, false, true⟩ true
        (some .granted) =
      some (⟨.FIND_SYMBOL, "Find Symbol".data, .granted, "foo".data, false, true⟩,
        .showResult) ∧
    runsFrom 64 .findReady
      [(⟨"C:\\p\\".data, "foo".data, [], false, true⟩, true),
        (⟨"C:\\p\\".data, "foo".data, [], false, true⟩, true)] = 2 :=
  ⟨((findReady_falls_back_once 64 "Find Symbol".data
      ⟨"C:\\p\\".data, "foo".data, [], false, true⟩
      ⟨.FIND_DEFINITION, "Find Definition".data, .granted, "foo".data, false, true⟩
      .granted true []).1 rfl).1,
    ((findReady_falls_back_once 64 "Find Symbol".data
      ⟨"C:\\p\\".data, "foo".data, [], false, true⟩
      ⟨.FIND_DEFINITION, "Find Definition".data, .granted, "foo".data, false, true⟩
      .granted true []).1 rfl).2,
    by decide⟩

/-! ## Opening a line of the result view -/

theorem scanLine_none {t : List Char} (ht : ∀ c ∈ t, isEol c = false) : scanLine t = none := by
  induction t with
  | nil => rfl
  | cons c cs ih =>
    have hc : isEol c = false := ht c (List.mem_cons_self _ _)
    have := ih fun d hd => ht d (List.mem_cons_of_mem _ hd)
    simp [scanLine, hc, this]

theorem scanColon_append {ds : List Char} (hds : ∀ c ∈ ds, c ≠ ':') (r : List Char) :
    scanColon (ds ++ ':' :: r) = some ds := by
  induction ds with
  | nil => simp [scanColon]
  | cons c cs ih =>
    have hc : c ≠ ':' := hds c (List.mem_cons_self _ _)
    have := ih fun d hd => hds d (List.mem_cons_of_mem _ hd)
    simp [scanColon, hc, this]

theorem atoiDigits_digits :
    ∀ (ds : List Char) (acc : Nat), (∀ c ∈ ds, c.isDigit = true) →
      atoiDigits acc ds = ds.foldl (fun n c => 10 * n + (c.toNat - '0'.toNat)) acc := by
  intro ds
  induction ds with
  | nil => intro acc _; rfl
  | cons c cs ih =>
    intro acc h
    have hc : c.isDigit = true := h c (List.mem_cons_self _ _)
    rw [atoiDigits, if_pos hc, List.foldl_cons]
    exact ih _ fun d hd => h d (List.mem_cons_of_mem _ hd)

theorem isDigit_not_special {c : Char} (h : c.isDigit = true) :
    isspace c = false ∧ c ≠ '-' ∧ c ≠ '+' ∧ c ≠ ':' := by
  refine ⟨?_, ?_, ?_, ?_⟩
  · cases hs : isspace c with
    | false => rfl
    | true =>
      simp only [isspace, Bool.or_eq_true, beq_iff_eq] at hs
      rcases hs with ((((rfl | rfl) | rfl) | rfl) | rfl) | rfl <;> revert h <;> decide
  · rintro rfl
    revert h
    decide
  · rintro rfl
    revert h
    decide
  · rintro rfl
    revert h
    decide

theorem toInt32_fits {v : Int} (h₀ : -(2 ^ 31) ≤ v) (h₁ : v < 2 ^ 31) : toInt32 v = v := by
  unfold toInt32
  norm_num at h₀ h₁ ⊢
  omega

theorem strtol_digits {ds : List Char} (h : ∀ c ∈ ds, c.isDigit = true) :
    strtol ds = max (-(2 ^ 63)) (min (decimal ds : Int) (2 ^ 63 - 1)) := by
  cases ds with
  | nil => rfl
  | cons c cs =>
    have hc := isDigit_not_special (h c (List.mem_cons_self _ _))
    have hdrop : (c :: cs).dropWhile isspace = c :: cs := by
      simp [List.dropWhile, hc.1]
    unfold strtol
    rw [hdrop]
    dsimp only
    split
    · rename_i heq
      cases heq
      exact absurd rfl hc.2.1
    · rename_i heq
      cases heq
      exact absurd rfl hc.2.2.1
    · rw [atoiDigits_digits _ _ h]
      rfl

theorem atoi_digits {ds : List Char} (h : ∀ c ∈ ds, c.isDigit = true)
    (hfit : decimal ds < 2 ^ 31) : atoi ds = (decimal ds : Int) := by
  have h₁ : ((decimal ds : Nat) : Int) < 2 ^ 31 := by exact_mod_cast hfit
  have h₀ : (0 : Int) ≤ (decimal ds : Int) := Int.natCast_nonneg _
  have hs : strtol ds = (decimal ds : Int) := by
    rw [strtol_digits h]
    norm_num at h₁ ⊢
    omega
  rw [atoi, hs]
  exact toInt32_fits (by norm_num; omega) h₁

theorem openItem_file_eol (projectPath : List Char) {p : List Char}
    (hp : ∀ c ∈ p, isEol c = false ∧ c ≠ '\x00') (r : List Char) (line : Int) :
    openItem.file projectPath ('\t' :: p ++ '\n' :: r) line =
      .ok (some (projectPath ++ p, line)) := by
  have hc : cstr p = p := by
    have := cstr_append (fun c hc => (hp c hc).2) []
    simpa [cstr] using this
  simp [openItem.file, scanLine_append (fun c hc => (hp c hc).1) (show isEol '\n' = true from rfl),
    hc]

theorem openItem_file_last (projectPath : List Char) {p : List Char}
    (hp : ∀ c ∈ p, isEol c = false) (line : Int) :
    openItem.file projectPath ('\t' :: p) line = .outOfBounds := by
  simp [openItem.file, scanLine_none hp]

theorem physLines_sub (t : List Char) : ∀ l ∈ physLines t, ∀ c ∈ l, c ∈ t := by
  unfold physLines
  induction t with
  | nil => intro l hl c hc; simp at hl; subst hl; simp at hc
  | cons d y ih =>
    intro l hl c hc
    rw [List.splitOnP_cons] at hl
    cases hd : isEol d with
    | true =>
      rw [hd, if_pos rfl] at hl
      rcases List.mem_cons.1 hl with rfl | hl
      · simp at hc
      · exact List.mem_cons_of_mem _ (ih l hl c hc)
    | false =>
      rw [hd] at hl
      simp only [Bool.false_eq_true, if_false] at hl
      cases hs : List.splitOnP isEol y with
      | nil => exact absurd hs (List.splitOnP_ne_nil _ _)
      | cons h tl =>
        rw [hs] at hl ih
        simp only [List.modifyHead_cons] at hl
        rcases List.mem_cons.1 hl with rfl | hl
        · rcases List.mem_cons.1 hc with rfl | hc
          · exact List.mem_cons_self _ _
          · exact List.mem_cons_of_mem _ (ih h (List.mem_cons_self _ _) c hc)
        · exact List.mem_cons_of_mem _ (ih l (List.mem_cons_of_mem _ hl) c hc)

theorem mem_fileRecords {t : List Char} {e : Entry} (he : e ∈ fileRecords t) :
    ∃ c p, e = .file (c :: p) ∧ isBlank c = false ∧
      ∀ d ∈ c :: p, isEol d = false ∧ d ∈ t := by
  unfold fileRecords at he
  obtain ⟨l, hl, rfl⟩ := List.mem_map.1 he
  obtain ⟨hl₁, hl₂⟩ := List.mem_filter.1 hl
  have hsub : ∀ d ∈ trimLeft l, d ∈ l := fun d hd =>
    (List.dropWhile_sublist isBlank).subset hd
  cases htl : trimLeft l with
  | nil =>
    exfalso
    simp only [nonBlank, List.any_eq_true, Bool.not_eq_true'] at hl₂
    obtain ⟨x, hx, hxs⟩ := hl₂
    have hall : ∀ y ∈ l, isBlank y = true := by
      have := htl
      simp only [trimLeft, List.dropWhile_eq_nil_iff] at this
      exact this
    have := isBlank_isSpace (hall x hx)
    rw [hxs] at this
    cases this
  | cons c p =>
    refine ⟨c, p, rfl, ?_, ?_⟩
    · have := List.head_dropWhile_not isBlank l (by
        show List.dropWhile isBlank l ≠ []
        have h₁ : List.dropWhile isBlank l = c :: p := htl
        rw [h₁]
        exact List.cons_ne_nil _ _)
      have h₁ : List.dropWhile isBlank l = c :: p := htl
      simp only [h₁, List.head_cons] at this
      simpa using this
    · intro d hd
      have hdl : d ∈ l := hsub d (htl ▸ hd)
      exact ⟨mem_physLines t l hl₁ d hdl, physLines_sub t l hl₁ d hdl⟩

theorem outline_of_mem {l : Line} :
    ∀ (ls : List Line) (prev : Option (List Char)), l ∈ ls →
      Entry.hit l.line l.snippet ∈ outline prev ls ∧
        (Entry.file l.file ∈ outline prev ls ∨ prev = some l.file) := by
  intro ls
  induction ls with
  | nil => intro prev h; cases h
  | cons l₁ ls ih =>
    intro prev h
    rw [outline]
    rcases List.mem_cons.1 h with rfl | h
    · by_cases hp : prev = some l.file
      · exact ⟨by simp, Or.inr hp⟩
      · exact ⟨by simp, Or.inl (by simp [hp])⟩
    · obtain ⟨h₁, h₂⟩ := ih (some l₁.file) h
      refine ⟨by simp [h₁], ?_⟩
      rcases h₂ with h₂ | h₂
      · exact Or.inl (by simp [h₂])
      · have hf : l₁.file = l.file := Option.some.inj h₂
        by_cases hp : prev = some l₁.file
        · exact Or.inr (hf ▸ hp)
        · refine Or.inl ?_
          rw [if_neg hp, hf]
          simp

theorem openItem_hit (projectPath : List Char) {line : List Char} (snippet eol : List Char)
    (hline : ∀ c ∈ line, c.isDigit = true) (hfit : decimal line < 2 ^ 31)
    (foldParent : Option (List Char)) :
    openItem projectPath ((Entry.hit line snippet).body ++ eol) foldParent =
      match foldParent with
      | none => .ok none
      | some parentTxt => openItem.file projectPath parentTxt ((decimal line : Int) - 1) := by
  have hcolon : ∀ c ∈ line, c ≠ ':' := fun c hc => (isDigit_not_special (hline c hc)).2.2.2
  have hdrop : ((Entry.hit line snippet).body ++ eol).drop 7 =
      line ++ ':' :: ('\t' :: (snippet ++ eol)) := by
    simp [Entry.body]
  have hget : ((Entry.hit line snippet).body ++ eol).get? 1 = some '\t' := by
    simp [Entry.body]
  unfold openItem
  rw [hget]
  simp only [beq_self_eq_true, if_true]
  rw [hdrop, scanColon_append hcolon]
  dsimp only
  have h₁ : ((decimal line : Nat) : Int) < 2 ^ 31 := by exact_mod_cast hfit
  have h₀ : (0 : Int) ≤ (decimal line : Int) := Int.natCast_nonneg _
  rw [atoi_digits hline hfit, toInt32_fits (by norm_num; omega) (by norm_num at h₁ ⊢; omega)]

theorem openItem_file_line (projectPath : List Char) {c : Char} {p : List Char}
    (hc : isBlank c = false) (rest : List Char) (foldParent : Option (List Char)) :
    openItem projectPath ((Entry.file (c :: p)).body ++ rest) foldParent =
      openItem.file projectPath ((Entry.file (c :: p)).body ++ rest) (-1) := by
  have hget : ((Entry.file (c :: p)).body ++ rest).get? 1 = some c := by
    simp [Entry.body]
  have hne : (c == '\t') = false := by
    cases h : c == '\t' with
    | false => rfl
    | true =>
      rw [beq_iff_eq] at h
      subst h
      simp [isBlank] at hc
  unfold openItem
  rw [hget]
  simp only [hne, Bool.false_eq_true, if_false]

/-- C25: for the well-formed records of a match result whose line numbers are
decimal numerals below `2 ^ 31`, the values that fit in the `int` of `atoi`,
`parseCmd` appends the match line and the file line of every record, and
`openItem` decodes the match line, with the file line as its fold parent, to
the file path behind the project path and to the line number less one, and the
file line to the path and `-1`.  A file line that `parseFindFile`
appends is decoded to its path and `-1` when a line terminator follows it in
the view.  The last line of the view of a file list has no line terminator:
there the loop of line 557 passes the terminating NUL and reads behind the
array. -/
theorem openItem_decodes (projectPath search src : List Char) (ls : List Line)
    (trail : List Char) (foldParent : Option (List Char))
    (hls : ∀ l ∈ ls, Line.WellFormed (strlen search) l)
    (ht : ∀ c ∈ trail, isSpace c = true)
    (hdigits : ∀ l ∈ ls, ∀ c ∈ l.line, c.isDigit = true)
    (hfit : ∀ l ∈ ls, decimal l.line < 2 ^ 31) :
    (∃ es, parseCmdEntries search (wireAll ls trail) = .ok es ∧
      ∀ l ∈ ls, Entry.hit l.line l.snippet ∈ es ∧ Entry.file l.file ∈ es ∧
        (∀ eol, openItem projectPath ((Entry.hit l.line l.snippet).body ++ eol)
            (some ((Entry.file l.file).body ++ ['\n'])) =
          .ok (some (projectPath ++ l.file, (decimal l.line : Int) - 1))) ∧
        openItem projectPath ((Entry.file l.file).body ++ ['\n']) foldParent =
          .ok (some (projectPath ++ l.file, -1))) ∧
    (∃ es, parseFindFileEntries src = .ok es ∧
      (∀ p, Entry.file p ∈ es →
        openItem projectPath ((Entry.file p).body ++ ['\n']) foldParent =
          .ok (some (projectPath ++ p, -1))) ∧
      ∀ e, es.getLast? = some e →
        (physLines (render es)).getLast? = some e.body ∧
          openItem projectPath e.body foldParent = .outOfBounds) := by
  constructor
  · refine ⟨outline none ls, parseCmdEntries_wireAll hls ht, ?_⟩
    intro l hl
    obtain ⟨h₁, h₂⟩ := outline_of_mem ls none hl
    have hfile : ∀ c ∈ l.file, isEol c = false ∧ c ≠ '\x00' := fun c hc =>
      ⟨isSpace_false_eol (isTokenChar_space ((hls l hl).file_token c hc)),
        isTokenChar_nul ((hls l hl).file_token c hc)⟩
    refine ⟨h₁, h₂.resolve_right (by simp), ?_, ?_⟩
    · intro eol
      rw [openItem_hit projectPath _ _ (hdigits l hl) (hfit l hl)]
      exact openItem_file_eol projectPath hfile [] _
    · cases hf : l.file with
      | nil => exact absurd hf (hls l hl).file_ne
      | cons c p =>
        have hc : isBlank c = false :=
          isSpace_false_blank (isTokenChar_space ((hls l hl).file_token c (by simp [hf])))
        rw [openItem_file_line projectPath hc]
        exact openItem_file_eol projectPath (hf ▸ hfile) [] _
  · refine ⟨fileRecords (cstr src), parseFindFileEntries_eq _ src le_rfl, ?_, ?_⟩
    · intro p hp
      obtain ⟨c, q, he, hc, hq⟩ := mem_fileRecords hp
      cases he
      rw [openItem_file_line projectPath hc]
      refine openItem_file_eol projectPath (fun d hd => ⟨(hq d hd).1, ?_⟩) [] _
      have := List.mem_takeWhile_imp (hq d hd).2
      simpa using this
    · intro e he
      have hmem : e ∈ fileRecords (cstr src) := List.mem_of_mem_getLast? he
      obtain ⟨c, q, rfl, hc, hq⟩ := mem_fileRecords hmem
      constructor
      · have hbody : ∀ e ∈ fileRecords (cstr src), ∀ d ∈ e.body, isEol d = false := by
          intro e₁ he₁ d hd
          obtain ⟨c₁, q₁, rfl, -, hq₁⟩ := mem_fileRecords he₁
          rcases List.mem_cons.1 hd with rfl | hd
          · rfl
          · exact (hq₁ d hd).1
        have := physLines_render _ hbody [] (by simp)
        rw [List.nil_append] at this
        rw [this, List.getLast?_cons, List.getLast?_map, he]
        rfl
      · have := @openItem_file_line projectPath c q hc [] foldParent
        rw [List.append_nil] at this
        rw [this]
        exact openItem_file_last projectPath (fun d hd => (hq d hd).1) _

/-- Witness for C25: a match of `foo` on line 10 of `a.c`, and the file list
`a.c`, `b.c`, whose last line `b.c` cannot be opened. -/
theorem openItem_decodes_witness :
    (∀ l ∈ [Line.plain "foo".data "10".data "a.c".data "int foo;".data],
      Line.WellFormed (strlen "foo".data) l) ∧
    (∀ c ∈ ([] : List Char), isSpace c = true) ∧
    (∀ l ∈ [Line.plain "foo".data "10".data "a.c".data "int foo;".data],
      ∀ c ∈ l.line, c.isDigit = true) ∧
    (∀ l ∈ [Line.plain "foo".data "10".data "a.c".data "int foo;".data],
      decimal l.line < 2 ^ 31) ∧
    openItem "C:\\p\\".data "\t\tline 10:\tint foo;".data (some "\ta.c\n".data) =
      .ok (some ("C:\\p\\a.c".data, 9)) ∧
    openItem "C:\\p\\".data "\t\tline 99999999999:\tx".data (some "\ta.c\n".data) =
      .ok (some ("C:\\p\\a.c".data, 1215752190)) ∧
    openItem "C:\\p\\".data "\ta.c\n".data none = .ok (some ("C:\\p\\a.c".data, -1)) ∧
    parseFindFile "Find File".data "a.c\nb.c\n".data = .ok "Find File\n\ta.c\n\tb.c".data ∧
    openItem "C:\\p\\".data "\tb.c".data none = .outOfBounds ∧
    ∃ es, parseFindFileEntries "a.c\nb.c\n".data = .ok es ∧
      ∀ e, es.getLast? = some e → openItem "C:\\p\\".data e.body none = .outOfBounds :=
  ⟨by decide, by decide, by decide, by decide, by decide, by decide, by decide, by decide,
    by decide,
    (openItem_decodes "C:\\p\\".data "foo".data "a.c\nb.c\n".data
      [Line.plain "foo".data "10".data "a.c".data "int foo;".data] [] none
      (by decide) (by decide) (by decide) (by decide)).2.imp
      fun _ h => ⟨h.1, fun e he => (h.2.2 e he).2⟩⟩

/-! ## The configuration window -/

theorem startsWith_append (lib r : List Char) : startsWith (lib ++ r) lib = true := by
  induction lib with
  | nil => cases r <;> rfl
  | cons c cs ih => simp [startsWith, ih]

theorem strstr_self (lib r : List Char) : strstr (lib ++ r) lib = some (lib ++ r) := by
  cases h : lib ++ r with
  | nil =>
    have := startsWith_append lib r
    rw [h] at this
    simp [strstr, this]
  | cons c cs =>
    have := startsWith_append lib r
    rw [h] at this
    simp [strstr, this]

theorem fillLibDbLoop_stuck (lib : List Char) (c : Char) (post : List Char)
    (hc : (c == '\x00' || c == '\n' || c == '\r') = false) :
    ∀ fuel, fillLibDbLoop lib fuel (some (lib ++ c :: post)) = .outOfFuel := by
  intro fuel
  induction fuel with
  | zero => rfl
  | succ n ih =>
    have hd : ((lib ++ c :: post).drop lib.length).headD '\x00' = c := by simp
    rw [fillLibDbLoop]
    simp only [hd, hc, Bool.false_eq_true, if_false]
    rw [strstr_self, ih]

/-- C28: when the library path stands at the start of the text of the edit
box and the character behind it is neither the end of the text nor a line
terminator, `_tcsstr(ptr, lib)` finds the same position again and the loop of
`fillLibDb` never ends: no budget of iterations gives a result.  When the
path is a whole line of the text, the loop ends with `found` set. -/
theorem fillLibDb_never_returns (fuel : Nat) (lib : List Char) (c : Char) (post : List Char)
    (hc : (c == '\x00' || c == '\n' || c == '\r') = false) :
    fillLibDb fuel (lib ++ c :: post) lib = .outOfFuel ∧
    fillLibDb (fuel + 1) (lib ++ '\n' :: post) lib = .ok (lib ++ '\n' :: post) := by
  constructor
  · have hl : ((lib ++ c :: post).length != 0) = true := by simp
    rw [fillLibDb, if_pos hl, strstr_self, fillLibDbLoop_stuck lib c post hc]
  · have hl : ((lib ++ '\n' :: post).length != 0) = true := by simp
    have hd : ((lib ++ '\n' :: post).drop lib.length).headD '\x00' = '\n' := by simp
    rw [fillLibDb, if_pos hl, strstr_self, fillLibDbLoop]
    simp [hd]

/-- Witness for C28: the text `C:\libfoo` and the path `C:\lib`. -/
theorem fillLibDb_never_returns_witness :
    (('f' == '\x00' || 'f' == '\n' || 'f' == '\r') = false) ∧
    fillLibDb 1000 "C:\\libfoo".data "C:\\lib".data = .outOfFuel ∧
    fillLibDb 1001 "C:\\lib\noo".data "C:\\lib".data = .ok "C:\\lib\noo".data :=
  ⟨by decide, fillLibDb_never_returns 1000 "C:\\lib".data 'f' "oo".data (by decide)⟩

/-- C30: when writing the configuration file fails, `saveConfig` returns false
and leaves the configuration of every database and the default configuration
as they were.  When it succeeds, `saveConfig` returns true; for a tab with a
database it sets the configuration of that database to the one of the tab and
leaves the other databases and the default configuration as they were, for a
tab without a database it sets the default configuration and leaves every
database as it was. -/
theorem saveConfig_atomic {Db Cfg : Type} [DecidableEq Db] (tab : ConfigWin.Tab Db Cfg)
    (st : Configs Db Cfg) :
    saveConfig false tab st = (false, st) ∧
    (saveConfig true tab st).1 = true ∧
    match tab.db with
    | some db =>
      (saveConfig true tab st).2.config db = tab.cfg ∧
      (∀ d, d ≠ db → (saveConfig true tab st).2.config d = st.config d) ∧
      (saveConfig true tab st).2.DefaultDbCfg = st.DefaultDbCfg
    | none =>
      (saveConfig true tab st).2.config = st.config ∧
      (saveConfig true tab st).2.DefaultDbCfg = tab.cfg := by
  refine ⟨rfl, ?_, ?_⟩
  · cases h : tab.db <;> simp [saveConfig, h]
  · cases h : tab.db with
    | none => simp [saveConfig, h]
    | some db =>
      simp only [saveConfig, h, Bool.not_true, Bool.false_eq_true, if_false]
      exact ⟨Function.update_same _ _ _, fun d hd => Function.update_noteq hd _ _, trivial⟩

/-! ## The calls of `UpdateSingleFile` and its attempt -/

theorem UpdateSingleFile_ops_attempt {W CPath : Type} [DecidableEq CPath]
    (env : World W CPath) (file : Option CPath) (l : List CPath) (w : W) (i : Inputs)
    (hdb : i.db = (env.getDB w (file.getD (env.filePath w))).1.1)
    (hs : i.success = (env.getDB w (file.getD (env.filePath w))).1.2) :
    (Op.sheduleForUpdate ∈ UpdateSingleFile.ops i ↔
      (UpdateSingleFile env file l w).attempt = .busy) ∧
    (Op.Run .UPDATE_SINGLE .cmdReady .granted ∈ UpdateSingleFile.ops i ↔
      (UpdateSingleFile env file l w).attempt = .rejected ∨
        (UpdateSingleFile env file l w).attempt = .submitted) := by
  cases file <;>
    simp only [Option.getD] at hdb hs <;>
    cases h₁ : i.db <;> cases h₂ : i.success <;>
    rw [h₁] at hdb <;> rw [h₂] at hs <;>
    simp [UpdateSingleFile.ops, UpdateSingleFile, h₁, h₂, ← hdb, ← hs] <;>
    split <;> simp

end GTags
